import Mathlib

/-!
Verification development for the geodesic computation engine
(`backend/main.go` embedded C++ `MeshEngine` and `engine/include/analytics.hpp`).

Modelling conventions:
* C++ `double` is modelled by an arbitrary `LinearOrderedField α` (instantiated
  at `ℝ` for claims that mention concrete transcendental values, at `ℚ` for
  executable witnesses).  Ideal-field arithmetic: no rounding, no NaN/Inf
  (`std::isfinite` checks are always true in the model).
* `std::numeric_limits<double>::max()`, used by `MeshEngine::solve` as the
  "infinity sentinel" for distances, is modelled by `⊤ : WithTop α`.
* `std::priority_queue<pair<double,int>, …, std::greater<>>` pops a minimal
  element under lexicographic pair order; it is modelled by a list kept sorted
  by that order (`pqInsert` / head-pop), which is extensionally the same pop
  discipline.
* library calls such as `std::sqrt`, `std::sin`, … are kept abstract as
  function parameters and instantiated with `Real.sqrt`, `Real.sin`, … in the
  claim statements.
-/

namespace GeoEngine

/-- `struct Vec3 { double x, y, z; }` from `common.hpp`. -/
structure Vec3 (α : Type) where
  x : α
  y : α
  z : α
deriving Repr, DecidableEq

instance {α : Type} [OfNat α 0] : Inhabited (Vec3 α) := ⟨⟨0, 0, 0⟩⟩

/-- `struct Edge { int targetVertex; double weight; }` from `mesh_engine.hpp`. -/
structure Edge (α : Type) where
  targetVertex : ℕ
  weight : α
deriving Repr, DecidableEq

/-- `using Face = std::array<int, 3>` from `common.hpp` (indices are
non-negative whenever stored by `loadOBJ`, hence `ℕ`). -/
structure Face where
  a : ℕ
  b : ℕ
  c : ℕ
deriving Repr, DecidableEq

/-- `struct DijkstraResult` from `mesh_engine.hpp`. -/
structure DijkstraResult (α : Type) where
  totalDistance : WithTop α
  reachable : Bool
  path : List ℕ
  allDistances : List (WithTop α)

section Mesh

variable {α : Type} [LinearOrderedField α]

/-- The squared-distance part of `dist` in `backend` `MeshEngine`:
`pow(v2.x - v1.x, 2) + pow(v2.y - v1.y, 2) + pow(v2.z - v1.z, 2)`. -/
def sqDist (v1 v2 : Vec3 α) : α :=
  (v2.x - v1.x) ^ 2 + (v2.y - v1.y) ^ 2 + (v2.z - v1.z) ^ 2

/-- `MeshEngine::addEdge`: grow `graph` to `max(v1,v2)+1` buckets if needed,
compute `d = dist(vertices[v1], vertices[v2])` and push the entry in both
directions.  The distance function is a parameter (`fun a b =>
Real.sqrt (sqDist a b)` in the claims). -/
def addEdge (distFn : Vec3 α → Vec3 α → α) (verts : List (Vec3 α))
    (g : List (List (Edge α))) (v1 v2 : ℕ) : List (List (Edge α)) :=
  let g := if g.length ≤ max v1 v2 then
    g ++ List.replicate (max v1 v2 + 1 - g.length) [] else g
  let d := distFn (verts.getD v1 default) (verts.getD v2 default)
  let g := g.set v1 (g.getD v1 [] ++ [⟨v2, d⟩])
  g.set v2 (g.getD v2 [] ++ [⟨v1, d⟩])

/-- The three `addEdge` calls `loadOBJ` makes for one stored triangle
`(a, b, c)`: `addEdge(a,b); addEdge(b,c); addEdge(c,a)`. -/
def addFaceEdges (distFn : Vec3 α → Vec3 α → α) (verts : List (Vec3 α))
    (g : List (List (Edge α))) (f : Face) : List (List (Edge α)) :=
  addEdge distFn verts (addEdge distFn verts (addEdge distFn verts g f.a f.b) f.b f.c) f.c f.a

/-- The edge graph accumulated by `loadOBJ` over its stored triangles.
(`addEdge` reads only vertices already present when it is called and vertex
coordinates are never mutated, so folding over the final face list with the
final vertex list is the same graph.) -/
def buildGraph (distFn : Vec3 α → Vec3 α → α) (verts : List (Vec3 α))
    (faces : List Face) : List (List (Edge α)) :=
  faces.foldl (fun g f => addFaceEdges distFn verts g f) []

end Mesh

section Dijkstra

variable {α : Type} [LinearOrderedField α]

/-- Lexicographic order on `pair<double,int>` used by the `std::greater<>`
min-priority queue. -/
def pairLe (a b : WithTop α × ℕ) : Prop :=
  a.1 < b.1 ∨ (a.1 = b.1 ∧ a.2 ≤ b.2)

instance pairLeDec (a b : WithTop α × ℕ) : Decidable (pairLe a b) := by
  unfold pairLe; infer_instance

/-- Insert into the sorted queue model (stable: equal keys go after). -/
def pqInsert (x : WithTop α × ℕ) : List (WithTop α × ℕ) → List (WithTop α × ℕ)
  | [] => [x]
  | y :: ys => if pairLe x y then x :: y :: ys else y :: pqInsert x ys

/-- Mutable state of `MeshEngine::solve`'s main loop:
`min_dist`, `parent` (with `-1` as `none`) and the priority queue. -/
structure DState (α : Type) where
  md : List (WithTop α)
  par : List (Option ℕ)
  pq : List (WithTop α × ℕ)

/-- One relaxation `if (min_dist[u] + edge.weight < min_dist[edge.targetVertex]) …`. -/
def relaxOne (u : ℕ) (st : DState α) (e : Edge α) : DState α :=
  let cand := st.md.getD u ⊤ + (e.weight : WithTop α)
  if cand < st.md.getD e.targetVertex ⊤ then
    { md := st.md.set e.targetVertex cand
      par := st.par.set e.targetVertex (some u)
      pq := pqInsert (cand, e.targetVertex) st.pq }
  else st

/-- The `while (!pq.empty())` loop of `MeshEngine::solve`.  The C++ loop has no
fuel; `solve` below supplies fuel `n + Σ|graph[u]| + 2`, which is shown
sufficient (the loop exits by emptiness or the `u == target` break first). -/
def dijkstraLoop (g : List (List (Edge α))) (target : ℕ) :
    ℕ → DState α → DState α
  | 0, st => st
  | fuel + 1, st =>
    match st.pq with
    | [] => st
    | (d, u) :: rest =>
      if u = target then { st with pq := rest }
      else if st.md.getD u ⊤ < d then dijkstraLoop g target fuel { st with pq := rest }
      else dijkstraLoop g target fuel
        ((g.getD u []).foldl (relaxOne u) { st with pq := rest })

/-- `for (int v = target; v != -1; v = parent[v]) path.push_back(v);`
(fuel-bounded; parent chains are shown acyclic so `n+1` fuel suffices). -/
def buildPathAux (par : List (Option ℕ)) : ℕ → ℕ → List ℕ → List ℕ
  | 0, _, acc => acc
  | fuel + 1, v, acc =>
    match par.getD v none with
    | none => acc ++ [v]
    | some p => buildPathAux par fuel p (acc ++ [v])

/-- Total number of adjacency entries of the graph. -/
def totalEntries (g : List (List (Edge α))) : ℕ := (g.map List.length).sum

/-- `MeshEngine::solve` (the `backend` version, with `reachable`).
`n` is `vertices.size()`. -/
def solve (g : List (List (Edge α))) (n start target : ℕ) : DijkstraResult α :=
  let md0 := (List.replicate n (⊤ : WithTop α)).set start 0
  let st0 : DState α := ⟨md0, List.replicate n none, [((0 : WithTop α), start)]⟩
  let st := dijkstraLoop g target (n + totalEntries g + 2) st0
  let reachable : Bool := decide (start = target) || decide (st.par.getD target none ≠ none)
  let path : List ℕ :=
    if reachable then (buildPathAux st.par (n + 1) target []).reverse else []
  ⟨st.md.getD target ⊤, reachable, path, st.md⟩

/-- `MeshEngine::solve` on a loaded mesh: the graph comes from the faces,
with the given edge-distance function. -/
def meshSolve (distFn : Vec3 α → Vec3 α → α) (verts : List (Vec3 α))
    (faces : List Face) (start target : ℕ) : DijkstraResult α :=
  solve (buildGraph distFn verts faces) verts.length start target

end Dijkstra

/-! ## `analytics.hpp`: shared math-library interface and vector helpers -/

/-- The `<cmath>` functions used by `analytics.hpp`, kept abstract so every
definition stays executable; claims instantiate them with `Real.sqrt`,
`Real.sin`, `Real.cos`, `Real.arccos`, `Complex.arg` (= `atan2`) and
`Real.pi`.  `rem` stands for `std::remainder`. -/
structure Floats (α : Type) where
  sqrt : α → α
  sin : α → α
  cos : α → α
  acos : α → α
  atan2 : α → α → α
  rem : α → α → α
  pi : α

section Analytics

variable {α : Type} [LinearOrderedField α]

def vadd (a b : Vec3 α) : Vec3 α := ⟨a.x + b.x, a.y + b.y, a.z + b.z⟩

def vsub (a b : Vec3 α) : Vec3 α := ⟨a.x - b.x, a.y - b.y, a.z - b.z⟩

def vmul (a : Vec3 α) (s : α) : Vec3 α := ⟨a.x * s, a.y * s, a.z * s⟩

def vdot (a b : Vec3 α) : α := a.x * b.x + a.y * b.y + a.z * b.z

def vlen (F : Floats α) (a : Vec3 α) : α := F.sqrt (vdot a a)

def vnormalize (F : Floats α) (a : Vec3 α) : Vec3 α :=
  let l := vlen F a
  if l ≤ 1 / 10 ^ 12 then ⟨0, 0, 0⟩ else ⟨a.x / l, a.y / l, a.z / l⟩

def vcross (a b : Vec3 α) : Vec3 α :=
  ⟨a.y * b.z - a.z * b.y, a.z * b.x - a.x * b.z, a.x * b.y - a.y * b.x⟩

def vlerp (a b : Vec3 α) (t : α) : Vec3 α := vadd (vmul a (1 - t)) (vmul b t)

def clampd (v lo hi : α) : α := max lo (min hi v)

def vdist (F : Floats α) (a b : Vec3 α) : α := vlen F (vsub a b)

/-- `struct AnalyticsCurve`. -/
structure AnalyticsCurve (α : Type) where
  name : String
  length : α
  points : List (Vec3 α)

/-- `struct AnalyticsResult`.  (`startId`/`endId` are `int` in C++, modelled by
`ℕ`: the callers in `main.cpp` only reach these functions with parsed
command-line indices, and every claim is about in-range indices.) -/
structure AnalyticsResult (α : Type) where
  inputFileName : String
  startId : ℕ
  endId : ℕ
  surfaceType : String
  curves : List (AnalyticsCurve α)
  error : String

/-- `struct ObjNormalizeTransform`. -/
structure ObjNormalizeTransform (α : Type) where
  center : Vec3 α
  scale : α

structure TorusParams (α : Type) where
  center : Vec3 α
  majorRadius : α
  minorRadius : α

structure SaddleParams (α : Type) where
  center : Vec3 α
  a : α

structure ParamSurface (α : Type) where
  eval : α → α → Vec3 α

structure Metric2 (α : Type) where
  g00 : α
  g01 : α
  g11 : α
  inv00 : α
  inv01 : α
  inv11 : α

/-- `computeMetric` (forward differencing with `h = 1e-4`; the 2×2 inverse is
installed only when `|det| > 1e-12`, otherwise the identity default stays). -/
def computeMetric (surf : ParamSurface α) (u v : α) : Metric2 α :=
  let h : α := 1 / 10 ^ 4
  let r := surf.eval u v
  let ru := vsub (surf.eval (u + h) v) r
  let rv := vsub (surf.eval u (v + h)) r
  let ru2 := vmul ru (1 / h)
  let rv2 := vmul rv (1 / h)
  let g00 := vdot ru2 ru2
  let g01 := vdot ru2 rv2
  let g11 := vdot rv2 rv2
  let det := g00 * g11 - g01 * g01
  if |det| > 1 / 10 ^ 12 then
    ⟨g00, g01, g11, g11 / det, -g01 / det, g00 / det⟩
  else
    ⟨g00, g01, g11, 1, 0, 1⟩

structure Christoffel2 (α : Type) where
  gu_uu : α
  gu_uv : α
  gu_vv : α
  gv_uu : α
  gv_uv : α
  gv_vv : α

/-- `computeChristoffel`. -/
def computeChristoffel (surf : ParamSurface α) (u v : α) : Christoffel2 α :=
  let h : α := 1 / 10 ^ 4
  let m := computeMetric surf u v
  let mu := computeMetric surf (u + h) v
  let mv := computeMetric surf u (v + h)
  let g00_u := (mu.g00 - m.g00) / h
  let g01_u := (mu.g01 - m.g01) / h
  let g11_u := (mu.g11 - m.g11) / h
  let g00_v := (mv.g00 - m.g00) / h
  let g01_v := (mv.g01 - m.g01) / h
  let g11_v := (mv.g11 - m.g11) / h
  let inv00 := m.inv00
  let inv01 := m.inv01
  let inv11 := m.inv11
  { gu_uu := 1 / 2 * (inv00 * g00_u + inv01 * (2 * g01_u - g00_v))
    gu_uv := 1 / 2 * (inv00 * g00_v + inv01 * g11_u)
    gu_vv := 1 / 2 * (inv00 * (2 * g01_v - g11_u) + inv01 * g11_v)
    gv_uu := 1 / 2 * (inv01 * g00_u + inv11 * (2 * g01_u - g00_v))
    gv_uv := 1 / 2 * (inv01 * g00_v + inv11 * g11_u)
    gv_vv := 1 / 2 * (inv01 * (2 * g01_v - g11_u) + inv11 * g11_v) }

structure GeodesicState (α : Type) where
  u : α
  v : α
  du : α
  dv : α

/-- `geodesicRhs`. -/
def geodesicRhs (surf : ParamSurface α) (s : GeodesicState α) : GeodesicState α :=
  let c := computeChristoffel surf s.u s.v
  { u := s.du
    v := s.dv
    du := -(c.gu_uu * s.du * s.du + 2 * c.gu_uv * s.du * s.dv + c.gu_vv * s.dv * s.dv)
    dv := -(c.gv_uu * s.du * s.du + 2 * c.gv_uv * s.du * s.dv + c.gv_vv * s.dv * s.dv) }

/-- `rk4Step`. -/
def rk4Step (surf : ParamSurface α) (s : GeodesicState α) (h : α) : GeodesicState α :=
  let k1 := geodesicRhs surf s
  let s2 : GeodesicState α := ⟨s.u + 1 / 2 * h * k1.u, s.v + 1 / 2 * h * k1.v,
    s.du + 1 / 2 * h * k1.du, s.dv + 1 / 2 * h * k1.dv⟩
  let k2 := geodesicRhs surf s2
  let s3 : GeodesicState α := ⟨s.u + 1 / 2 * h * k2.u, s.v + 1 / 2 * h * k2.v,
    s.du + 1 / 2 * h * k2.du, s.dv + 1 / 2 * h * k2.dv⟩
  let k3 := geodesicRhs surf s3
  let s4 : GeodesicState α := ⟨s.u + h * k3.u, s.v + h * k3.v,
    s.du + h * k3.du, s.dv + h * k3.dv⟩
  let k4 := geodesicRhs surf s4
  { u := s.u + h / 6 * (k1.u + 2 * k2.u + 2 * k3.u + k4.u)
    v := s.v + h / 6 * (k1.v + 2 * k2.v + 2 * k3.v + k4.v)
    du := s.du + h / 6 * (k1.du + 2 * k2.du + 2 * k3.du + k4.du)
    dv := s.dv + h / 6 * (k1.dv + 2 * k2.dv + 2 * k3.dv + k4.dv) }

/-- `integrateGeodesic`: `steps` RK4 steps of size `1 / max 1 steps`,
returning the `steps + 1` visited states. -/
def integrateGeodesic (surf : ParamSurface α) (start : GeodesicState α)
    (steps : ℕ) : List (GeodesicState α) :=
  let h : α := 1 / (max 1 steps : ℕ)
  let rec go : ℕ → GeodesicState α → List (GeodesicState α)
    | 0, s => [s]
    | k + 1, s => s :: go k (rk4Step surf s h)
  go steps start

/-- The body of `solveShooting`'s 8-iteration Newton loop; returns the success
flag together with the final `(du0, dv0)`. -/
def solveShootingAux (F : Floats α) (surf : ParamSurface α) (u0 v0 u1 v1 : α) :
    ℕ → α → α → Bool × α × α
  | 0, du0, dv0 => (false, du0, dv0)
  | iter + 1, du0, dv0 =>
    let steps := 160
    let s0 : GeodesicState α := ⟨u0, v0, du0, dv0⟩
    let endS := (integrateGeodesic surf s0 steps).getLastD s0
    let errU := endS.u - u1
    let errV := endS.v - v1
    let errMag := F.sqrt (errU * errU + errV * errV)
    if errMag < 1 / 10 ^ 3 then (true, du0, dv0)
    else
      let eps : α := 1 / 10 ^ 3
      let s0u : GeodesicState α := ⟨u0, v0, du0 + eps, dv0⟩
      let s0v : GeodesicState α := ⟨u0, v0, du0, dv0 + eps⟩
      let endU := (integrateGeodesic surf s0u steps).getLastD s0u
      let endV := (integrateGeodesic surf s0v steps).getLastD s0v
      let a00 := (endU.u - endS.u) / eps
      let a01 := (endV.u - endS.u) / eps
      let a10 := (endU.v - endS.v) / eps
      let a11 := (endV.v - endS.v) / eps
      let det := a00 * a11 - a01 * a10
      if |det| < 1 / 10 ^ 10 then (false, du0, dv0)
      else
        let du := (-errU * a11 + errV * a01) / det
        let dv := (errU * a10 - errV * a00) / det
        solveShootingAux F surf u0 v0 u1 v1 iter (du0 + du) (dv0 + dv)

/-- `solveShooting` (8 Newton iterations). -/
def solveShooting (F : Floats α) (surf : ParamSurface α) (u0 v0 u1 v1 du0 dv0 : α) :
    Bool × α × α :=
  solveShootingAux F surf u0 v0 u1 v1 8 du0 dv0

/-- `computeNormalizeTransform`.  C++ starts the min/max folds at `±infinity`;
for a non-empty list that equals folding from the first vertex, and the empty
case returns the default transform before the loop, which is mirrored here. -/
def computeNormalizeTransform (verts : List (Vec3 α)) : ObjNormalizeTransform α :=
  match verts with
  | [] => ⟨⟨0, 0, 0⟩, 1⟩
  | v0 :: rest =>
    let minV := rest.foldl (fun m v => ⟨min m.x v.x, min m.y v.y, min m.z v.z⟩) v0
    let maxV := rest.foldl (fun m v => ⟨max m.x v.x, max m.y v.y, max m.z v.z⟩) v0
    let center : Vec3 α := ⟨(minV.x + maxV.x) / 2, (minV.y + maxV.y) / 2, (minV.z + maxV.z) / 2⟩
    let maxSize := max (maxV.x - minV.x) (max (maxV.y - minV.y) (maxV.z - minV.z))
    { center := center
      scale := if maxSize > (1 / 10 ^ 12 : α) then 2 / maxSize else 1 }

/-- `estimateTorusParams`.  (`std::isfinite` guards are always true in the
ideal-field model, so both means run over all vertices; the dead local
`rSamples` buffer of the C++ is omitted.) -/
def estimateTorusParams (F : Floats α) (verts : List (Vec3 α)) : TorusParams α :=
  match verts with
  | [] => ⟨⟨0, 0, 0⟩, 1, 1 / 4⟩
  | _ :: _ =>
    let t := computeNormalizeTransform verts
    let center := t.center
    let sumR := verts.foldl (fun s v =>
      s + F.sqrt ((v.x - center.x) ^ 2 + (v.y - center.y) ^ 2)) 0
    let majorRadius0 := sumR / (verts.length : α)
    let sumr := verts.foldl (fun s v =>
      let rho := F.sqrt ((v.x - center.x) ^ 2 + (v.y - center.y) ^ 2)
      s + F.sqrt ((rho - majorRadius0) * (rho - majorRadius0) + (v.z - center.z) * (v.z - center.z))) 0
    let minorRadius0 := sumr / (verts.length : α)
    { center := center
      majorRadius := if majorRadius0 ≤ (1 / 10 ^ 6 : α) then 1 else majorRadius0
      minorRadius := if minorRadius0 ≤ (1 / 10 ^ 6 : α) then 1 / 4 else minorRadius0 }

/-- `estimateSaddleParams`. -/
def estimateSaddleParams (verts : List (Vec3 α)) : SaddleParams α :=
  match verts with
  | [] => ⟨⟨0, 0, 0⟩, 1 / 2⟩
  | _ :: _ =>
    let t := computeNormalizeTransform verts
    let center := t.center
    let nd := verts.foldl (fun (s : α × α) v =>
      let txy := (v.x - center.x) * (v.x - center.x) - (v.y - center.y) * (v.y - center.y)
      (s.1 + txy * (v.z - center.z), s.2 + txy * txy)) (0, 0)
    { center := center
      a := if nd.2 > (1 / 10 ^ 12 : α) then nd.1 / nd.2 else 1 / 2 }

/-- `applyNormalize`. -/
def applyNormalize (t : ObjNormalizeTransform α) (p : Vec3 α) : Vec3 α :=
  vmul (vsub p t.center) t.scale

/-- `cotangent` of the angle at `a` in triangle `(a, b, c)`. -/
def cotangent (F : Floats α) (a b c : Vec3 α) : α :=
  let u := vsub b a
  let v := vsub c a
  let cr := vcross u v
  let denom := vlen F cr
  if denom ≤ 1 / 10 ^ 12 then 0 else vdot u v / denom

/-- `makePlaneGeodesic`: straight segment, `length = ‖p2 − p1‖`. -/
def makePlaneGeodesic (F : Floats α) (p1 p2 : Vec3 α) (samples : ℕ) :
    AnalyticsCurve α :=
  let n := max 2 samples
  let points := (List.range n).map (fun (i : ℕ) =>
    let t : α := if n = 1 then 0 else (i : α) / ((n : α) - 1)
    vadd (vmul p1 (1 - t)) (vmul p2 t))
  ⟨"plane_straight_line", vlen F (vsub p2 p1), points⟩

/-- The unit direction `a = p̂` of `makeSphereGreatCircle` (`(0,0,1)` for a
near-zero radius). -/
def sphereUnit (F : Floats α) (p : Vec3 α) : Vec3 α :=
  if vlen F p > 1 / 10 ^ 12 then vmul p (1 / vlen F p) else ⟨0, 0, 1⟩

/-- `θ = acos(clamp(a·b, −1, 1))` of `makeSphereGreatCircle`. -/
def sphereTheta (F : Floats α) (p1 p2 : Vec3 α) : α :=
  F.acos (max (-1) (min 1 (vdot (sphereUnit F p1) (sphereUnit F p2))))

/-- `makeSphereGreatCircle`. -/
def makeSphereGreatCircle (F : Floats α) (p1 p2 : Vec3 α) (samples : ℕ) :
    AnalyticsCurve α :=
  let nm := "sphere_great_circle"
  let r1 := vlen F p1
  let r2 := vlen F p2
  let r := if r1 > 1 / 10 ^ 12 ∧ r2 > 1 / 10 ^ 12 then (r1 + r2) / 2 else max r1 r2
  let a : Vec3 α := sphereUnit F p1
  let b : Vec3 α := sphereUnit F p2
  let theta := sphereTheta F p1 p2
  let sinTheta := F.sin theta
  let n := max 2 samples
  let nearAntipodal := F.pi - theta ≤ 1 / 10 ^ 5
  let nearIdentical := theta ≤ 1 / 10 ^ 8
  let useLerp := ¬nearAntipodal ∧ sinTheta ≤ 1 / 10 ^ 6
  if nearIdentical then
    ⟨nm, 0, (List.range n).map (fun _ => vmul a r)⟩
  else if nearAntipodal then
    let ref : Vec3 α := if |a.x| < 9 / 10 then ⟨1, 0, 0⟩ else ⟨0, 1, 0⟩
    let u := vnormalize F (vcross a ref)
    let u := if vlen F u ≤ 1 / 10 ^ 8 then vnormalize F (vcross a ⟨0, 0, 1⟩) else u
    let points := (List.range n).map (fun (i : ℕ) =>
      let t : α := (i : α) / ((n : α) - 1)
      let ang := F.pi * t
      vmul (vadd (vmul a (F.cos ang)) (vmul u (F.sin ang))) r)
    ⟨nm, r * F.pi, points⟩
  else
    let points := (List.range n).map (fun (i : ℕ) =>
      let t : α := (i : α) / ((n : α) - 1)
      let u : Vec3 α :=
        if useLerp then vnormalize F (vadd (vmul a (1 - t)) (vmul b t))
        else vadd (vmul a (F.sin ((1 - t) * theta) / sinTheta))
                  (vmul b (F.sin (t * theta) / sinTheta))
      vmul u r)
    ⟨nm, r * theta, points⟩

/-- The radius `r` chosen by `makeSphereGreatCircle`: the mean of the two
endpoint radii when both exceed `1e-12`, otherwise their maximum. -/
def sphereRadius (F : Floats α) (p1 p2 : Vec3 α) : α :=
  if vlen F p1 > 1 / 10 ^ 12 ∧ vlen F p2 > 1 / 10 ^ 12 then
    (vlen F p1 + vlen F p2) / 2
  else max (vlen F p1) (vlen F p2)

/-- The chord-length sum `for i in [1, size): length += ‖points[i] − points[i−1]‖`
shared by the torus, saddle and heat curves. -/
def chordSum (F : Floats α) (points : List (Vec3 α)) : α :=
  (List.zipWith (fun a b => vlen F (vsub b a)) points points.tail).sum

/-- `makeTorusApproxGeodesic`. -/
def makeTorusApproxGeodesic (F : Floats α) (p1 p2 : Vec3 α)
    (torus : TorusParams α) (samples : ℕ) : AnalyticsCurve α :=
  let n := max 2 samples
  let toUV : Vec3 α → α × α := fun p =>
    let x := p.x - torus.center.x
    let y := p.y - torus.center.y
    let z := p.z - torus.center.z
    let u := F.atan2 y x
    let rho := F.sqrt (x * x + y * y)
    (u, F.atan2 z (rho - torus.majorRadius))
  let wrapDelta : α → α → α := fun a b => a + F.rem (b - a) (2 * F.pi)
  let uv1 := toUV p1
  let uv2 := toUV p2
  let u1 := uv1.1
  let v1 := uv1.2
  let u2 := wrapDelta u1 uv2.1
  let v2 := wrapDelta v1 uv2.2
  let surf : ParamSurface α :=
    ⟨fun u v =>
      let cu := F.cos u
      let su := F.sin u
      let cv := F.cos v
      let sv := F.sin v
      ⟨(torus.majorRadius + torus.minorRadius * cv) * cu + torus.center.x,
       (torus.majorRadius + torus.minorRadius * cv) * su + torus.center.y,
       torus.minorRadius * sv + torus.center.z⟩⟩
  let sh := solveShooting F surf u1 v1 u2 v2 (u2 - u1) (v2 - v1)
  let s0 : GeodesicState α := ⟨u1, v1, sh.2.1, sh.2.2⟩
  let path := integrateGeodesic surf s0 (n - 1)
  let points0 := path.map (fun s => surf.eval s.u s.v)
  let points1 :=
    if ¬sh.1 ∧ 2 ≤ points0.length then
      (List.range n).map (fun (i : ℕ) =>
        let t : α := if n = 1 then 0 else (i : α) / ((n : α) - 1)
        surf.eval (u1 + (u2 - u1) * t) (v1 + (v2 - v1) * t))
    else points0
  let points :=
    match points1 with
    | [] => []
    | _ :: qs => (p1 :: qs).dropLast ++ [p2]
  ⟨"torus_geodesic", chordSum F points, points⟩

/-- `makeSaddleApproxGeodesic`. -/
def makeSaddleApproxGeodesic (F : Floats α) (p1 p2 : Vec3 α)
    (saddle : SaddleParams α) (samples : ℕ) : AnalyticsCurve α :=
  let n := max 2 samples
  let surf : ParamSurface α :=
    ⟨fun u v => ⟨u + saddle.center.x, v + saddle.center.y,
      saddle.center.z + saddle.a * (u * u - v * v)⟩⟩
  let u1 := p1.x - saddle.center.x
  let v1 := p1.y - saddle.center.y
  let u2 := p2.x - saddle.center.x
  let v2 := p2.y - saddle.center.y
  let sh := solveShooting F surf u1 v1 u2 v2 (u2 - u1) (v2 - v1)
  let s0 : GeodesicState α := ⟨u1, v1, sh.2.1, sh.2.2⟩
  let path := integrateGeodesic surf s0 (n - 1)
  let points0 := path.map (fun s => surf.eval s.u s.v)
  let points1 :=
    if ¬sh.1 ∧ 2 ≤ points0.length then
      (List.range n).map (fun (i : ℕ) =>
        let t : α := if n = 1 then 0 else (i : α) / ((n : α) - 1)
        surf.eval (u1 + (u2 - u1) * t) (v1 + (v2 - v1) * t))
    else points0
  let points :=
    match points1 with
    | [] => []
    | _ :: qs => (p1 :: qs).dropLast ++ [p2]
  ⟨"saddle_geodesic", chordSum F points, points⟩

/-! ## Heat-Method solver (`makeHeatMethodGeodesic` and helpers) -/

/-- Accumulated assembly state: lumped mass, cotangent weight map (one
insertion-ordered association list per vertex, modelling the per-vertex
`std::unordered_map<int,double>`), and the edge-length statistics. -/
structure HeatAssembly (α : Type) where
  mass : List α
  weights : List (List (ℕ × α))
  edgeSum : α
  edgeCount : ℕ

/-- `weights[i][j] += w` on one association list (`operator[]` inserts at the
end on first touch; iteration order is the insertion order). -/
def assocAdd (l : List (ℕ × α)) (j : ℕ) (w : α) : List (ℕ × α) :=
  match l with
  | [] => [(j, w)]
  | kv :: rest => if kv.1 = j then (kv.1, kv.2 + w) :: rest else kv :: assocAdd rest j w

def wAdd (weights : List (List (ℕ × α))) (i j : ℕ) (w : α) : List (List (ℕ × α)) :=
  weights.set i (assocAdd (weights.getD i []) j w)

def mAdd (mass : List α) (i : ℕ) (v : α) : List α := mass.set i (mass.getD i 0 + v)

/-- The first face loop of `makeHeatMethodGeodesic`: area/mass/cotangent
assembly.  (`i < 0` index checks are unrepresentable for `ℕ` indices; the
`i >= n` checks are kept.) -/
def heatAssemble (F : Floats α) (verts : List (Vec3 α)) (faces : List Face) :
    HeatAssembly α :=
  let n := verts.length
  faces.foldl (fun (A : HeatAssembly α) f =>
    if n ≤ f.a ∨ n ≤ f.b ∨ n ≤ f.c then A
    else
      let pi := verts.getD f.a default
      let pj := verts.getD f.b default
      let pk := verts.getD f.c default
      let nrm := vcross (vsub pj pi) (vsub pk pi)
      let area := 1 / 2 * vlen F nrm
      if area ≤ (1 / 10 ^ 12 : α) then A
      else
        let cot_i := cotangent F pi pj pk
        let cot_j := cotangent F pj pk pi
        let cot_k := cotangent F pk pi pj
        let w_ij := 1 / 2 * cot_k
        let w_jk := 1 / 2 * cot_i
        let w_ki := 1 / 2 * cot_j
        { mass := mAdd (mAdd (mAdd A.mass f.a (area / 3)) f.b (area / 3)) f.c (area / 3)
          weights :=
            wAdd (wAdd (wAdd (wAdd (wAdd (wAdd A.weights f.a f.b w_ij)
              f.b f.a w_ij) f.b f.c w_jk) f.c f.b w_jk) f.c f.a w_ki) f.a f.c w_ki
          edgeSum := A.edgeSum + (vdist F pi pj + vdist F pj pk + vdist F pk pi)
          edgeCount := A.edgeCount + 3 })
    ⟨List.replicate n 0, List.replicate n [], 0, 0⟩

/-- Iterations of `conjugateGradient` (matrix-free CG). -/
def cgIter (F : Floats α) (applyA : List α → List α) (tol : α) :
    ℕ → List α → List α → List α → α → Bool × List α
  | 0, x, _, _, _ => (false, x)
  | it + 1, x, r, p, rsold =>
    let Ap := applyA p
    let alphaDen := (List.zipWith (· * ·) p Ap).sum
    if |alphaDen| < (1 / 10 ^ 20 : α) then (false, x)
    else
      let alpha := rsold / alphaDen
      let x2 := List.zipWith (fun xi pi => xi + alpha * pi) x p
      let r2 := List.zipWith (fun ri api => ri - alpha * api) r Ap
      let rsnew := (r2.map (fun v => v * v)).sum
      if F.sqrt rsnew < tol then (true, x2)
      else cgIter F applyA tol it x2 r2
        (List.zipWith (fun ri pi => ri + rsnew / rsold * pi) r2 p) rsnew

/-- `conjugateGradient` with zero initial guess passed by the callers. -/
def conjugateGradient (F : Floats α) (applyA : List α → List α)
    (b x0 : List α) (maxIter : ℕ) (tol : α) : Bool × List α :=
  let Ap := applyA x0
  let r := List.zipWith (fun bi api => bi - api) b Ap
  let rsold := (r.map (fun v => v * v)).sum
  if F.sqrt rsold < tol then (true, x0)
  else cgIter F applyA tol maxIter x0 r r rsold

/-- The greedy-descent walk of the heat path extraction
(`for (int step = 0; step < n * 3; step++) …`); the fuel is exactly the
`n * 3` step cap of the C++ loop. -/
def greedyLoop (neighbors : List (List ℕ)) (phi : List α) (startId : ℕ) :
    ℕ → ℕ → List ℕ → List Bool → List ℕ
  | 0, _, path, _ => path
  | fuel + 1, current, path, visited =>
    if current = startId then path
    else
      let strict := (neighbors.getD current []).foldl
        (fun (bv : Option ℕ × α) nb =>
          if phi.getD nb 0 + (1 / 10 ^ 9 : α) < bv.2 then (some nb, phi.getD nb 0) else bv)
        (none, phi.getD current 0)
      let best : Option ℕ :=
        match strict.1 with
        | some b => some b
        | none =>
          ((neighbors.getD current []).foldl
            (fun (bv : Option ℕ × α) nb =>
              if ¬visited.getD nb false ∧ phi.getD nb 0 < bv.2 + (1 / 10 ^ 6 : α) then
                (some nb, phi.getD nb 0)
              else bv)
            (none, strict.2)).1
      match best with
      | none => path
      | some bidx =>
        greedyLoop neighbors phi startId fuel bidx (path ++ [bidx]) (visited.set bidx true)

/-- The fallback Dijkstra loop inside `makeHeatMethodGeodesic` (edge weights
recomputed as `vdist` on the fly; note that unlike `MeshEngine::solve` the
staleness check comes before the `uidx == endId` break). -/
def heatFallbackLoop (F : Floats α) (verts : List (Vec3 α))
    (neighbors : List (List ℕ)) (endId : ℕ) :
    ℕ → List (WithTop α) → List (Option ℕ) → List (WithTop α × ℕ) →
      List (WithTop α) × List (Option ℕ)
  | 0, distv, parent, _ => (distv, parent)
  | fuel + 1, distv, parent, pq =>
    match pq with
    | [] => (distv, parent)
    | (d, uidx) :: rest =>
      if distv.getD uidx ⊤ < d then
        heatFallbackLoop F verts neighbors endId fuel distv parent rest
      else if uidx = endId then (distv, parent)
      else
        let step := (neighbors.getD uidx []).foldl
          (fun (s : List (WithTop α) × List (Option ℕ) × List (WithTop α × ℕ)) nb =>
            let w := vdist F (verts.getD uidx default) (verts.getD nb default)
            let cand := s.1.getD uidx ⊤ + (w : WithTop α)
            if cand < s.1.getD nb ⊤ then
              (s.1.set nb cand, s.2.1.set nb (some uidx), pqInsert (cand, nb) s.2.2)
            else s)
          (distv, parent, rest)
        heatFallbackLoop F verts neighbors endId fuel step.1 step.2.1 step.2.2

/-- `distv`/`parent` produced by the fallback Dijkstra. -/
def heatFallback (F : Floats α) (verts : List (Vec3 α))
    (neighbors : List (List ℕ)) (startId endId : ℕ) :
    List (WithTop α) × List (Option ℕ) :=
  let n := verts.length
  heatFallbackLoop F verts neighbors endId (n + (neighbors.map List.length).sum + 2)
    ((List.replicate n (⊤ : WithTop α)).set startId 0)
    (List.replicate n none) [((0 : WithTop α), startId)]

/-- The tail of `makeHeatMethodGeodesic`: the final `std::reverse` applied to
the recovered index path, the emission of vertex positions, and the
chord-length sum. -/
def finishHeatCurve (F : Floats α) (verts : List (Vec3 α)) (path : List ℕ) :
    AnalyticsCurve α :=
  let points := path.reverse.map (fun idx => verts.getD idx default)
  ⟨"heat_geodesic", chordSum F points, points⟩

/-- Path extraction of `makeHeatMethodGeodesic` (greedy descent on `φ`,
Dijkstra fallback when the walk misses `startId`, then point emission).
`φ` and the neighbour lists are parameters: `makeHeatMethodGeodesic` passes
the shifted Poisson solution. -/
def extractHeatPath (F : Floats α) (verts : List (Vec3 α))
    (neighbors : List (List ℕ)) (phi : List α) (startId endId : ℕ) :
    AnalyticsCurve α :=
  let n := verts.length
  let path0 := greedyLoop neighbors phi startId (n * 3) endId [endId]
    ((List.replicate n false).set endId true)
  if path0.getLastD 0 = startId then finishHeatCurve F verts path0
  else
    let fb := heatFallback F verts neighbors startId endId
    if fb.2.getD endId none = none ∧ startId ≠ endId then ⟨"heat_geodesic", 0, []⟩
    else finishHeatCurve F verts ((buildPathAux fb.2 (n + 1) endId []).reverse)

/-- One step of the second face loop of `makeHeatMethodGeodesic`: the
per-triangle normalised-gradient field of `u` scattered into the per-vertex
divergence. -/
def divAccum (F : Floats α) (verts : List (Vec3 α)) (u : List α) (n : ℕ)
    (dv : List α) (f : Face) : List α :=
  if n ≤ f.a ∨ n ≤ f.b ∨ n ≤ f.c then dv
  else
    let pi := verts.getD f.a default
    let pj := verts.getD f.b default
    let pk := verts.getD f.c default
    let nrm := vcross (vsub pj pi) (vsub pk pi)
    let area2 := vlen F nrm
    if area2 ≤ (1 / 10 ^ 12 : α) then dv
    else
      let gpi := vmul (vcross nrm (vsub pk pj)) (1 / area2)
      let gpj := vmul (vcross nrm (vsub pi pk)) (1 / area2)
      let gpk := vmul (vcross nrm (vsub pj pi)) (1 / area2)
      let grad_u := vadd (vadd (vmul gpi (u.getD f.a 0)) (vmul gpj (u.getD f.b 0)))
        (vmul gpk (u.getD f.c 0))
      let gradLen := vlen F grad_u
      if gradLen ≤ (1 / 10 ^ 12 : α) then dv
      else
        let X := vmul grad_u (-1 / gradLen)
        let cot_i := cotangent F pi pj pk
        let cot_j := cotangent F pj pk pi
        let cot_k := cotangent F pk pi pj
        let dv := mAdd dv f.a (1 / 2 * (cot_j * vdot (vsub pk pi) X + cot_k * vdot (vsub pj pi) X))
        let dv := mAdd dv f.b (1 / 2 * (cot_k * vdot (vsub pi pj) X + cot_i * vdot (vsub pk pj) X))
        mAdd dv f.c (1 / 2 * (cot_i * vdot (vsub pj pk) X + cot_j * vdot (vsub pi pk) X))

/-- `makeHeatMethodGeodesic`. -/
def makeHeatMethodGeodesic (F : Floats α) (verts : List (Vec3 α))
    (faces : List Face) (startId endId : ℕ) : AnalyticsCurve α :=
  let n := verts.length
  let c0 : AnalyticsCurve α := ⟨"heat_geodesic", 0, []⟩
  if n = 0 ∨ n ≤ startId ∨ n ≤ endId then c0
  else
    let A := heatAssemble F verts faces
    let neighbors := A.weights.map (List.map Prod.fst)
    let h := if 0 < A.edgeCount then A.edgeSum / (A.edgeCount : α) else 1
    let t := h * h
    if A.mass.getD startId 0 ≤ (1 / 10 ^ 12 : α) then c0
    else
      let b := (List.replicate n (0 : α)).set startId (A.mass.getD startId 0)
      let applyL : List α → List α := fun x =>
        (List.range n).map (fun (i : ℕ) =>
          (A.weights.getD i []).foldl
            (fun s kv => s + kv.2 * (x.getD i 0 - x.getD kv.1 0)) 0)
      let applyHeat : List α → List α := fun x =>
        let Lx := applyL x
        (List.range n).map (fun (i : ℕ) => A.mass.getD i 0 * x.getD i 0 - t * Lx.getD i 0)
      let u : List α := (conjugateGradient F applyHeat b (List.replicate n 0) 600 (1 / 10 ^ 6)).2
      let div := faces.foldl (divAccum F verts u n) (List.replicate n (0 : α))
      let applyLC : List α → List α := fun x =>
        (List.range n).map (fun (i : ℕ) =>
          if i = startId then x.getD i 0
          else (A.weights.getD i []).foldl
            (fun s kv => s + kv.2 * (x.getD i 0 - x.getD kv.1 0)) 0)
      let rhs := div.set startId 0
      let phi0 : List α := (conjugateGradient F applyLC rhs (List.replicate n 0) 1000 (1 / 10 ^ 6)).2
      let minPhi := match phi0 with | [] => 0 | h0 :: t0 => t0.foldl min h0
      let phi := phi0.map (fun v => v - minPhi)
      extractHeatPath F verts neighbors phi startId endId

/-! ## String helpers and the result-level drivers -/

def basenameOnly (path : String) : String :=
  String.mk ((path.toList.map (fun ch => if ch = '\\' then '/' else ch)).foldl
    (fun acc ch => if ch = '/' then [] else acc ++ [ch]) [])

def lowerAscii (s : String) : String :=
  String.mk (s.toList.map (fun ch =>
    if 'A' ≤ ch ∧ ch ≤ 'Z' then Char.ofNat (ch.toNat - 'A'.toNat + 'a'.toNat) else ch))

/-- `s.find(sub) != std::string::npos`. -/
def listContains (sub : List Char) : List Char → Bool
  | [] => sub.isEmpty
  | c :: rest => sub.isPrefixOf (c :: rest) || listContains sub rest

def strContains (s sub : String) : Bool := listContains sub.toList s.toList

/-- `computeAnalyticsForModel`. -/
def computeAnalyticsForModel (F : Floats α) (inputFileName : String)
    (startId endId : ℕ) (objVertices : List (Vec3 α)) (faces : List Face) :
    AnalyticsResult α :=
  let mk : String → List (AnalyticsCurve α) → String → AnalyticsResult α :=
    fun ty cs err => ⟨inputFileName, startId, endId, ty, cs, err⟩
  if objVertices.isEmpty then mk "" [] "No vertices loaded from OBJ"
  else if objVertices.length ≤ startId ∨ objVertices.length ≤ endId then
    mk "" [] "startId/endId out of range"
  else
    let t := computeNormalizeTransform objVertices
    let p1 := applyNormalize t (objVertices.getD startId default)
    let p2 := applyNormalize t (objVertices.getD endId default)
    let lengthScale := if t.scale > (1 / 10 ^ 12 : α) then 1 / t.scale else 1
    let normalizedVerts := objVertices.map (applyNormalize t)
    let nameL := lowerAscii (basenameOnly inputFileName)
    if strContains nameL "plane" then
      let c := makePlaneGeodesic F p1 p2 64
      mk "plane" [{ c with length := c.length * lengthScale }] ""
    else if strContains nameL "sphere" then
      let c := makeSphereGreatCircle F p1 p2 128
      mk "sphere" [{ c with length := c.length * lengthScale }] ""
    else if strContains nameL "torus" || strContains nameL "donut" then
      let torus := estimateTorusParams F normalizedVerts
      let c := makeTorusApproxGeodesic F p1 p2 torus 160
      mk "torus" [{ c with length := c.length * lengthScale }] ""
    else if strContains nameL "saddle" then
      let saddle := estimateSaddleParams normalizedVerts
      let c := makeSaddleApproxGeodesic F p1 p2 saddle 160
      mk "saddle" [{ c with length := c.length * lengthScale }] ""
    else if ¬faces.isEmpty then
      let heat := makeHeatMethodGeodesic F normalizedVerts faces startId endId
      if ¬heat.points.isEmpty then
        mk "mesh" [{ heat with length := heat.length * lengthScale }] ""
      else mk "mesh" [] "Heat method failed to produce a path"
    else
      mk "unsupported" []
        "Analytics currently supports plane.obj, sphere.obj, donut.obj, saddle.obj, or heat method on triangle meshes"

/-- `computeHeatForModel`. -/
def computeHeatForModel (F : Floats α) (inputFileName : String)
    (startId endId : ℕ) (objVertices : List (Vec3 α)) (faces : List Face) :
    AnalyticsResult α :=
  let mk : List (AnalyticsCurve α) → String → AnalyticsResult α :=
    fun cs err => ⟨inputFileName, startId, endId, "mesh", cs, err⟩
  if objVertices.isEmpty then mk [] "No vertices loaded from OBJ"
  else if faces.isEmpty then mk [] "No faces loaded from OBJ"
  else if objVertices.length ≤ startId ∨ objVertices.length ≤ endId then
    mk [] "startId/endId out of range"
  else
    let t := computeNormalizeTransform objVertices
    let normalizedVerts := objVertices.map (applyNormalize t)
    let lengthScale := if t.scale > (1 / 10 ^ 12 : α) then 1 / t.scale else 1
    let heat := makeHeatMethodGeodesic F normalizedVerts faces startId endId
    if heat.points.isEmpty then mk [] "Heat method failed to produce a path"
    else mk [{ heat with length := heat.length * lengthScale }] ""

end Analytics

/-! ## OBJ loader (`MeshEngine::loadOBJ` of `backend`)

The character-level model of `std::istringstream` extraction: values are
exact rationals (ideal decimals and powers of ten).  An extraction whose
sentry fails (the stream is already exhausted or in a failed state) is never
attempted and leaves the target object untouched; an attempted extraction
whose conversion fails stores `0` (C++11 `num_get`) and sets the failure
flag, which is sticky. -/

/-- Whitespace recognised by stream extraction (`isspace` within one line). -/
def isWS (c : Char) : Bool :=
  c = ' ' ∨ c = '\t' ∨ c = '\r' ∨ c = Char.ofNat 11 ∨ c = Char.ofNat 12

/-- `iss >> type` for a `std::string`: skip whitespace, take the maximal
non-whitespace run (empty when the line is exhausted). -/
def readToken (l : List Char) : List Char × List Char :=
  let l1 := l.dropWhile (fun c => isWS c)
  (l1.takeWhile (fun c => ¬isWS c), l1.dropWhile (fun c => ¬isWS c))

def digitsVal (ds : List Char) : ℕ :=
  ds.foldl (fun a c => a * 10 + (c.toNat - '0'.toNat)) 0

/-- `iss >> (double&)` at character level; result `(stored, rest, failed)`.
`stored = none` means the extraction was never attempted: only whitespace
remained, the sentry fails (`eofbit`) and the target double is left
untouched.  `stored = some v` means `num_get` ran: a successful conversion
stores the parsed value (`failed = false`); a failed conversion stores `0`
(C++11) and sets `failbit`, consuming the characters the scan accepted.
The grammar is `[sign] digits [. digits] [(e|E) [sign] digits]` — the
decimal and exponent forms `operator>>` accepts; hexadecimal float syntax
does not occur in OBJ data and is outside the model. -/
def readDouble (l : List Char) : Option ℚ × List Char × Bool :=
  let l1 := l.dropWhile (fun c => isWS c)
  if l1.isEmpty then (none, l1, true)
  else
    let sl : ℚ × List Char :=
      match l1 with
      | '-' :: r => (-1, r)
      | '+' :: r => (1, r)
      | _ => (1, l1)
    let ip := sl.2.takeWhile Char.isDigit
    let l3 := sl.2.dropWhile Char.isDigit
    let fps : List Char × List Char :=
      match l3 with
      | '.' :: r => (r.takeWhile Char.isDigit, r.dropWhile Char.isDigit)
      | _ => ([], l3)
    let fp := fps.1
    let l4 := fps.2
    let m : ℚ := sl.1 * ((digitsVal ip : ℚ) + (digitsVal fp : ℚ) / 10 ^ fp.length)
    match l4 with
    | 'e' :: r =>
      let es : ℚ × List Char :=
        match r with
        | '-' :: r2 => (-1, r2)
        | '+' :: r2 => (1, r2)
        | _ => (1, r)
      let ed := es.2.takeWhile Char.isDigit
      let l5 := es.2.dropWhile Char.isDigit
      if ed.isEmpty ∨ (ip.isEmpty ∧ fp.isEmpty) then (some 0, l5, true)
      else if es.1 < 0 then (some (m / 10 ^ digitsVal ed), l5, false)
      else (some (m * 10 ^ digitsVal ed), l5, false)
    | 'E' :: r =>
      let es : ℚ × List Char :=
        match r with
        | '-' :: r2 => (-1, r2)
        | '+' :: r2 => (1, r2)
        | _ => (1, r)
      let ed := es.2.takeWhile Char.isDigit
      let l5 := es.2.dropWhile Char.isDigit
      if ed.isEmpty ∨ (ip.isEmpty ∧ fp.isEmpty) then (some 0, l5, true)
      else if es.1 < 0 then (some (m / 10 ^ digitsVal ed), l5, false)
      else (some (m * 10 ^ digitsVal ed), l5, false)
    | _ =>
      if ip.isEmpty ∧ fp.isEmpty then (some 0, l4, true)
      else (some m, l4, false)

/-- `Vec3 v; iss >> v.x >> v.y >> v.z;` — `v` starts with the indeterminate
contents `init` of the uninitialised stack `Vec3` (`common.hpp` declares no
member initialisers).  Each extraction overwrites its component only when
`num_get` runs (the parsed value, or `0` on a failed conversion); once the
stream has failed, later extractions are never attempted and leave their
components untouched. -/
def readVec3 (init : Vec3 ℚ) (l : List Char) : Vec3 ℚ :=
  let r1 := readDouble l
  let x := r1.1.getD init.x
  if r1.2.2 then ⟨x, init.y, init.z⟩
  else
    let r2 := readDouble r1.2.1
    let y := r2.1.getD init.y
    if r2.2.2 then ⟨x, y, init.z⟩
    else
      let r3 := readDouble r2.2.1
      ⟨x, y, r3.1.getD init.z⟩

/-- `std::stoi` on a face-token head: optional sign and at least one digit
(`none` models the thrown exception caught by `toIndex`). -/
def stoiOpt (s : List Char) : Option ℤ :=
  let l1 := s.dropWhile (fun c => isWS c)
  let sl : ℤ × List Char :=
    match l1 with
    | '-' :: r => (-1, r)
    | '+' :: r => (1, r)
    | _ => (1, l1)
  let ds := sl.2.takeWhile Char.isDigit
  if ds.isEmpty then none else some (sl.1 * (digitsVal ds : ℤ))

/-- `toIndex` composed with the `0 ≤ resolved < vertices.size()` validity
check done by the face loop (`none` = the face is invalidated). -/
def resolveIdx (count : ℕ) (t : List Char) : Option ℕ :=
  let head := t.takeWhile (fun c => c ≠ '/')
  match stoiOpt head with
  | none => none
  | some idx =>
    if idx = 0 then none
    else
      let r : ℤ := if 0 < idx then idx - 1 else (count : ℤ) + idx
      if 0 ≤ r ∧ r < (count : ℤ) then some r.toNat else none

/-- `while (iss >> token) tokens.push_back(token)` (fuel = remaining length,
which always suffices). -/
def wsTokensAux : ℕ → List Char → List (List Char)
  | 0, _ => []
  | fuel + 1, l =>
    let l1 := l.dropWhile (fun c => isWS c)
    match l1.takeWhile (fun c => ¬isWS c) with
    | [] => []
    | tok => tok :: wsTokensAux fuel (l1.dropWhile (fun c => ¬isWS c))

def wsTokens (l : List Char) : List (List Char) := wsTokensAux l.length l

/-- One `getline` iteration of `loadOBJ` acting on `(vertices, faces)`.
Fan triangulation `(t₁, tᵢ, tᵢ₊₁)` for `i = 2 … k−1`.  The fresh stack
`Vec3 v` of a `v` line is uninitialised: `junk k` supplies its indeterminate
initial contents for the line that stores vertex number `k` (theorems about
vertex values hold for every choice of `junk`). -/
def loadOBJLine (junk : ℕ → Vec3 ℚ) (st : List (Vec3 ℚ) × List Face)
    (line : List Char) : List (Vec3 ℚ) × List Face :=
  let tk := readToken line
  if tk.1 = [ 'v' ] then (st.1 ++ [readVec3 (junk st.1.length) tk.2], st.2)
  else if tk.1 = [ 'f' ] then
    let toks := wsTokens tk.2
    if toks.length < 3 then st
    else
      let resolved := toks.map (resolveIdx st.1.length)
      if resolved.all Option.isSome then
        let fi := resolved.filterMap id
        (st.1, st.2 ++ (List.range (fi.length - 2)).map (fun i =>
          ⟨fi.getD 0 0, fi.getD (i + 1) 0, fi.getD (i + 2) 0⟩))
      else st
  else st

/-- `MeshEngine::loadOBJ` on the file contents (the `IOError` open-failure
path is outside the model).  The graph is recovered afterwards by
`buildGraph`, which is the same graph `addEdge` accumulates during parsing
(coordinates of already-stored vertices never change). -/
def loadOBJ (junk : ℕ → Vec3 ℚ) (content : String) : List (Vec3 ℚ) × List Face :=
  (content.toList.splitOn '\n').foldl (loadOBJLine junk) ([], [])

/-! ## Auxiliary notions used by claim statements -/

section ClaimDefs

variable {α : Type} [LinearOrderedField α]

/-- All `(bucket index, target, weight)` occurrences of a graph, as a
multiset. -/
def edgeOccsAux : ℕ → List (List (Edge α)) → Multiset (ℕ × ℕ × α)
  | _, [] => 0
  | i, l :: ls =>
    ((l.map (fun e => (i, e.targetVertex, e.weight)) : List (ℕ × ℕ × α)) : Multiset (ℕ × ℕ × α))
      + edgeOccsAux (i + 1) ls

def edgeOccs (g : List (List (Edge α))) : Multiset (ℕ × ℕ × α) := edgeOccsAux 0 g

/-- `ReachesW g start v w`: some walk in the edge graph from `start` to `v`
has total weight `w` (each step uses an actual adjacency entry). -/
inductive ReachesW (g : List (List (Edge α))) (start : ℕ) : ℕ → α → Prop where
  | refl : ReachesW g start start 0
  | step {u : ℕ} {w : α} (e : Edge α) :
      ReachesW g start u w → e ∈ g.getD u [] →
      ReachesW g start e.targetVertex (w + e.weight)

/-- Total Euclidean length of a vertex-index path (used to relate
`totalDistance` to the returned `path`). -/
def pathWeight (distFn : Vec3 α → Vec3 α → α) (verts : List (Vec3 α)) :
    List ℕ → α
  | [] => 0
  | [_] => 0
  | a :: b :: rest => distFn (verts.getD a default) (verts.getD b default)
      + pathWeight distFn verts (b :: rest)

/-- Invariant clauses of the Dijkstra loop that do not mention the priority
queue; they survive every exit of the loop (including the early `break`).
`done` is the ghost list of expanded vertices, in expansion order. -/
structure DInvCore (g : List (List (Edge α))) (n start : ℕ) (st : DState α)
    (done : List ℕ) : Prop where
  mdLen : st.md.length = n
  parLen : st.par.length = n
  doneRange : ∀ u ∈ done, u < n
  doneNodup : done.Nodup
  edgeRelaxed : ∀ u ∈ done, ∀ e ∈ g.getD u [],
    st.md.getD e.targetVertex ⊤ ≤ st.md.getD u ⊤ + (e.weight : WithTop α)
  mdFin : ∀ u ∈ done, st.md.getD u ⊤ ≠ ⊤
  mdNonneg : ∀ v, (0 : WithTop α) ≤ st.md.getD v ⊤
  mdStart : st.md.getD start ⊤ = 0
  reach : ∀ v (c : α), st.md.getD v ⊤ = (c : WithTop α) → ReachesW g start v c
  parProp : ∀ v u, st.par.getD v none = some u → u ∈ done ∧
    ∃ e ∈ g.getD u [], e.targetVertex = v ∧
      st.md.getD v ⊤ = st.md.getD u ⊤ + (e.weight : WithTop α)
  parDone : ∀ v u, st.par.getD v none = some u → v ∈ done →
    done.indexOf u < done.indexOf v
  parStart : ∀ v, st.md.getD v ⊤ ≠ ⊤ → v = start ∨ st.par.getD v none ≠ none

/-- Full loop invariant: the core clauses plus the priority-queue clauses. -/
structure DInv (g : List (List (Edge α))) (n start : ℕ) (st : DState α)
    (done : List ℕ) extends DInvCore g n start st done : Prop where
  sorted : st.pq.Sorted pairLe
  keyLe : ∀ p ∈ st.pq, st.md.getD p.2 ⊤ ≤ p.1
  keyTop : ∀ p ∈ st.pq, p.1 ≠ ⊤
  keyRange : ∀ p ∈ st.pq, p.2 < n
  frozen : ∀ u ∈ done, ∀ p ∈ st.pq, st.md.getD u ⊤ ≤ p.1
  inQueue : ∀ v, v ∉ done → st.md.getD v ⊤ ≠ ⊤ →
    (st.md.getD v ⊤, v) ∈ st.pq

/-- The relaxedness disjunction that holds for every edge when the loop
exits (by queue exhaustion or by the early `break` on `target`). -/
def EdgeDisj (g : List (List (Edge α))) (target : ℕ) (st : DState α) : Prop :=
  ∀ u, ∀ e ∈ g.getD u [],
    st.md.getD e.targetVertex ⊤ ≤ st.md.getD u ⊤ + (e.weight : WithTop α) ∨
      st.md.getD target ⊤ ≤ st.md.getD u ⊤ + (e.weight : WithTop α)

/-- State of the invariant while the relaxation `for` loop over `graph[u]`
is running: `u` is already in `done`, but only part of its bucket has been
relaxed (the `edgeRelaxed` clause of `DInvCore` is restricted to the other
expanded vertices). -/
structure FoldSt (g : List (List (Edge α))) (n start u : ℕ) (st : DState α)
    (done : List ℕ) : Prop where
  mdLen : st.md.length = n
  parLen : st.par.length = n
  doneRange : ∀ w ∈ done, w < n
  doneNodup : done.Nodup
  mdFin : ∀ w ∈ done, st.md.getD w ⊤ ≠ ⊤
  mdNonneg : ∀ v, (0 : WithTop α) ≤ st.md.getD v ⊤
  mdStart : st.md.getD start ⊤ = 0
  reach : ∀ v (c : α), st.md.getD v ⊤ = (c : WithTop α) → ReachesW g start v c
  parProp : ∀ v w, st.par.getD v none = some w → w ∈ done ∧
    ∃ e ∈ g.getD w [], e.targetVertex = v ∧
      st.md.getD v ⊤ = st.md.getD w ⊤ + (e.weight : WithTop α)
  parDone : ∀ v w, st.par.getD v none = some w → v ∈ done →
    done.indexOf w < done.indexOf v
  parStart : ∀ v, st.md.getD v ⊤ ≠ ⊤ → v = start ∨ st.par.getD v none ≠ none
  edgeOthers : ∀ w ∈ done, w ≠ u → ∀ e ∈ g.getD w [],
    st.md.getD e.targetVertex ⊤ ≤ st.md.getD w ⊤ + (e.weight : WithTop α)
  sorted : st.pq.Sorted pairLe
  keyLe : ∀ p ∈ st.pq, st.md.getD p.2 ⊤ ≤ p.1
  keyTop : ∀ p ∈ st.pq, p.1 ≠ ⊤
  keyRange : ∀ p ∈ st.pq, p.2 < n
  frozen : ∀ w ∈ done, ∀ p ∈ st.pq, st.md.getD w ⊤ ≤ p.1
  inQueue : ∀ v, v ∉ done → st.md.getD v ⊤ ≠ ⊤ →
    (st.md.getD v ⊤, v) ∈ st.pq
  uDone : u ∈ done
  doneLe : ∀ w ∈ done, st.md.getD w ⊤ ≤ st.md.getD u ⊤

/-- Termination measure of the Dijkstra loop: queue size plus, for every
unexpanded vertex, its degree plus one. -/
def dMeasure (g : List (List (Edge α))) (n : ℕ) (st : DState α)
    (done : List ℕ) : ℕ :=
  st.pq.length +
    ((Finset.range n).filter (fun u => u ∉ done)).sum
      (fun u => (g.getD u []).length + 1)

end ClaimDefs

/-! ## Concrete fixtures used by witnesses and counterexamples -/

/-- The `ℝ` instantiation of the `<cmath>` interface used by the claim
statements (`atan2 y x = Complex.arg (x + y·i)`; `std::remainder` rounds the
quotient to the nearest integer). -/
noncomputable def realFloats : Floats ℝ :=
  ⟨Real.sqrt, Real.sin, Real.cos, Real.arccos,
   fun y x => Complex.arg ⟨x, y⟩,
   fun x y => x - y * (round (x / y) : ℤ), Real.pi⟩

/-- A `Floats ℚ` instantiation for executable witnesses (a genuine square
root is never needed on the paths the witnesses exercise). -/
def qFloatsId : Floats ℚ :=
  ⟨id, fun _ => 0, fun _ => 0, fun _ => 0, fun _ _ => 0, fun _ _ => 0, 0⟩

def qFloatsOne : Floats ℚ :=
  ⟨fun _ => 1, fun _ => 0, fun _ => 0, fun _ => 0, fun _ _ => 0, fun _ _ => 0, 0⟩

/-- Collinear triangle: every face has zero area, so every lumped mass is 0. -/
def degVerts : List (Vec3 ℚ) := [⟨0, 0, 0⟩, ⟨1, 0, 0⟩, ⟨2, 0, 0⟩]

def degFaces : List Face := [⟨0, 1, 2⟩]

/-- Path graph `0 — 1 — 2` with a potential that has its minimum at vertex 2,
so greedy descent from `endId = 2` is stuck immediately. -/
def walkVerts : List (Vec3 ℚ) := [⟨0, 0, 0⟩, ⟨1, 0, 0⟩, ⟨2, 0, 0⟩]

def walkNbrs : List (List ℕ) := [[1], [0, 2], [1]]

def walkPhi : List ℚ := [0, 10, 1]

/-- The unit tetrahedron of the spec's end-to-end scenario 1. -/
def tetraVerts : List (Vec3 ℝ) := [⟨0, 0, 0⟩, ⟨1, 0, 0⟩, ⟨0, 1, 0⟩, ⟨0, 0, 1⟩]

def tetraFaces : List Face := [⟨0, 1, 2⟩, ⟨0, 1, 3⟩, ⟨0, 2, 3⟩, ⟨1, 2, 3⟩]

/-- A strip of collinear vertices whose Dijkstra run `0 → 1` terminates
early, leaving the edge `(2,3)` unrelaxed. -/
def stripVerts : List (Vec3 ℝ) := [⟨0, 0, 0⟩, ⟨1, 0, 0⟩, ⟨3, 0, 0⟩, ⟨9, 0, 0⟩]

def stripFaces : List Face := [⟨0, 1, 2⟩, ⟨1, 2, 3⟩]

/-- The vertex array of a parsed OBJ file, carried to `ℝ` (the C++ stores
`double` coordinates directly; the parser model produces their exact
rational values). -/
noncomputable def objVertsR (junk : ℕ → Vec3 ℚ) (content : String) : List (Vec3 ℝ) :=
  (loadOBJ junk content).1.map (fun v => ⟨(v.x : ℝ), (v.y : ℝ), (v.z : ℝ)⟩)

/-- The Euclidean edge graph accumulated by `addEdge` while parsing an OBJ
file (weights `dist = sqrt ∘ sqDist`, as in `MeshEngine::addEdge`). -/
noncomputable def objGraphR (junk : ℕ → Vec3 ℚ) (content : String) :
    List (List (Edge ℝ)) :=
  buildGraph (fun a b => Real.sqrt (sqDist a b)) (objVertsR junk content)
    (loadOBJ junk content).2

/-- A one-triangle OBJ file. -/
def objW : String := "v 0 0 0\nv 1 0 0\nv 0 1 0\nf 1 2 3"

/-- A fixed choice of indeterminate stack contents, for concrete
evaluations (on `objW` every component is extracted, so the result does not
depend on it). -/
def junk0 : ℕ → Vec3 ℚ := fun _ => default

/-- A small right-triangle plane mesh; its bounding box has max size 1, so
the normalisation scale is `2` and `lengthScale = 1/2`. -/
def planeVerts : List (Vec3 ℝ) := [⟨0, 0, 0⟩, ⟨1, 0, 0⟩, ⟨0, 1, 0⟩]

/-- The edge graph `loadOBJ` accumulates for the unit tetrahedron, with
`s = √2` the weight of the edges joining the three unit-axis vertices. -/
def tetraGraph (s : ℝ) : List (List (Edge ℝ)) :=
  [[⟨1, 1⟩, ⟨2, 1⟩, ⟨1, 1⟩, ⟨3, 1⟩, ⟨2, 1⟩, ⟨3, 1⟩],
   [⟨0, 1⟩, ⟨2, s⟩, ⟨0, 1⟩, ⟨3, s⟩, ⟨2, s⟩, ⟨3, s⟩],
   [⟨1, s⟩, ⟨0, 1⟩, ⟨0, 1⟩, ⟨3, s⟩, ⟨1, s⟩, ⟨3, s⟩],
   [⟨1, s⟩, ⟨0, 1⟩, ⟨2, s⟩, ⟨0, 1⟩, ⟨2, s⟩, ⟨1, s⟩]]

/-- The edge graph of the collinear strip `stripVerts`/`stripFaces` (all
Euclidean weights are integers). -/
def stripGraph : List (List (Edge ℝ)) :=
  [[⟨1, 1⟩, ⟨2, 3⟩],
   [⟨0, 1⟩, ⟨2, 2⟩, ⟨2, 2⟩, ⟨3, 8⟩],
   [⟨1, 2⟩, ⟨0, 3⟩, ⟨1, 2⟩, ⟨3, 6⟩],
   [⟨2, 6⟩, ⟨1, 8⟩]]

/-! # Theorems -/

section HeatClaims

variable {α : Type} [LinearOrderedField α]

/-- Degenerate-source early return of `makeHeatMethodGeodesic`. -/
theorem makeHeat_degenerate (F : Floats α) (verts : List (Vec3 α))
    (faces : List Face) (s e : ℕ) (hs : s < verts.length) (he : e < verts.length)
    (hm : (heatAssemble F verts faces).mass.getD s 0 ≤ 1 / 10 ^ 12) :
    makeHeatMethodGeodesic F verts faces s e = ⟨"heat_geodesic", 0, []⟩ := by
  unfold makeHeatMethodGeodesic
  have h1 : ¬(verts.length = 0 ∨ verts.length ≤ s ∨ verts.length ≤ e) := by omega
  rw [if_neg h1, if_pos hm]

/-- C8: if the lumped mass of the (normalised) source vertex is `≤ 10⁻¹²`,
the Heat-Method solver fails: `makeHeatMethodGeodesic` returns the empty
curve, and the heat-mode result of `computeHeatForModel` has no curves and a
non-empty error field. -/
theorem heat_degenerate_source_fails (F : Floats α) (verts : List (Vec3 α))
    (faces : List Face) (s e : ℕ) (name : String)
    (hs : s < verts.length) (he : e < verts.length) (hf : faces ≠ [])
    (hm : (heatAssemble F
        (verts.map (applyNormalize (computeNormalizeTransform verts))) faces).mass.getD s 0
      ≤ 1 / 10 ^ 12) :
    (makeHeatMethodGeodesic F
        (verts.map (applyNormalize (computeNormalizeTransform verts))) faces s e).points = [] ∧
    (computeHeatForModel F name s e verts faces).curves = [] ∧
    (computeHeatForModel F name s e verts faces).error ≠ "" := by
  have hlen : (verts.map (applyNormalize (computeNormalizeTransform verts))).length
      = verts.length := by simp
  have hmk := makeHeat_degenerate F
    (verts.map (applyNormalize (computeNormalizeTransform verts))) faces s e
    (by omega) (by omega) hm
  refine ⟨by rw [hmk], ?_⟩
  have hne : verts ≠ [] := by
    intro h
    rw [h] at hs
    simp at hs
  unfold computeHeatForModel
  have h1 : ¬(verts.isEmpty = true) := by simp [hne]
  have h2 : ¬(faces.isEmpty = true) := by simp [hf]
  have h3 : ¬(verts.length ≤ s ∨ verts.length ≤ e) := by omega
  rw [if_neg h1, if_neg h2, if_neg h3]
  simp only [hmk]
  simp

unseal Rat.add Rat.mul Rat.sub Rat.inv Rat.ofScientific in
/-- Witness for `heat_degenerate_source_fails`: the collinear triangle, all
lumped masses zero. -/
theorem heat_degenerate_source_fails_witness :
    ((heatAssemble qFloatsId
        (degVerts.map (applyNormalize (computeNormalizeTransform degVerts))) degFaces).mass.getD 0 0
      ≤ 1 / 10 ^ 12) ∧
    (computeHeatForModel qFloatsId "bad.obj" 0 1 degVerts degFaces).curves = [] ∧
    (computeHeatForModel qFloatsId "bad.obj" 0 1 degVerts degFaces).error ≠ "" := by
  have h := heat_degenerate_source_fails qFloatsId degVerts degFaces 0 1 "bad.obj"
    (by decide) (by decide) (by decide) (by decide)
  exact ⟨by decide, h.2.1, h.2.2⟩

/-- The reconstruction loop appends the visited chain after `acc`, starting
with the cursor vertex. -/
theorem buildPathAux_spec (par : List (Option ℕ)) :
    ∀ (fuel v : ℕ) (acc : List ℕ), ∃ tail,
      buildPathAux par fuel v acc = acc ++ tail ∧
      (0 < fuel → tail.head? = some v) := by
  intro fuel
  induction fuel with
  | zero => intro v acc; exact ⟨[], by simp [buildPathAux], by omega⟩
  | succ f ih =>
    intro v acc
    unfold buildPathAux
    cases h : par.getD v none with
    | none => exact ⟨[v], by simp, fun _ => rfl⟩
    | some p =>
      obtain ⟨t2, ht2, _⟩ := ih p (acc ++ [v])
      refine ⟨v :: t2, ?_, fun _ => rfl⟩
      show buildPathAux par f p (acc ++ [v]) = acc ++ v :: t2
      rw [ht2]
      simp

/-- C1 (code bug): when the greedy descent fails to reach `startId` and the
Dijkstra fallback recovers a predecessor chain, the emitted curve starts at
`endId`'s position (the fallback path is reversed twice: once inside the
fallback branch and once by the shared final `std::reverse`), contradicting
the spec's "emit the vertex positions in order from start to end".
`extractHeatPath` is exactly the path-extraction tail of
`makeHeatMethodGeodesic`, universally quantified over the Poisson solution
`φ`. -/
theorem extractHeatPath_fallback_starts_at_end (F : Floats α)
    (verts : List (Vec3 α)) (neighbors : List (List ℕ)) (phi : List α)
    (startId endId : ℕ)
    (hgr : (greedyLoop neighbors phi startId (verts.length * 3) endId [endId]
      ((List.replicate verts.length false).set endId true)).getLastD 0 ≠ startId)
    (hfb : (heatFallback F verts neighbors startId endId).2.getD endId none ≠ none) :
    (extractHeatPath F verts neighbors phi startId endId).points.head? =
      some (verts.getD endId default) := by
  unfold extractHeatPath
  rw [if_neg hgr, if_neg (fun h => hfb h.1)]
  obtain ⟨tail, htail, hhead⟩ :=
    buildPathAux_spec (heatFallback F verts neighbors startId endId).2
      (verts.length + 1) endId []
  unfold finishHeatCurve
  rw [htail]
  simp only [List.nil_append, List.reverse_reverse, List.head?_map]
  rw [hhead (by omega)]
  rfl

unseal Rat.add Rat.mul Rat.sub Rat.inv Rat.ofScientific in
/-- Witness for `extractHeatPath_fallback_starts_at_end`: on the path graph
`0 — 1 — 2` with potential `φ = [0, 10, 1]`, the greedy walk from `endId = 2`
is stuck, the fallback succeeds, and the emitted curve starts at vertex two's
position `(2,0,0)` (not at `startId = 0`'s position `(0,0,0)`). -/
theorem extractHeatPath_fallback_starts_at_end_witness :
    ((greedyLoop walkNbrs walkPhi 0 (walkVerts.length * 3) 2 [2]
      ((List.replicate walkVerts.length false).set 2 true)).getLastD 0 ≠ 0) ∧
    ((heatFallback qFloatsOne walkVerts walkNbrs 0 2).2.getD 2 none ≠ none) ∧
    (extractHeatPath qFloatsOne walkVerts walkNbrs walkPhi 0 2).points.head? =
      some ⟨2, 0, 0⟩ := by
  refine ⟨by decide, by decide, ?_⟩
  have h := extractHeatPath_fallback_starts_at_end qFloatsOne walkVerts walkNbrs
    walkPhi 0 2 (by decide) (by decide)
  simpa using h

end HeatClaims

section AnalyticClaims

variable {α : Type} [LinearOrderedField α]

theorem vmul_one_eq (p : Vec3 α) : vmul p 1 = p := by
  cases p; simp [vmul]

theorem vmul_vmul (p : Vec3 α) (s t : α) : vmul (vmul p s) t = vmul p (s * t) := by
  cases p; simp [vmul]; constructor <;> ring_nf <;> simp [mul_comm]

theorem vadd_vmul_one_zero (a b : Vec3 α) : vadd (vmul a 1) (vmul b 0) = a := by
  cases a; cases b; simp [vadd, vmul]

theorem vadd_vmul_zero_one (a b : Vec3 α) : vadd (vmul a 0) (vmul b 1) = b := by
  cases a; cases b; simp [vadd, vmul]

theorem range_map_head {β : Type} (f : ℕ → β) {n : ℕ} (hn : 0 < n) :
    ((List.range n).map f).head? = some (f 0) := by
  obtain ⟨m, rfl⟩ : ∃ m, n = m + 1 := ⟨n - 1, by omega⟩
  rw [List.range_succ_eq_map]
  simp

theorem range_map_last {β : Type} (f : ℕ → β) {n : ℕ} (hn : 0 < n) :
    ((List.range n).map f).getLast? = some (f (n - 1)) := by
  obtain ⟨m, rfl⟩ : ∃ m, n = m + 1 := ⟨n - 1, by omega⟩
  rw [List.range_succ]
  simp [List.getLast?_concat]

theorem integrateGeodesic_go_length (surf : ParamSurface α) (h : α) :
    ∀ (k : ℕ) (s : GeodesicState α),
      (integrateGeodesic.go surf h k s).length = k + 1 := by
  intro k
  induction k with
  | zero => intro s; rfl
  | succ m ih => intro s; simp [integrateGeodesic.go, ih]

theorem integrateGeodesic_length (surf : ParamSurface α) (s : GeodesicState α)
    (steps : ℕ) : (integrateGeodesic surf s steps).length = steps + 1 := by
  unfold integrateGeodesic
  exact integrateGeodesic_go_length surf _ steps s

/-- The `front() = p1; back() = p2` pinning applied to a list of length ≥ 2. -/
theorem pinned_head_last (p1 p2 : Vec3 α) (l : List (Vec3 α)) (hl : 2 ≤ l.length) :
    ((match l with
      | [] => ([] : List (Vec3 α))
      | _ :: qs => (p1 :: qs).dropLast ++ [p2]).head? = some p1) ∧
    ((match l with
      | [] => ([] : List (Vec3 α))
      | _ :: qs => (p1 :: qs).dropLast ++ [p2]).getLast? = some p2) := by
  match l, hl with
  | x :: q2 :: qs, _ =>
    constructor
    · show ((p1 :: (q2 :: qs)).dropLast ++ [p2]).head? = some p1
      rw [List.dropLast_cons₂]
      rfl
    · show ((p1 :: (q2 :: qs)).dropLast ++ [p2]).getLast? = some p2
      exact List.getLast?_concat _

/-- Torus curves pin both endpoints exactly (the assignment
`points.front() = p1; points.back() = p2`). -/
theorem makeTorus_pins (F : Floats α) (p1 p2 : Vec3 α) (torus : TorusParams α)
    (samples : ℕ) :
    (makeTorusApproxGeodesic F p1 p2 torus samples).points.head? = some p1 ∧
    (makeTorusApproxGeodesic F p1 p2 torus samples).points.getLast? = some p2 := by
  unfold makeTorusApproxGeodesic
  simp only []
  apply pinned_head_last
  split
  · simpa using Nat.le_max_left 2 samples
  · rw [List.length_map, integrateGeodesic_length]
    have := Nat.le_max_left 2 samples
    omega

/-- Saddle curves pin both endpoints exactly. -/
theorem makeSaddle_pins (F : Floats α) (p1 p2 : Vec3 α) (saddle : SaddleParams α)
    (samples : ℕ) :
    (makeSaddleApproxGeodesic F p1 p2 saddle samples).points.head? = some p1 ∧
    (makeSaddleApproxGeodesic F p1 p2 saddle samples).points.getLast? = some p2 := by
  unfold makeSaddleApproxGeodesic
  simp only []
  apply pinned_head_last
  split
  · simpa using Nat.le_max_left 2 samples
  · rw [List.length_map, integrateGeodesic_length]
    have := Nat.le_max_left 2 samples
    omega

/-- Plane curves start at `p1` and end at `p2` exactly. -/
theorem makePlane_pins (F : Floats α) (p1 p2 : Vec3 α) (samples : ℕ) :
    (makePlaneGeodesic F p1 p2 samples).points.head? = some p1 ∧
    (makePlaneGeodesic F p1 p2 samples).points.getLast? = some p2 := by
  unfold makePlaneGeodesic
  have hn : 0 < max 2 samples := by omega
  have hne : max 2 samples ≠ 1 := by omega
  constructor
  · rw [range_map_head _ hn]
    simp only [if_neg hne, Nat.cast_zero, zero_div]
    congr 1
    cases p1; cases p2; simp [vadd, vmul]
  · rw [range_map_last _ hn]
    simp only [if_neg hne]
    have hcast : ((max 2 samples - 1 : ℕ) : α) = (max 2 samples : ℕ) - 1 := by
      have : (1 : ℕ) ≤ max 2 samples := by omega
      push_cast [this]
      ring
    have hden : ((max 2 samples : ℕ) : α) - 1 ≠ 0 := by
      have h2 : (2 : α) ≤ ((max 2 samples : ℕ) : α) := by
        exact_mod_cast Nat.le_max_left 2 samples
      intro h
      have : ((max 2 samples : ℕ) : α) = 1 := by linarith
      rw [this] at h2
      linarith
    rw [hcast, div_self hden]
    congr 1
    cases p1; cases p2; simp [vadd, vmul]

/-- Sphere curves under the generic slerp branch: the first point is `r·p̂₁`
and the last is `r·p̂₂`, where `r = sphereRadius` is the radius the code
chooses — for all endpoint radii, equal or not; when `‖p1‖ = ‖p2‖ = r` these
are exactly `p1` and `p2`, and otherwise they are not. -/
theorem makeSphere_endpoints (F : Floats α) (p1 p2 : Vec3 α) (samples : ℕ)
    (hs0 : F.sin 0 = 0)
    (hni : ¬sphereTheta F p1 p2 ≤ 1 / 10 ^ 8)
    (hna : ¬F.pi - sphereTheta F p1 p2 ≤ 1 / 10 ^ 5)
    (hsl : ¬F.sin (sphereTheta F p1 p2) ≤ 1 / 10 ^ 6) :
    (makeSphereGreatCircle F p1 p2 samples).points.head? =
      some (vmul (sphereUnit F p1) (sphereRadius F p1 p2)) ∧
    (makeSphereGreatCircle F p1 p2 samples).points.getLast? =
      some (vmul (sphereUnit F p2) (sphereRadius F p1 p2)) := by
  have hsinpos : (0 : α) < F.sin (sphereTheta F p1 p2) := by
    push_neg at hsl
    have : (0 : α) < 1 / 10 ^ 6 := by positivity
    linarith
  have hsinne : F.sin (sphereTheta F p1 p2) ≠ 0 := ne_of_gt hsinpos
  have husl : ¬(¬(F.pi - sphereTheta F p1 p2 ≤ 1 / 10 ^ 5) ∧
      F.sin (sphereTheta F p1 p2) ≤ 1 / 10 ^ 6) := fun h => hsl h.2
  have hn : 0 < max 2 samples := by omega
  have hrr : (if vlen F p1 > 1 / 10 ^ 12 ∧ vlen F p2 > 1 / 10 ^ 12 then
      (vlen F p1 + vlen F p2) / 2 else max (vlen F p1) (vlen F p2)) =
      sphereRadius F p1 p2 := rfl
  unfold makeSphereGreatCircle
  rw [if_neg hni, if_neg hna]
  simp only [hrr]
  constructor
  · rw [range_map_head _ hn]
    simp only [if_neg husl, Nat.cast_zero, zero_div]
    rw [sub_zero, one_mul, zero_mul, hs0, div_self hsinne, zero_div,
      vadd_vmul_one_zero]
  · rw [range_map_last _ hn]
    simp only [if_neg husl]
    have hne1 : max 2 samples ≠ 1 := by omega
    have hcast : ((max 2 samples - 1 : ℕ) : α) = (max 2 samples : ℕ) - 1 := by
      have : (1 : ℕ) ≤ max 2 samples := by omega
      push_cast [this]
      ring
    have hden : ((max 2 samples : ℕ) : α) - 1 ≠ 0 := by
      have h2 : (2 : α) ≤ ((max 2 samples : ℕ) : α) := by
        exact_mod_cast Nat.le_max_left 2 samples
      intro h
      have : ((max 2 samples : ℕ) : α) = 1 := by linarith
      rw [this] at h2
      linarith
    rw [hcast, div_self hden]
    rw [sub_self, zero_mul, hs0, zero_div, one_mul, div_self hsinne,
      vadd_vmul_zero_one]

/-- C5 counterexample: `makeSphereGreatCircle` with `p1 = (1,0,0)`,
`p2 = (0,2,0)` (radii 1 and 2) has first point `(3/2, 0, 0) ≠ p1`: sphere
endpoints are not pinned exactly. -/
theorem sphere_first_point_not_pinned :
    (makeSphereGreatCircle realFloats ⟨1, 0, 0⟩ ⟨0, 2, 0⟩ 128).points.head? ≠
      some (⟨1, 0, 0⟩ : Vec3 ℝ) := by
  have hv1 : vlen realFloats (⟨1, 0, 0⟩ : Vec3 ℝ) = 1 := by
    show Real.sqrt _ = 1
    rw [show vdot (⟨1, 0, 0⟩ : Vec3 ℝ) ⟨1, 0, 0⟩ = 1 by simp [vdot]]
    exact Real.sqrt_one
  have hv2 : vlen realFloats (⟨0, 2, 0⟩ : Vec3 ℝ) = 2 := by
    show Real.sqrt _ = 2
    rw [show vdot (⟨0, 2, 0⟩ : Vec3 ℝ) ⟨0, 2, 0⟩ = 2 ^ 2 by simp [vdot]; norm_num]
    exact Real.sqrt_sq (by norm_num)
  have hth : sphereTheta realFloats (⟨1, 0, 0⟩ : Vec3 ℝ) ⟨0, 2, 0⟩ = Real.pi / 2 := by
    unfold sphereTheta sphereUnit
    rw [if_pos (by rw [hv1]; norm_num), if_pos (by rw [hv2]; norm_num)]
    rw [show vdot (vmul (⟨1, 0, 0⟩ : Vec3 ℝ) (1 / vlen realFloats ⟨1, 0, 0⟩))
        (vmul (⟨0, 2, 0⟩ : Vec3 ℝ) (1 / vlen realFloats ⟨0, 2, 0⟩)) = 0 by
      simp [vdot, vmul]]
    rw [show max (-1 : ℝ) (min 1 0) = 0 by norm_num]
    exact Real.arccos_zero
  have hpi : (3 : ℝ) < Real.pi := Real.pi_gt_three
  have hni : ¬sphereTheta realFloats (⟨1, 0, 0⟩ : Vec3 ℝ) ⟨0, 2, 0⟩ ≤ 1 / 10 ^ 8 := by
    rw [hth]; push_neg; nlinarith
  have hna : ¬Real.pi - sphereTheta realFloats (⟨1, 0, 0⟩ : Vec3 ℝ) ⟨0, 2, 0⟩
      ≤ 1 / 10 ^ 5 := by
    rw [hth]; push_neg; nlinarith
  have hsth : Real.sin (sphereTheta realFloats (⟨1, 0, 0⟩ : Vec3 ℝ) ⟨0, 2, 0⟩) = 1 := by
    rw [hth]; exact Real.sin_pi_div_two
  have husl : ¬(¬(realFloats.pi - sphereTheta realFloats (⟨1, 0, 0⟩ : Vec3 ℝ) ⟨0, 2, 0⟩
      ≤ 1 / 10 ^ 5) ∧
      realFloats.sin (sphereTheta realFloats (⟨1, 0, 0⟩ : Vec3 ℝ) ⟨0, 2, 0⟩)
        ≤ 1 / 10 ^ 6) := by
    intro h
    have := h.2
    show False
    have h1 : realFloats.sin (sphereTheta realFloats (⟨1, 0, 0⟩ : Vec3 ℝ) ⟨0, 2, 0⟩)
        = 1 := hsth
    rw [h1] at this
    norm_num at this
  have hnaF : ¬realFloats.pi - sphereTheta realFloats (⟨1, 0, 0⟩ : Vec3 ℝ) ⟨0, 2, 0⟩
      ≤ 1 / 10 ^ 5 := hna
  have hsthF : realFloats.sin (sphereTheta realFloats (⟨1, 0, 0⟩ : Vec3 ℝ) ⟨0, 2, 0⟩)
      = 1 := hsth
  have hhead : (makeSphereGreatCircle realFloats ⟨1, 0, 0⟩ ⟨0, 2, 0⟩ 128).points.head? =
      some (⟨3 / 2, 0, 0⟩ : Vec3 ℝ) := by
    unfold makeSphereGreatCircle
    rw [if_neg hni, if_neg hnaF]
    rw [range_map_head _ (by omega : 0 < max 2 128)]
    rw [if_pos ⟨by rw [hv1]; norm_num, by rw [hv2]; norm_num⟩]
    simp only [Nat.cast_zero, zero_div]
    rw [if_neg husl]
    rw [sub_zero, one_mul, zero_mul]
    have hsz : realFloats.sin 0 = 0 := Real.sin_zero
    rw [hsz, zero_div, hsthF, div_self (by norm_num : (1 : ℝ) ≠ 0)]
    rw [show sphereUnit realFloats (⟨1, 0, 0⟩ : Vec3 ℝ) =
        vmul ⟨1, 0, 0⟩ (1 / vlen realFloats ⟨1, 0, 0⟩) by
      unfold sphereUnit; rw [if_pos (by rw [hv1]; norm_num)]]
    rw [hv1, hv2]
    congr 1
    simp [vadd, vmul]
    norm_num
  rw [hhead]
  intro h
  have := Option.some.inj h
  have hx : (3 / 2 : ℝ) = 1 := congrArg Vec3.x this
  norm_num at hx

/-- C5 (amended): plane, torus and saddle curves pin both endpoints exactly,
unconditionally; the sphere curve, under the generic slerp branch, starts at
`r·p̂₁` and ends at `r·p̂₂` with `r = sphereRadius` the chosen radius — these
equal `p₁`/`p₂` exactly when both endpoint radii equal `r`, and when
`‖p₁‖ ≠ ‖p₂‖` the sphere endpoints are not pinned. -/
theorem analytic_endpoints_pinned (F : Floats α) (hs0 : F.sin 0 = 0) :
    (∀ (p1 p2 : Vec3 α) (samples : ℕ),
      (makePlaneGeodesic F p1 p2 samples).points.head? = some p1 ∧
      (makePlaneGeodesic F p1 p2 samples).points.getLast? = some p2) ∧
    (∀ (p1 p2 : Vec3 α) (torus : TorusParams α) (samples : ℕ),
      (makeTorusApproxGeodesic F p1 p2 torus samples).points.head? = some p1 ∧
      (makeTorusApproxGeodesic F p1 p2 torus samples).points.getLast? = some p2) ∧
    (∀ (p1 p2 : Vec3 α) (saddle : SaddleParams α) (samples : ℕ),
      (makeSaddleApproxGeodesic F p1 p2 saddle samples).points.head? = some p1 ∧
      (makeSaddleApproxGeodesic F p1 p2 saddle samples).points.getLast? = some p2) ∧
    (∀ (p1 p2 : Vec3 α) (samples : ℕ),
      ¬sphereTheta F p1 p2 ≤ 1 / 10 ^ 8 →
      ¬F.pi - sphereTheta F p1 p2 ≤ 1 / 10 ^ 5 →
      ¬F.sin (sphereTheta F p1 p2) ≤ 1 / 10 ^ 6 →
      (makeSphereGreatCircle F p1 p2 samples).points.head? =
        some (vmul (sphereUnit F p1) (sphereRadius F p1 p2)) ∧
      (makeSphereGreatCircle F p1 p2 samples).points.getLast? =
        some (vmul (sphereUnit F p2) (sphereRadius F p1 p2))) :=
  ⟨fun p1 p2 samples => makePlane_pins F p1 p2 samples,
    fun p1 p2 torus samples => makeTorus_pins F p1 p2 torus samples,
    fun p1 p2 saddle samples => makeSaddle_pins F p1 p2 saddle samples,
    fun p1 p2 samples hni hna hsl =>
      makeSphere_endpoints F p1 p2 samples hs0 hni hna hsl⟩

/-- Witness for `analytic_endpoints_pinned` over `ℝ`: plane pinning at
`p1 = (1,0,0)`, `p2 = (0,1,0)`, and the sphere endpoint formula at
`p1 = (1,0,0)`, `p2 = (0,2,0)` (unequal radii) with the slerp-branch
hypotheses discharged at `θ = π/2`. -/
theorem analytic_endpoints_pinned_witness :
    (makePlaneGeodesic realFloats ⟨1, 0, 0⟩ ⟨0, 1, 0⟩ 64).points.head? =
      some (⟨1, 0, 0⟩ : Vec3 ℝ) ∧
    (makeSphereGreatCircle realFloats ⟨1, 0, 0⟩ ⟨0, 2, 0⟩ 128).points.head? =
      some (vmul (sphereUnit realFloats (⟨1, 0, 0⟩ : Vec3 ℝ))
        (sphereRadius realFloats ⟨1, 0, 0⟩ ⟨0, 2, 0⟩)) := by
  have hv1 : vlen realFloats (⟨1, 0, 0⟩ : Vec3 ℝ) = 1 := by
    show Real.sqrt _ = 1
    rw [show vdot (⟨1, 0, 0⟩ : Vec3 ℝ) ⟨1, 0, 0⟩ = 1 by simp [vdot]]
    exact Real.sqrt_one
  have hv2 : vlen realFloats (⟨0, 2, 0⟩ : Vec3 ℝ) = 2 := by
    show Real.sqrt _ = 2
    rw [show vdot (⟨0, 2, 0⟩ : Vec3 ℝ) ⟨0, 2, 0⟩ = 2 ^ 2 by simp [vdot]; norm_num]
    exact Real.sqrt_sq (by norm_num)
  have hth : sphereTheta realFloats (⟨1, 0, 0⟩ : Vec3 ℝ) ⟨0, 2, 0⟩ = Real.pi / 2 := by
    unfold sphereTheta sphereUnit
    rw [if_pos (by rw [hv1]; norm_num), if_pos (by rw [hv2]; norm_num)]
    rw [show vdot (vmul (⟨1, 0, 0⟩ : Vec3 ℝ) (1 / vlen realFloats ⟨1, 0, 0⟩))
        (vmul (⟨0, 2, 0⟩ : Vec3 ℝ) (1 / vlen realFloats ⟨0, 2, 0⟩)) = 0 by
      simp [vdot, vmul]]
    rw [show max (-1 : ℝ) (min 1 0) = 0 by norm_num]
    exact Real.arccos_zero
  have hpi : (3 : ℝ) < Real.pi := Real.pi_gt_three
  have h := analytic_endpoints_pinned realFloats Real.sin_zero
  refine ⟨(h.1 ⟨1, 0, 0⟩ ⟨0, 1, 0⟩ 64).1, ?_⟩
  have hslerp : ¬realFloats.sin
      (sphereTheta realFloats (⟨1, 0, 0⟩ : Vec3 ℝ) ⟨0, 2, 0⟩) ≤ 1 / 10 ^ 6 := by
    rw [show realFloats.sin = Real.sin from rfl, hth, Real.sin_pi_div_two]
    norm_num
  exact (h.2.2.2 ⟨1, 0, 0⟩ ⟨0, 2, 0⟩ 128
    (by rw [hth]; push_neg; nlinarith)
    (by rw [show realFloats.pi = Real.pi from rfl, hth]; push_neg; nlinarith)
    hslerp).1

end AnalyticClaims

section ListHelpers

variable {β : Type}

theorem getD_set_self (l : List β) (i : ℕ) (x d : β) (h : i < l.length) :
    (l.set i x).getD i d = x := by
  induction l generalizing i with
  | nil => simp at h
  | cons a t ih =>
    cases i with
    | zero => rfl
    | succ j => exact ih j (by simpa using h)

theorem getD_set_ne (l : List β) {i j : ℕ} (x d : β) (h : i ≠ j) :
    (l.set i x).getD j d = l.getD j d := by
  induction l generalizing i j with
  | nil => simp
  | cons a t ih =>
    cases i with
    | zero => cases j with
      | zero => exact absurd rfl h
      | succ k => rfl
    | succ m => cases j with
      | zero => rfl
      | succ k => exact ih (fun hh => h (by omega))

theorem getD_append_nil_pad (l : List β) (k u : ℕ) (d : β) :
    ((l ++ List.replicate k d).getD u d) = l.getD u d := by
  induction l generalizing u with
  | nil =>
    simp only [List.nil_append]
    induction k generalizing u with
    | zero => rfl
    | succ m ih =>
      cases u with
      | zero => rfl
      | succ v => exact ih v
  | cons a t ih =>
    cases u with
    | zero => rfl
    | succ v => exact ih v

theorem length_set_eq (l : List β) (i : ℕ) (x : β) : (l.set i x).length = l.length :=
  List.length_set l i x

end ListHelpers

section GraphClaims

variable {α : Type} [LinearOrderedField α]

/-- The padded graph of `addEdge` before the two pushes. -/
theorem addEdge_len (distFn : Vec3 α → Vec3 α → α) (verts : List (Vec3 α))
    (g : List (List (Edge α))) (v1 v2 : ℕ) :
    max v1 v2 < (if g.length ≤ max v1 v2 then
      g ++ List.replicate (max v1 v2 + 1 - g.length) ([] : List (Edge α)) else g).length := by
  by_cases h : g.length ≤ max v1 v2
  · rw [if_pos h, List.length_append, List.length_replicate]
    omega
  · rw [if_neg h]
    omega

theorem edgeOccsAux_append (g h : List (List (Edge α))) (i : ℕ) :
    edgeOccsAux i (g ++ h) = edgeOccsAux i g + edgeOccsAux (i + g.length) h := by
  induction g generalizing i with
  | nil => simp [edgeOccsAux]
  | cons l ls ih =>
    have h1 : edgeOccsAux i ((l :: ls) ++ h) =
        ((l.map (fun e => (i, e.targetVertex, e.weight)) : List (ℕ × ℕ × α)) :
          Multiset (ℕ × ℕ × α)) + edgeOccsAux (i + 1) (ls ++ h) := rfl
    have h2 : edgeOccsAux i (l :: ls) =
        ((l.map (fun e => (i, e.targetVertex, e.weight)) : List (ℕ × ℕ × α)) :
          Multiset (ℕ × ℕ × α)) + edgeOccsAux (i + 1) ls := rfl
    rw [h1, ih (i + 1), h2]
    rw [show i + 1 + ls.length = i + (l :: ls).length from by simp; omega]
    exact (add_assoc _ _ _).symm

theorem edgeOccsAux_replicate_nil (k i : ℕ) :
    edgeOccsAux i (List.replicate k ([] : List (Edge α))) = 0 := by
  induction k generalizing i with
  | zero => rfl
  | succ m ih =>
    rw [List.replicate_succ]
    have h1 : edgeOccsAux i (([] : List (Edge α)) :: List.replicate m []) =
        ((([] : List (Edge α)).map (fun e => (i, e.targetVertex, e.weight)) :
          List (ℕ × ℕ × α)) : Multiset (ℕ × ℕ × α)) +
          edgeOccsAux (i + 1) (List.replicate m []) := rfl
    rw [h1, ih]
    simp

theorem edgeOccsAux_set_push (g : List (List (Edge α))) :
    ∀ (i j : ℕ) (e : Edge α), j < g.length →
      edgeOccsAux i (g.set j (g.getD j [] ++ [e])) =
        (i + j, e.targetVertex, e.weight) ::ₘ edgeOccsAux i g := by
  induction g with
  | nil => intro i j e h; simp at h
  | cons l ls ih =>
    intro i j e h
    cases j with
    | zero =>
      simp only [List.set, edgeOccsAux, List.getD, List.get?_cons_zero, Option.getD_some,
        List.map_append, List.map_cons, List.map_nil, Nat.add_zero]
      rw [show ((List.map (fun e => (i, e.targetVertex, e.weight)) l ++
          [(i, e.targetVertex, e.weight)] : List (ℕ × ℕ × α)) : Multiset (ℕ × ℕ × α)) =
          ((List.map (fun e => (i, e.targetVertex, e.weight)) l : List (ℕ × ℕ × α)) :
            Multiset (ℕ × ℕ × α)) + {(i, e.targetVertex, e.weight)} from by
        rw [← Multiset.coe_singleton, ← Multiset.coe_add]]
      rw [add_comm (((List.map (fun e => (i, e.targetVertex, e.weight)) l :
          List (ℕ × ℕ × α)) : Multiset (ℕ × ℕ × α))) {(i, e.targetVertex, e.weight)},
        add_assoc, Multiset.singleton_add]
    | succ m =>
      simp only [List.set, edgeOccsAux, List.getD]
      have := ih (i + 1) m e (by simpa using h)
      show _ + edgeOccsAux (i + 1) ((ls.set m ((ls.getD m []) ++ [e]))) = _
      rw [this]
      rw [show i + 1 + m = i + (m + 1) by omega]
      rw [Multiset.add_cons]

/-- `addEdge` contributes exactly the two directed occurrences, both with the
same weight `distFn vertices[v1] vertices[v2]`. -/
theorem edgeOccs_addEdge (distFn : Vec3 α → Vec3 α → α) (verts : List (Vec3 α))
    (g : List (List (Edge α))) (v1 v2 : ℕ) :
    edgeOccs (addEdge distFn verts g v1 v2) =
      (v2, v1, distFn (verts.getD v1 default) (verts.getD v2 default)) ::ₘ
      (v1, v2, distFn (verts.getD v1 default) (verts.getD v2 default)) ::ₘ
      edgeOccs g := by
  unfold addEdge edgeOccs
  have hpad : edgeOccsAux 0 (if g.length ≤ max v1 v2 then
      g ++ List.replicate (max v1 v2 + 1 - g.length) ([] : List (Edge α)) else g) =
      edgeOccsAux 0 g := by
    split
    · rw [edgeOccsAux_append, edgeOccsAux_replicate_nil, add_zero]
    · rfl
  have hlen := addEdge_len distFn verts g v1 v2
  set g1 := if g.length ≤ max v1 v2 then
    g ++ List.replicate (max v1 v2 + 1 - g.length) ([] : List (Edge α)) else g with hg1
  have h1 : v1 < g1.length := by omega
  have h2 : v2 < (g1.set v1 (g1.getD v1 [] ++ [⟨v2,
      distFn (verts.getD v1 default) (verts.getD v2 default)⟩])).length := by
    rw [length_set_eq]
    omega
  rw [edgeOccsAux_set_push _ 0 v2 _ h2, edgeOccsAux_set_push _ 0 v1 _ h1, hpad]
  simp

/-- `addFaceEdges` preserves swap-invariance of the occurrence multiset. -/
theorem edgeOccs_swap_addFaceEdges (distFn : Vec3 α → Vec3 α → α)
    (verts : List (Vec3 α)) (g : List (List (Edge α))) (f : Face)
    (ih : (edgeOccs g).map (fun p => (p.2.1, p.1, p.2.2)) = edgeOccs g) :
    (edgeOccs (addFaceEdges distFn verts g f)).map (fun p => (p.2.1, p.1, p.2.2)) =
      edgeOccs (addFaceEdges distFn verts g f) := by
  unfold addFaceEdges
  rw [edgeOccs_addEdge, edgeOccs_addEdge, edgeOccs_addEdge]
  simp only [Multiset.map_cons, ih]
  rw [show ∀ (a b c d e f' : ℕ × ℕ × α) (M : Multiset (ℕ × ℕ × α)),
    a ::ₘ b ::ₘ c ::ₘ d ::ₘ e ::ₘ f' ::ₘ M = b ::ₘ a ::ₘ d ::ₘ c ::ₘ f' ::ₘ e ::ₘ M by
      intro a b c d e f' M
      rw [Multiset.cons_swap a b]
      congr 2
      rw [Multiset.cons_swap c d]
      congr 2
      rw [Multiset.cons_swap e f']]

/-- C9 part 1, graph-level: the occurrence multiset of the built graph is
invariant under swapping the two endpoints (matched parallel pairs). -/
theorem edgeOccs_buildGraph_symm (distFn : Vec3 α → Vec3 α → α)
    (verts : List (Vec3 α)) (faces : List Face) :
    (edgeOccs (buildGraph distFn verts faces)).map (fun p => (p.2.1, p.1, p.2.2)) =
      edgeOccs (buildGraph distFn verts faces) := by
  unfold buildGraph
  induction faces using List.reverseRecOn with
  | nil => rfl
  | append_singleton fs f ih =>
    rw [List.foldl_append, List.foldl_cons, List.foldl_nil]
    exact edgeOccs_swap_addFaceEdges distFn verts _ f ih

/-- Bucket entries added by `addEdge`, described pointwise: an entry of the
new graph is an old entry or one of the two new ones. -/
theorem addEdge_bucket_cases (distFn : Vec3 α → Vec3 α → α) (verts : List (Vec3 α))
    (g : List (List (Edge α))) (v1 v2 u : ℕ) (e : Edge α)
    (he : e ∈ (addEdge distFn verts g v1 v2).getD u []) :
    e ∈ g.getD u [] ∨
      (u = v1 ∧ e = ⟨v2, distFn (verts.getD v1 default) (verts.getD v2 default)⟩) ∨
      (u = v2 ∧ e = ⟨v1, distFn (verts.getD v1 default) (verts.getD v2 default)⟩) := by
  unfold addEdge at he
  set d := distFn (verts.getD v1 default) (verts.getD v2 default) with hd
  set g1 := (if g.length ≤ max v1 v2 then
    g ++ List.replicate (max v1 v2 + 1 - g.length) ([] : List (Edge α)) else g) with hg1
  have hpad : ∀ w, g1.getD w [] = g.getD w [] := by
    intro w
    rw [hg1]
    split
    · exact getD_append_nil_pad g _ w []
    · rfl
  have hleng1 : max v1 v2 < g1.length := by
    rw [hg1]
    exact addEdge_len distFn verts g v1 v2
  have hlen1 : v1 < g1.length := by omega
  set g2 := g1.set v1 (g1.getD v1 [] ++ [⟨v2, d⟩]) with hg2
  have hlen2 : v2 < g2.length := by
    rw [hg2, length_set_eq]
    omega
  by_cases h2 : v2 = u
  · subst h2
    rw [getD_set_self g2 v2 _ _ hlen2] at he
    rcases List.mem_append.mp he with h | h
    · by_cases h1 : v1 = v2
      · subst h1
        rw [getD_set_self g1 v1 _ _ hlen1] at h
        rcases List.mem_append.mp h with h3 | h3
        · exact Or.inl (by rw [← hpad v1]; exact h3)
        · exact Or.inr (Or.inl ⟨rfl, by simpa using h3⟩)
      · rw [getD_set_ne g1 _ _ h1] at h
        exact Or.inl (by rw [← hpad v2]; exact h)
    · exact Or.inr (Or.inr ⟨rfl, by simpa using h⟩)
  · rw [getD_set_ne g2 _ _ h2] at he
    by_cases h1 : v1 = u
    · subst h1
      rw [getD_set_self g1 v1 _ _ hlen1] at he
      rcases List.mem_append.mp he with h | h
      · exact Or.inl (by rw [← hpad v1]; exact h)
      · exact Or.inr (Or.inl ⟨rfl, by simpa using h⟩)
    · rw [getD_set_ne g1 _ _ h1] at he
      exact Or.inl (by rw [← hpad u]; exact he)

/-- Every bucket entry of the built graph records a valid endpoint pair and
carries exactly the `distFn` weight of its endpoints. -/
theorem buildGraph_entries (distFn : Vec3 α → Vec3 α → α) (verts : List (Vec3 α))
    (faces : List Face)
    (hsym : ∀ a b, distFn a b = distFn b a)
    (hf : ∀ f ∈ faces, f.a < verts.length ∧ f.b < verts.length ∧ f.c < verts.length) :
    ∀ u, ∀ e ∈ (buildGraph distFn verts faces).getD u [],
      u < verts.length ∧ e.targetVertex < verts.length ∧
      e.weight = distFn (verts.getD u default) (verts.getD e.targetVertex default) := by
  unfold buildGraph
  induction faces using List.reverseRecOn with
  | nil =>
    intro u e he
    have hz : (List.foldl (fun g f => addFaceEdges distFn verts g f) [] []).getD u [] =
        ([] : List (Edge α)) := by
      rw [List.foldl_nil]
      cases u <;> rfl
    rw [hz] at he
    exact absurd he (List.not_mem_nil e)
  | append_singleton fs f ih =>
    intro u e he
    rw [List.foldl_append, List.foldl_cons, List.foldl_nil] at he
    have hf1 : ∀ f1 ∈ fs, f1.a < verts.length ∧ f1.b < verts.length ∧ f1.c < verts.length :=
      fun f1 h1 => hf f1 (by simp [h1])
    have hfv := hf f (by simp)
    unfold addFaceEdges at he
    rcases addEdge_bucket_cases distFn verts _ f.c f.a u e he with h | ⟨rfl, rfl⟩ | ⟨rfl, rfl⟩
    · rcases addEdge_bucket_cases distFn verts _ f.b f.c u e h with h | ⟨rfl, rfl⟩ | ⟨rfl, rfl⟩
      · rcases addEdge_bucket_cases distFn verts _ f.a f.b u e h with h | ⟨rfl, rfl⟩ | ⟨rfl, rfl⟩
        · exact ih hf1 u e h
        · exact ⟨hfv.1, hfv.2.1, rfl⟩
        · exact ⟨hfv.2.1, hfv.1, hsym _ _⟩
      · exact ⟨hfv.2.1, hfv.2.2, rfl⟩
      · exact ⟨hfv.2.2, hfv.2.1, hsym _ _⟩
    · exact ⟨hfv.2.2, hfv.1, rfl⟩
    · exact ⟨hfv.1, hfv.2.2, hsym _ _⟩

end GraphClaims

section ParserClaims

unseal Rat.add Rat.mul Rat.sub Rat.inv Rat.ofScientific in
/-- C7 counterexample: the `v` line `"v 1 2"` has only two numeric fields,
yet it is not skipped: a vertex is still stored.  The third extraction is
never attempted (the stream is exhausted, so its sentry fails), so `z`
keeps the indeterminate contents of the uninitialised stack `Vec3` — here
`(7, 8, 9)` — and the stored vertex is `(1, 2, 9)` (the spec claims such
lines contribute no entry at all). -/
theorem v_line_short_not_skipped :
    (loadOBJ (fun _ => ⟨7, 8, 9⟩) "v 1 2").1 = [⟨1, 2, 9⟩] ∧
      (loadOBJ (fun _ => ⟨7, 8, 9⟩) "v 1 2").1 ≠ [] := by
  decide

unseal Rat.add Rat.mul Rat.sub Rat.inv Rat.ofScientific in
/-- C7 (amended): every `v` line contributes exactly one vertex entry, in
encounter order — the `readVec3` parse of the line remainder, starting from
the indeterminate contents of the uninitialised stack `Vec3` — and leaves
the faces unchanged; lines with fewer than three numeric fields are not
skipped.  With three fields every component stores its parsed value; with
two, `x` and `y` store their values and `z` is never written, whatever the
indeterminate initial contents `init` were. -/
theorem v_line_appends :
    (∀ (junk : ℕ → Vec3 ℚ) (st : List (Vec3 ℚ) × List Face) (line : List Char),
      (readToken line).1 = [ 'v' ] →
      loadOBJLine junk st line =
        (st.1 ++ [readVec3 (junk st.1.length) (readToken line).2], st.2)) ∧
    (∀ init : Vec3 ℚ, readVec3 init (" 1 2 3".toList) = ⟨1, 2, 3⟩) ∧
    (∀ init : Vec3 ℚ, readVec3 init (" 1 2".toList) = ⟨1, 2, init.z⟩) := by
  refine ⟨?_, ?_, ?_⟩
  · intro junk st line h
    unfold loadOBJLine
    rw [if_pos h]
  · intro init
    have h1 : readDouble [' ', '1', ' ', '2', ' ', '3'] =
        (some 1, [' ', '2', ' ', '3'], false) := by
      decide
    have h2 : readDouble [' ', '2', ' ', '3'] = (some 2, [' ', '3'], false) := by
      decide
    have h3 : readDouble [' ', '3'] = (some 3, ([] : List Char), false) := by
      decide
    simp [readVec3, h1, h2, h3]
  · intro init
    have h1 : readDouble [' ', '1', ' ', '2'] = (some 1, [' ', '2'], false) := by
      decide
    have h2 : readDouble [' ', '2'] = (some 2, ([] : List Char), false) := by
      decide
    have h3 : readDouble ([] : List Char) = (none, ([] : List Char), true) := by
      decide
    simp [readVec3, h1, h2, h3]

unseal Rat.add Rat.mul Rat.sub Rat.inv Rat.ofScientific in
/-- Witness for `v_line_appends`: the well-formed line `v 1 2 3` appended to
the empty state stores exactly the vertex `(1, 2, 3)`, and parsing the short
remainder `" 1 2"` from the indeterminate contents `(7, 8, 9)` stores
`(1, 2, 9)`. -/
theorem v_line_appends_witness :
    loadOBJLine (fun _ => default) ([], []) ("v 1 2 3".toList) = ([⟨1, 2, 3⟩], []) ∧
      readVec3 ⟨7, 8, 9⟩ (" 1 2".toList) = ⟨1, 2, 9⟩ := by
  constructor
  · rw [v_line_appends.1 (fun _ => default) ([], []) ("v 1 2 3".toList) (by decide)]
    decide
  · rw [v_line_appends.2.2 ⟨7, 8, 9⟩]

end ParserClaims

section MeshGraphClaims

/-- A valid resolved face index is below the current vertex count. -/
theorem resolveIdx_lt {count : ℕ} {t : List Char} {idx : ℕ}
    (h : resolveIdx count t = some idx) : idx < count := by
  simp only [resolveIdx] at h
  split at h
  · exact absurd h (by simp)
  · split at h
    · exact absurd h (by simp)
    · split at h <;> split at h
      · rename_i hr
        have h2 := Option.some.inj h
        omega
      · exact absurd h (by simp)
      · rename_i hr
        have h2 := Option.some.inj h
        omega
      · exact absurd h (by simp)

theorem mem_filterMap_id {β : Type} {l : List (Option β)} {x : β}
    (h : x ∈ l.filterMap id) : some x ∈ l := by
  rcases List.mem_filterMap.mp h with ⟨a, ha, hax⟩
  simp only [id] at hax
  rw [← hax]
  exact ha

/-- Every index of a fully-resolved face token list is in range. -/
theorem resolved_filterMap_lt (count : ℕ) (toks : List (List Char)) :
    ∀ x ∈ (toks.map (resolveIdx count)).filterMap id, x < count := by
  intro x hx
  rcases List.mem_map.mp (mem_filterMap_id hx) with ⟨t, _, ht⟩
  exact resolveIdx_lt ht

theorem getD_mem {β : Type} (l : List β) (k : ℕ) (d : β) (h : k < l.length) :
    l.getD k d ∈ l := by
  rw [List.getD_eq_getElem l d h]
  exact List.getElem_mem h

/-- One parsed line preserves the face-index bound (new faces only use
indices validated against the current vertex count, and the vertex array
only grows). -/
theorem loadOBJLine_inv (junk : ℕ → Vec3 ℚ) (st : List (Vec3 ℚ) × List Face)
    (line : List Char)
    (h : ∀ f ∈ st.2, f.a < st.1.length ∧ f.b < st.1.length ∧ f.c < st.1.length) :
    ∀ f ∈ (loadOBJLine junk st line).2,
      f.a < (loadOBJLine junk st line).1.length ∧
        f.b < (loadOBJLine junk st line).1.length ∧
        f.c < (loadOBJLine junk st line).1.length := by
  simp only [loadOBJLine]
  split
  · intro f hf
    have h3 := h f hf
    simp only [List.length_append, List.length_cons, List.length_nil]
    omega
  · split
    · split
      · exact h
      · split
        · rename_i hsome
          intro f hf
          simp only at hf ⊢
          rcases List.mem_append.mp hf with hold | hnew
          · exact h f hold
          · rcases List.mem_map.mp hnew with ⟨i, hi, rfl⟩
            have hir := List.mem_range.mp hi
            have hb := resolved_filterMap_lt st.1.length (wsTokens (readToken line).2)
            refine ⟨hb _ (getD_mem _ _ _ (by omega)), hb _ (getD_mem _ _ _ (by omega)),
              hb _ (getD_mem _ _ _ (by omega))⟩
        · exact h
    · exact h

theorem loadOBJ_foldl_inv (junk : ℕ → Vec3 ℚ) (lines : List (List Char)) :
    ∀ st : List (Vec3 ℚ) × List Face,
      (∀ f ∈ st.2, f.a < st.1.length ∧ f.b < st.1.length ∧ f.c < st.1.length) →
      ∀ f ∈ (lines.foldl (loadOBJLine junk) st).2,
        f.a < (lines.foldl (loadOBJLine junk) st).1.length ∧
          f.b < (lines.foldl (loadOBJLine junk) st).1.length ∧
          f.c < (lines.foldl (loadOBJLine junk) st).1.length := by
  induction lines with
  | nil => intro st h; simpa using h
  | cons l ls ih =>
    intro st h
    rw [List.foldl_cons]
    exact ih _ (loadOBJLine_inv junk st l h)

/-- All stored face indices are below the final vertex count. -/
theorem loadOBJ_faces_bounded (junk : ℕ → Vec3 ℚ) (content : String) :
    ∀ f ∈ (loadOBJ junk content).2,
      f.a < (loadOBJ junk content).1.length ∧ f.b < (loadOBJ junk content).1.length ∧
        f.c < (loadOBJ junk content).1.length := by
  unfold loadOBJ
  exact loadOBJ_foldl_inv junk _ ([], [])
    (by intro f hf; exact absurd hf (List.not_mem_nil f))

theorem sqDist_comm {α : Type} [LinearOrderedField α] (a b : Vec3 α) :
    sqDist a b = sqDist b a := by
  unfold sqDist; ring

/-- C9: after `loadOBJ`, the Euclidean edge graph is symmetric with correct
weights: the multiset of directed occurrences `(u, target, w)` is invariant
under swapping the endpoints (so parallel duplicate entries occur in matched
pairs), and every entry of bucket `u` carries exactly the Euclidean distance
between vertex `u` and its target vertex — for every file contents and every
indeterminate initial contents of the `v`-line stack objects. -/
theorem loadOBJ_graph_symmetric (junk : ℕ → Vec3 ℚ) (content : String) :
    ((edgeOccs (objGraphR junk content)).map (fun p => (p.2.1, p.1, p.2.2)) =
      edgeOccs (objGraphR junk content)) ∧
    ∀ u, ∀ e ∈ (objGraphR junk content).getD u [],
      e.weight = Real.sqrt (sqDist ((objVertsR junk content).getD u default)
        ((objVertsR junk content).getD e.targetVertex default)) := by
  constructor
  · exact edgeOccs_buildGraph_symm _ _ _
  · intro u e he
    have hf : ∀ f ∈ (loadOBJ junk content).2,
        f.a < (objVertsR junk content).length ∧
          f.b < (objVertsR junk content).length ∧
          f.c < (objVertsR junk content).length := by
      intro f hfm
      have h3 := loadOBJ_faces_bounded junk content f hfm
      simpa [objVertsR, List.length_map] using h3
    have hsym : ∀ a b : Vec3 ℝ, Real.sqrt (sqDist a b) = Real.sqrt (sqDist b a) := by
      intro a b; rw [sqDist_comm]
    exact (buildGraph_entries _ _ _ hsym hf u e he).2.2

unseal Rat.add Rat.mul Rat.sub Rat.inv Rat.ofScientific in
theorem objW_verts_eval :
    (loadOBJ junk0 objW).1 = [⟨0, 0, 0⟩, ⟨1, 0, 0⟩, ⟨0, 1, 0⟩] := by
  decide

unseal Rat.add Rat.mul Rat.sub Rat.inv Rat.ofScientific in
theorem objW_faces_eval : (loadOBJ junk0 objW).2 = [⟨0, 1, 2⟩] := by
  decide

theorem objW_vertsR_eval :
    objVertsR junk0 objW = [⟨0, 0, 0⟩, ⟨1, 0, 0⟩, ⟨0, 1, 0⟩] := by
  unfold objVertsR
  rw [objW_verts_eval]
  simp only [List.map]
  norm_num

/-- Witness for `loadOBJ_graph_symmetric`: on a one-triangle OBJ file the
occurrence multiset is swap-invariant, and the recorded weight of the bucket
entry `0 → 1` (which is `1`) equals the Euclidean distance between vertices
`0` and `1`. -/
theorem loadOBJ_graph_symmetric_witness :
    ((edgeOccs (objGraphR junk0 objW)).map (fun p => (p.2.1, p.1, p.2.2)) =
      edgeOccs (objGraphR junk0 objW)) ∧
    (1 : ℝ) = Real.sqrt (sqDist ((objVertsR junk0 objW).getD 0 default)
      ((objVertsR junk0 objW).getD 1 default)) := by
  refine ⟨(loadOBJ_graph_symmetric junk0 objW).1, ?_⟩
  have h1 : Real.sqrt (sqDist ((⟨0, 0, 0⟩ : Vec3 ℝ)) ⟨1, 0, 0⟩) = 1 := by
    rw [show sqDist ((⟨0, 0, 0⟩ : Vec3 ℝ)) ⟨1, 0, 0⟩ = 1 by norm_num [sqDist]]
    exact Real.sqrt_one
  have hbucket : (objGraphR junk0 objW).getD 0 [] =
      [⟨1, Real.sqrt (sqDist ((⟨0, 0, 0⟩ : Vec3 ℝ)) ⟨1, 0, 0⟩)⟩,
       ⟨2, Real.sqrt (sqDist ((⟨0, 1, 0⟩ : Vec3 ℝ)) ⟨0, 0, 0⟩)⟩] := by
    unfold objGraphR
    rw [objW_vertsR_eval, objW_faces_eval]
    rfl
  have hmem : (⟨1, (1 : ℝ)⟩ : Edge ℝ) ∈ (objGraphR junk0 objW).getD 0 [] := by
    rw [hbucket, h1]
    exact List.mem_cons_self _ _
  exact (loadOBJ_graph_symmetric junk0 objW).2 0 ⟨1, (1 : ℝ)⟩ hmem

end MeshGraphClaims

section LengthClaims

theorem chordSum_cons {α : Type} [LinearOrderedField α] (F : Floats α)
    (a b : Vec3 α) (rest : List (Vec3 α)) :
    chordSum F (a :: b :: rest) = vlen F (vsub b a) + chordSum F (b :: rest) := by
  simp [chordSum]

theorem vlen_vmul (v : Vec3 ℝ) (s : ℝ) :
    vlen realFloats (vmul v s) = |s| * vlen realFloats v := by
  simp only [vlen, vmul, vdot]
  rw [show realFloats.sqrt = Real.sqrt from rfl]
  rw [show (v.x * s * (v.x * s) + v.y * s * (v.y * s) + v.z * s * (v.z * s)) =
    s ^ 2 * (v.x * v.x + v.y * v.y + v.z * v.z) from by ring]
  rw [Real.sqrt_mul (sq_nonneg s), Real.sqrt_sq_eq_abs]

theorem lerp_sub {α : Type} [LinearOrderedField α] (p1 p2 : Vec3 α) (t1 t2 : α) :
    vsub (vadd (vmul p1 (1 - t2)) (vmul p2 t2)) (vadd (vmul p1 (1 - t1)) (vmul p2 t1)) =
      vmul (vsub p2 p1) (t2 - t1) := by
  simp only [vsub, vadd, vmul, Vec3.mk.injEq]
  refine ⟨by ring, by ring, by ring⟩

/-- Chord sum of equally-spaced samples: each of the `len − 1` chords has the
same length `d`. -/
theorem chordSum_map_range' (f : ℕ → Vec3 ℝ) (d : ℝ)
    (hstep : ∀ i, vlen realFloats (vsub (f (i + 1)) (f i)) = d) :
    ∀ len start : ℕ,
      chordSum realFloats ((List.range' start len).map f) = ((len - 1 : ℕ) : ℝ) * d := by
  intro len
  induction len with
  | zero => intro start; simp [chordSum]
  | succ m ih =>
    intro start
    cases m with
    | zero => simp [chordSum]
    | succ k =>
      rw [List.range'_succ, List.map_cons, List.range'_succ, List.map_cons, chordSum_cons,
        hstep, ← List.map_cons, ← List.range'_succ, ih (start + 1)]
      push_cast
      ring

/-- The chord sum of the plane curve's emitted points is exactly the segment
length `‖p2 − p1‖` (equality by construction, in normalised space). -/
theorem chordSum_makePlane (p1 p2 : Vec3 ℝ) (samples : ℕ) :
    chordSum realFloats (makePlaneGeodesic realFloats p1 p2 samples).points =
      vlen realFloats (vsub p2 p1) := by
  unfold makePlaneGeodesic
  simp only
  have hn2 : 2 ≤ max 2 samples := le_max_left _ _
  have hnot1 : ¬ max 2 samples = 1 := by omega
  have hcast : (2 : ℝ) ≤ ((max 2 samples : ℕ) : ℝ) := by exact_mod_cast hn2
  have hpos : (0 : ℝ) < ((max 2 samples : ℕ) : ℝ) - 1 := by linarith
  have hne : ((max 2 samples : ℕ) : ℝ) - 1 ≠ 0 := ne_of_gt hpos
  rw [List.range_eq_range']
  rw [chordSum_map_range' _ ((1 / (((max 2 samples : ℕ) : ℝ) - 1)) *
    vlen realFloats (vsub p2 p1)) ?_ (max 2 samples) 0]
  · push_cast [hn2]
    push_cast at hne
    field_simp
  · intro i
    simp only [if_neg hnot1]
    rw [lerp_sub, vlen_vmul]
    rw [show ((i + 1 : ℕ) : ℝ) / (((max 2 samples : ℕ) : ℝ) - 1) -
        ((i : ℕ) : ℝ) / (((max 2 samples : ℕ) : ℝ) - 1) =
        1 / (((max 2 samples : ℕ) : ℝ) - 1) from by
      rw [div_sub_div_same]
      push_cast
      ring_nf]
    rw [abs_of_pos (by positivity)]

/-- The `"plane"` dispatch branch of `computeAnalyticsForModel`, evaluated. -/
theorem analytics_plane_case {α : Type} [LinearOrderedField α] (F : Floats α)
    (name : String) (startId endId : ℕ) (verts : List (Vec3 α)) (faces : List Face)
    (hne : verts.isEmpty = false)
    (hrange : ¬(verts.length ≤ startId ∨ verts.length ≤ endId))
    (hplane : strContains (lowerAscii (basenameOnly name)) "plane" = true) :
    computeAnalyticsForModel F name startId endId verts faces =
      { inputFileName := name, startId := startId, endId := endId,
        surfaceType := "plane",
        curves := [{ makePlaneGeodesic F
            (applyNormalize (computeNormalizeTransform verts) (verts.getD startId default))
            (applyNormalize (computeNormalizeTransform verts) (verts.getD endId default)) 64 with
          length := (makePlaneGeodesic F
            (applyNormalize (computeNormalizeTransform verts) (verts.getD startId default))
            (applyNormalize (computeNormalizeTransform verts) (verts.getD endId default))
              64).length *
            (if (computeNormalizeTransform verts).scale > (1 / 10 ^ 12 : α)
              then 1 / (computeNormalizeTransform verts).scale else 1) }],
        error := "" } := by
  unfold computeAnalyticsForModel
  rw [if_neg (by rw [hne]; exact Bool.false_ne_true), if_neg hrange, if_pos hplane]

/-- C6 (amended): the reported `length` is the normalised-space chord sum
multiplied by `lengthScale` (`1/scale` when `scale > 10⁻¹²`, else `1`):
lengths are converted back to original units while the emitted points stay
normalised.  Shown here for the plane family, where the curve length equals
its chord sum by construction; the spec's inequality
`length ≥ Σ|pᵢ₊₁ − pᵢ|` therefore holds precisely when `lengthScale ≥ 1`
and fails whenever the normalisation scale exceeds `1`. -/
theorem plane_length_scaled_chordSum (name : String) (startId endId : ℕ)
    (verts : List (Vec3 ℝ)) (faces : List Face)
    (hne : verts.isEmpty = false)
    (hrange : ¬(verts.length ≤ startId ∨ verts.length ≤ endId))
    (hplane : strContains (lowerAscii (basenameOnly name)) "plane" = true) :
    ∃ c, (computeAnalyticsForModel realFloats name startId endId verts faces).curves = [c] ∧
      c.length = (if (computeNormalizeTransform verts).scale > (1 / 10 ^ 12 : ℝ)
        then 1 / (computeNormalizeTransform verts).scale else 1) *
        chordSum realFloats c.points := by
  rw [analytics_plane_case realFloats name startId endId verts faces hne hrange hplane]
  refine ⟨_, rfl, ?_⟩
  simp only
  rw [show (makePlaneGeodesic realFloats
      (applyNormalize (computeNormalizeTransform verts) (verts.getD startId default))
      (applyNormalize (computeNormalizeTransform verts) (verts.getD endId default))
        64).length =
    vlen realFloats (vsub
      (applyNormalize (computeNormalizeTransform verts) (verts.getD endId default))
      (applyNormalize (computeNormalizeTransform verts) (verts.getD startId default)))
    from rfl]
  rw [chordSum_makePlane]
  ring

/-- Witness for `plane_length_scaled_chordSum` on the concrete right-triangle
plane mesh. -/
theorem plane_length_scaled_chordSum_witness :
    ∃ c, (computeAnalyticsForModel realFloats "plane.obj" 0 1 planeVerts []).curves = [c] ∧
      c.length = (if (computeNormalizeTransform planeVerts).scale > (1 / 10 ^ 12 : ℝ)
        then 1 / (computeNormalizeTransform planeVerts).scale else 1) *
        chordSum realFloats c.points :=
  plane_length_scaled_chordSum "plane.obj" 0 1 planeVerts []
    (by rfl) (by norm_num [planeVerts]) (by decide)

/-- C6 counterexample: on the right-triangle plane mesh (normalisation scale
`2`), the emitted plane curve has `length = 1` but chord sum `2`: the claimed
invariant `length ≥ Σ|pᵢ₊₁ − pᵢ|` fails. -/
theorem plane_length_below_chords :
    ∃ c, (computeAnalyticsForModel realFloats "plane.obj" 0 1 planeVerts []).curves = [c] ∧
      chordSum realFloats c.points = 2 ∧ c.length = 1 ∧
      c.length < chordSum realFloats c.points := by
  have ht : computeNormalizeTransform planeVerts =
      ⟨⟨1 / 2, 1 / 2, 0⟩, 2⟩ := by
    unfold computeNormalizeTransform planeVerts
    simp only [List.foldl]
    norm_num [min_def, max_def, ObjNormalizeTransform.mk.injEq, Vec3.mk.injEq]
  have hp1 : applyNormalize (⟨⟨1 / 2, 1 / 2, 0⟩, 2⟩ : ObjNormalizeTransform ℝ)
      (planeVerts.getD 0 default) = ⟨-1, -1, 0⟩ := by
    norm_num [applyNormalize, vsub, vmul, planeVerts, Vec3.mk.injEq]
  have hp2 : applyNormalize (⟨⟨1 / 2, 1 / 2, 0⟩, 2⟩ : ObjNormalizeTransform ℝ)
      (planeVerts.getD 1 default) = ⟨1, -1, 0⟩ := by
    norm_num [applyNormalize, vsub, vmul, planeVerts, Vec3.mk.injEq]
  have hlen : vlen realFloats (vsub (⟨1, -1, 0⟩ : Vec3 ℝ) ⟨-1, -1, 0⟩) = 2 := by
    simp only [vlen, vsub, vdot]
    rw [show realFloats.sqrt = Real.sqrt from rfl]
    rw [show ((1 : ℝ) - -1) * (1 - -1) + (-1 - -1) * (-1 - -1) + ((0 : ℝ) - 0) * (0 - 0) =
      2 ^ 2 from by norm_num]
    rw [Real.sqrt_sq (by norm_num)]
  rw [analytics_plane_case realFloats "plane.obj" 0 1 planeVerts []
    (by rfl) (by norm_num [planeVerts]) (by decide), ht, hp1, hp2]
  refine ⟨_, rfl, ?_, ?_, ?_⟩
  · simp only
    rw [chordSum_makePlane, hlen]
  · simp only
    rw [show (makePlaneGeodesic realFloats (⟨-1, -1, 0⟩ : Vec3 ℝ) ⟨1, -1, 0⟩ 64).length =
      vlen realFloats (vsub (⟨1, -1, 0⟩ : Vec3 ℝ) ⟨-1, -1, 0⟩) from rfl, hlen]
    norm_num
  · simp only
    rw [chordSum_makePlane, hlen]
    rw [show (makePlaneGeodesic realFloats (⟨-1, -1, 0⟩ : Vec3 ℝ) ⟨1, -1, 0⟩ 64).length =
      vlen realFloats (vsub (⟨1, -1, 0⟩ : Vec3 ℝ) ⟨-1, -1, 0⟩) from rfl, hlen]
    norm_num

end LengthClaims

section DijkstraClaims

variable {α : Type} [LinearOrderedField α]

theorem pairLe_total (a b : WithTop α × ℕ) : pairLe a b ∨ pairLe b a := by
  unfold pairLe
  rcases lt_trichotomy a.1 b.1 with h | h | h
  · exact Or.inl (Or.inl h)
  · rcases le_total a.2 b.2 with h2 | h2
    · exact Or.inl (Or.inr ⟨h, h2⟩)
    · exact Or.inr (Or.inr ⟨h.symm, h2⟩)
  · exact Or.inr (Or.inl h)

theorem pairLe_trans {a b c : WithTop α × ℕ} (h1 : pairLe a b) (h2 : pairLe b c) :
    pairLe a c := by
  unfold pairLe at h1 h2 ⊢
  rcases h1 with h1 | ⟨h1, h1'⟩ <;> rcases h2 with h2 | ⟨h2, h2'⟩
  · exact Or.inl (h1.trans h2)
  · exact Or.inl (h2 ▸ h1)
  · exact Or.inl (h1 ▸ h2)
  · exact Or.inr ⟨h1.trans h2, h1'.trans h2'⟩

theorem pairLe_key {a b : WithTop α × ℕ} (h : pairLe a b) : a.1 ≤ b.1 := by
  rcases h with h | ⟨h, _⟩
  · exact le_of_lt h
  · exact le_of_eq h

theorem mem_pqInsert {x y : WithTop α × ℕ} :
    ∀ {l : List (WithTop α × ℕ)}, y ∈ pqInsert x l ↔ y = x ∨ y ∈ l := by
  intro l
  induction l with
  | nil => simp [pqInsert]
  | cons z zs ih =>
    simp only [pqInsert]
    split
    · simp [List.mem_cons]
    · rw [List.mem_cons, ih, List.mem_cons]
      tauto

theorem pqInsert_sorted (x : WithTop α × ℕ) :
    ∀ {l : List (WithTop α × ℕ)}, l.Sorted pairLe → (pqInsert x l).Sorted pairLe := by
  intro l
  induction l with
  | nil => intro _; simp [pqInsert, List.Sorted]
  | cons z zs ih =>
    intro hs
    rw [List.sorted_cons] at hs
    simp only [pqInsert]
    split
    · rename_i hxz
      rw [List.sorted_cons]
      refine ⟨?_, by rw [List.sorted_cons]; exact hs⟩
      intro b hb
      rcases List.mem_cons.mp hb with rfl | hb'
      · exact hxz
      · exact pairLe_trans hxz (hs.1 b hb')
    · rename_i hxz
      have hzx : pairLe z x := (pairLe_total x z).resolve_left hxz
      rw [List.sorted_cons]
      refine ⟨?_, ih hs.2⟩
      intro b hb
      rcases mem_pqInsert.mp hb with rfl | hb'
      · exact hzx
      · exact hs.1 b hb'

theorem pqInsert_length (x : WithTop α × ℕ) :
    ∀ l : List (WithTop α × ℕ), (pqInsert x l).length = l.length + 1 := by
  intro l
  induction l with
  | nil => rfl
  | cons z zs ih =>
    simp only [pqInsert]
    split
    · rfl
    · simp [ih]

theorem getD_replicate {β : Type} (x : β) (n v : ℕ) :
    (List.replicate n x).getD v x = x := by
  induction n generalizing v with
  | zero => rfl
  | succ m ih =>
    cases v with
    | zero => rfl
    | succ w => exact ih w

theorem md0_getD (n start v : ℕ) (h : start < n) :
    ((List.replicate n (⊤ : WithTop α)).set start 0).getD v ⊤ =
      if v = start then (0 : WithTop α) else ⊤ := by
  by_cases hv : v = start
  · subst hv
    rw [if_pos rfl]
    exact getD_set_self _ _ _ _ (by rw [List.length_replicate]; exact h)
  · rw [if_neg hv, getD_set_ne _ _ _ (fun hh => hv hh.symm), getD_replicate]

/-- One loop step: `u == target` pops and breaks. -/
theorem dloop_target (g : List (List (Edge α))) (t fuel : ℕ)
    (md : List (WithTop α)) (par : List (Option ℕ)) (d : WithTop α)
    (rest : List (WithTop α × ℕ)) :
    dijkstraLoop g t (fuel + 1) ⟨md, par, (d, t) :: rest⟩ = ⟨md, par, rest⟩ := by
  simp [dijkstraLoop]

/-- One loop step: a stale entry is skipped. -/
theorem dloop_stale (g : List (List (Edge α))) (t fuel : ℕ)
    (md : List (WithTop α)) (par : List (Option ℕ)) (d : WithTop α) (u : ℕ)
    (rest : List (WithTop α × ℕ)) (hne : u ≠ t) (hst : md.getD u ⊤ < d) :
    dijkstraLoop g t (fuel + 1) ⟨md, par, (d, u) :: rest⟩ =
      dijkstraLoop g t fuel ⟨md, par, rest⟩ := by
  simp only [dijkstraLoop]
  rw [if_neg hne, if_pos hst]

/-- One loop step: a fresh entry relaxes all of `u`'s edges. -/
theorem dloop_expand (g : List (List (Edge α))) (t fuel : ℕ)
    (md : List (WithTop α)) (par : List (Option ℕ)) (d : WithTop α) (u : ℕ)
    (rest : List (WithTop α × ℕ)) (hne : u ≠ t) (hst : ¬ md.getD u ⊤ < d) :
    dijkstraLoop g t (fuel + 1) ⟨md, par, (d, u) :: rest⟩ =
      dijkstraLoop g t fuel ((g.getD u []).foldl (relaxOne u) ⟨md, par, rest⟩) := by
  simp only [dijkstraLoop]
  rw [if_neg hne, if_neg hst]

theorem relax_skip (u : ℕ) (st : DState α) (e : Edge α)
    (h : ¬ st.md.getD u ⊤ + (e.weight : WithTop α) < st.md.getD e.targetVertex ⊤) :
    relaxOne u st e = st := by
  simp only [relaxOne]
  rw [if_neg h]

theorem relax_improve (u : ℕ) (st : DState α) (e : Edge α)
    (h : st.md.getD u ⊤ + (e.weight : WithTop α) < st.md.getD e.targetVertex ⊤) :
    relaxOne u st e =
      ⟨st.md.set e.targetVertex (st.md.getD u ⊤ + (e.weight : WithTop α)),
       st.par.set e.targetVertex (some u),
       pqInsert (st.md.getD u ⊤ + (e.weight : WithTop α), e.targetVertex) st.pq⟩ := by
  simp only [relaxOne]
  rw [if_pos h]

theorem foldl_relax_skip (u : ℕ) (st : DState α) :
    ∀ es : List (Edge α),
      (∀ e ∈ es, ¬ st.md.getD u ⊤ + (e.weight : WithTop α) <
        st.md.getD e.targetVertex ⊤) →
      es.foldl (relaxOne u) st = st := by
  intro es
  induction es with
  | nil => intro _; rfl
  | cons e es ih =>
    intro h
    rw [List.foldl_cons, relax_skip u st e (h e (List.mem_cons_self e es))]
    exact ih (fun e' he' => h e' (List.mem_cons_of_mem _ he'))

/-- One relaxation step preserves the fold invariant; it also fixes `md[u]`,
only lowers `md`, relaxes the processed edge, and pushes at most one entry. -/
theorem relax_preserve (g : List (List (Edge α))) (n start u : ℕ)
    (hw : ∀ w, ∀ e ∈ g.getD w [], (0 : α) ≤ e.weight)
    (hrange : ∀ w, ∀ e ∈ g.getD w [], e.targetVertex < n)
    (st : DState α) (done : List ℕ) (e : Edge α) (he : e ∈ g.getD u [])
    (hf : FoldSt g n start u st done) :
    FoldSt g n start u (relaxOne u st e) done ∧
      (relaxOne u st e).md.getD e.targetVertex ⊤ ≤
        (relaxOne u st e).md.getD u ⊤ + (e.weight : WithTop α) ∧
      (relaxOne u st e).md.getD u ⊤ = st.md.getD u ⊤ ∧
      (∀ v, (relaxOne u st e).md.getD v ⊤ ≤ st.md.getD v ⊤) ∧
      (relaxOne u st e).pq.length ≤ st.pq.length + 1 := by
  by_cases hc : st.md.getD u ⊤ + (e.weight : WithTop α) < st.md.getD e.targetVertex ⊤
  case neg =>
    rw [relax_skip u st e hc]
    exact ⟨hf, not_lt.mp hc, rfl, fun v => le_refl _, Nat.le_succ _⟩
  case pos =>
    rw [relax_improve u st e hc]
    set t' := e.targetVertex with ht'
    set cand := st.md.getD u ⊤ + (e.weight : WithTop α) with hcand
    have hwe : (0 : α) ≤ e.weight := hw u e he
    have hwe' : (0 : WithTop α) ≤ (e.weight : WithTop α) := by exact_mod_cast hwe
    have ht'n : t' < n := hrange u e he
    have hle_cand : st.md.getD u ⊤ ≤ cand := le_add_of_nonneg_right hwe'
    have ht'u : t' ≠ u := by
      intro hh
      rw [hh] at hc
      exact absurd (lt_of_le_of_lt hle_cand hc) (lt_irrefl _)
    have ht'done : t' ∉ done := by
      intro hh
      exact absurd (lt_of_le_of_lt (le_trans (hf.doneLe t' hh) hle_cand) hc) (lt_irrefl _)
    have hmd' : ∀ v, (st.md.set t' cand).getD v ⊤ = if v = t' then cand else st.md.getD v ⊤ := by
      intro v
      by_cases hv : v = t'
      · subst hv
        rw [if_pos rfl]
        exact getD_set_self _ _ _ _ (by rw [hf.mdLen]; exact ht'n)
      · rw [if_neg hv, getD_set_ne _ _ _ (fun hh => hv hh.symm)]
    have hpar' : ∀ v, (st.par.set t' (some u)).getD v none =
        if v = t' then some u else st.par.getD v none := by
      intro v
      by_cases hv : v = t'
      · subst hv
        rw [if_pos rfl]
        exact getD_set_self _ _ _ _ (by rw [hf.parLen]; exact ht'n)
      · rw [if_neg hv, getD_set_ne _ _ _ (fun hh => hv hh.symm)]
    have hmdU : (st.md.set t' cand).getD u ⊤ = st.md.getD u ⊤ := by
      rw [hmd' u, if_neg (fun hh => ht'u hh.symm)]
    have hmono : ∀ v, (st.md.set t' cand).getD v ⊤ ≤ st.md.getD v ⊤ := by
      intro v
      rw [hmd' v]
      by_cases hv : v = t'
      · rw [if_pos hv, hv]
        exact le_of_lt hc
      · rw [if_neg hv]
    have hcand_ne : cand ≠ ⊤ := ne_top_of_lt hc
    have hcand_nonneg : (0 : WithTop α) ≤ cand := le_trans (hf.mdNonneg u) hle_cand
    refine ⟨⟨?_, ?_, hf.doneRange, hf.doneNodup, ?_, ?_, ?_, ?_, ?_, ?_, ?_, ?_, ?_, ?_, ?_,
        ?_, ?_, ?_, hf.uDone, ?_⟩, ?_, ?_, ?_, ?_⟩
    · rw [length_set_eq, hf.mdLen]
    · rw [length_set_eq, hf.parLen]
    · intro w hwd
      have hwt' : w ≠ t' := fun hh => ht'done (hh ▸ hwd)
      rw [hmd' w, if_neg hwt']
      exact hf.mdFin w hwd
    · intro v
      rw [hmd' v]
      by_cases hv : v = t'
      · rw [if_pos hv]; exact hcand_nonneg
      · rw [if_neg hv]; exact hf.mdNonneg v
    · rw [hmd' start]
      by_cases hv : start = t'
      · exfalso
        rw [← hv, hf.mdStart] at hc
        exact absurd (lt_of_le_of_lt hcand_nonneg hc) (lt_irrefl _)
      · rw [if_neg hv]; exact hf.mdStart
    · intro v c hvc
      rw [hmd' v] at hvc
      by_cases hv : v = t'
      · rw [if_pos hv] at hvc
        have hune : st.md.getD u ⊤ ≠ ⊤ := hf.mdFin u hf.uDone
        rcases WithTop.ne_top_iff_exists.mp hune with ⟨cu, hcu⟩
        have hsum : ((cu + e.weight : α) : WithTop α) = (c : WithTop α) := by
          rw [WithTop.coe_add, hcu]
          exact hvc
        have hcc : cu + e.weight = c := by exact_mod_cast hsum
        have hr := (hf.reach u cu hcu.symm).step e he
        rw [← ht'] at hr
        rw [hv, ← hcc]
        exact hr
      · rw [if_neg hv] at hvc
        exact hf.reach v c hvc
    · intro v w hvw
      rw [hpar' v] at hvw
      by_cases hv : v = t'
      · rw [if_pos hv] at hvw
        have hwu : w = u := by
          have := Option.some.inj hvw
          omega
        subst hwu
        refine ⟨hf.uDone, e, he, hv.symm, ?_⟩
        rw [hmd' v, if_pos hv, hmdU]
      · rw [if_neg hv] at hvw
        obtain ⟨hwdone, e', he', het', heq⟩ := hf.parProp v w hvw
        refine ⟨hwdone, e', he', het', ?_⟩
        have hwt' : w ≠ t' := fun hh => ht'done (hh ▸ hwdone)
        rw [hmd' v, if_neg hv, hmd' w, if_neg hwt']
        exact heq
    · intro v w hvw hvdone
      rw [hpar' v] at hvw
      by_cases hv : v = t'
      · exact absurd (hv ▸ hvdone) ht'done
      · rw [if_neg hv] at hvw
        exact hf.parDone v w hvw hvdone
    · intro v hfin
      rw [hmd' v] at hfin
      by_cases hv : v = t'
      · right
        rw [hpar' v, if_pos hv]
        exact Option.some_ne_none u
      · rw [if_neg hv] at hfin
        rcases hf.parStart v hfin with h | h
        · exact Or.inl h
        · right
          rw [hpar' v, if_neg hv]
          exact h
    · intro w hwd hwu e' he'
      have hwt' : w ≠ t' := fun hh => ht'done (hh ▸ hwd)
      rw [hmd' w, if_neg hwt']
      exact le_trans (hmono e'.targetVertex) (hf.edgeOthers w hwd hwu e' he')
    · exact pqInsert_sorted _ hf.sorted
    · intro p hp
      rcases mem_pqInsert.mp hp with rfl | hp'
      · rw [hmd' t', if_pos rfl]
      · exact le_trans (hmono p.2) (hf.keyLe p hp')
    · intro p hp
      rcases mem_pqInsert.mp hp with rfl | hp'
      · exact hcand_ne
      · exact hf.keyTop p hp'
    · intro p hp
      rcases mem_pqInsert.mp hp with rfl | hp'
      · exact ht'n
      · exact hf.keyRange p hp'
    · intro w hwd p hp
      have hwt' : w ≠ t' := fun hh => ht'done (hh ▸ hwd)
      rw [hmd' w, if_neg hwt']
      rcases mem_pqInsert.mp hp with rfl | hp'
      · exact le_trans (hf.doneLe w hwd) hle_cand
      · exact hf.frozen w hwd p hp'
    · intro v hvd hfin
      by_cases hv : v = t'
      · rw [hmd' v, if_pos hv, hv]
        exact mem_pqInsert.mpr (Or.inl rfl)
      · rw [hmd' v, if_neg hv] at hfin ⊢
        exact mem_pqInsert.mpr (Or.inr (hf.inQueue v hvd hfin))
    · intro w hwd
      have hwt' : w ≠ t' := fun hh => ht'done (hh ▸ hwd)
      rw [hmd' w, if_neg hwt', hmdU]
      exact hf.doneLe w hwd
    · rw [hmd' t', if_pos rfl, hmdU]
    · exact hmdU
    · exact hmono
    · rw [pqInsert_length]

/-- The whole relaxation loop over a sublist of `graph[u]` preserves the fold
invariant, relaxes every processed edge, fixes `md[u]`, only lowers `md`,
and pushes at most one entry per edge. -/
theorem fold_preserve (g : List (List (Edge α))) (n start u : ℕ)
    (hw : ∀ w, ∀ e ∈ g.getD w [], (0 : α) ≤ e.weight)
    (hrange : ∀ w, ∀ e ∈ g.getD w [], e.targetVertex < n) :
    ∀ (es : List (Edge α)) (st : DState α) (done : List ℕ),
      (∀ e ∈ es, e ∈ g.getD u []) →
      FoldSt g n start u st done →
      FoldSt g n start u (es.foldl (relaxOne u) st) done ∧
        (∀ e ∈ es, (es.foldl (relaxOne u) st).md.getD e.targetVertex ⊤ ≤
          (es.foldl (relaxOne u) st).md.getD u ⊤ + (e.weight : WithTop α)) ∧
        (es.foldl (relaxOne u) st).md.getD u ⊤ = st.md.getD u ⊤ ∧
        (∀ v, (es.foldl (relaxOne u) st).md.getD v ⊤ ≤ st.md.getD v ⊤) ∧
        (es.foldl (relaxOne u) st).pq.length ≤ st.pq.length + es.length := by
  intro es
  induction es with
  | nil =>
    intro st done _ hf
    exact ⟨hf, fun e he => absurd he (List.not_mem_nil e), rfl, fun v => le_refl _,
      by simp⟩
  | cons e es ih =>
    intro st done hes hf
    have hestep := relax_preserve g n start u hw hrange st done e
      (hes e (List.mem_cons_self e es)) hf
    obtain ⟨hf1, hrel1, hU1, hmono1, hlen1⟩ := hestep
    rw [List.foldl_cons]
    obtain ⟨hf2, hrel2, hU2, hmono2, hlen2⟩ :=
      ih (relaxOne u st e) done (fun e' he' => hes e' (List.mem_cons_of_mem _ he')) hf1
    refine ⟨hf2, ?_, by rw [hU2, hU1], fun v => le_trans (hmono2 v) (hmono1 v), ?_⟩
    · intro e' he'
      rcases List.mem_cons.mp he' with rfl | he''
      · exact le_trans (hmono2 e'.targetVertex) (by rw [hU2]; exact hrel1)
      · exact hrel2 e' he''
    · calc (es.foldl (relaxOne u) (relaxOne u st e)).pq.length
          ≤ (relaxOne u st e).pq.length + es.length := hlen2
        _ ≤ st.pq.length + 1 + es.length := by omega
        _ = st.pq.length + (e :: es).length := by simp [List.length_cons]; omega

theorem dloop_empty (g : List (List (Edge α))) (t fuel : ℕ)
    (md : List (WithTop α)) (par : List (Option ℕ)) :
    dijkstraLoop g t (fuel + 1) ⟨md, par, []⟩ = ⟨md, par, []⟩ := by
  simp [dijkstraLoop]

/-- The pq-free clauses do not depend on the queue. -/
theorem core_pq_irrel (g : List (List (Edge α))) (n start : ℕ)
    (md : List (WithTop α)) (par : List (Option ℕ))
    (pq pq' : List (WithTop α × ℕ)) (done : List ℕ)
    (h : DInvCore g n start ⟨md, par, pq⟩ done) :
    DInvCore g n start ⟨md, par, pq'⟩ done :=
  { mdLen := h.mdLen, parLen := h.parLen, doneRange := h.doneRange,
    doneNodup := h.doneNodup, edgeRelaxed := h.edgeRelaxed, mdFin := h.mdFin,
    mdNonneg := h.mdNonneg, mdStart := h.mdStart, reach := h.reach,
    parProp := h.parProp, parDone := h.parDone, parStart := h.parStart }

/-- Dropping the popped head entry keeps the invariant when the pop is stale
or the popped vertex is already expanded. -/
theorem DInv_tail (g : List (List (Edge α))) (n start : ℕ)
    (md : List (WithTop α)) (par : List (Option ℕ)) (d : WithTop α) (u : ℕ)
    (rest : List (WithTop α × ℕ)) (done : List ℕ)
    (hinv : DInv g n start ⟨md, par, (d, u) :: rest⟩ done)
    (hcond : md.getD u ⊤ < d ∨ u ∈ done) :
    DInv g n start ⟨md, par, rest⟩ done := by
  refine ⟨core_pq_irrel g n start md par _ _ done hinv.toDInvCore, ?_, ?_, ?_, ?_, ?_, ?_⟩
  · exact (List.sorted_cons.mp hinv.sorted).2
  · exact fun p hp => hinv.keyLe p (List.mem_cons_of_mem _ hp)
  · exact fun p hp => hinv.keyTop p (List.mem_cons_of_mem _ hp)
  · exact fun p hp => hinv.keyRange p (List.mem_cons_of_mem _ hp)
  · exact fun w hw p hp => hinv.frozen w hw p (List.mem_cons_of_mem _ hp)
  · intro v hvd hfin
    have hmem := hinv.inQueue v hvd hfin
    rcases List.mem_cons.mp hmem with heq | hmem'
    · exfalso
      have hv : v = u := congrArg Prod.snd heq
      have hk : md.getD v ⊤ = d := congrArg Prod.fst heq
      rcases hcond with hst | hdone
      · rw [hv] at hk
        rw [hk] at hst
        exact absurd hst (lt_irrefl d)
      · exact hvd (hv ▸ hdone)
    · exact hmem'

theorem indexOf_append_mem {a : ℕ} : ∀ {l1 : List ℕ} (l2 : List ℕ), a ∈ l1 →
    (l1 ++ l2).indexOf a = l1.indexOf a := by
  intro l1
  induction l1 with
  | nil => intro l2 h; exact absurd h (List.not_mem_nil a)
  | cons b bs ih =>
    intro l2 h
    by_cases hb : b = a
    · subst hb
      simp [List.indexOf_cons_self]
    · rcases List.mem_cons.mp h with rfl | h'
      · exact absurd rfl hb
      · rw [List.cons_append, List.indexOf_cons_ne _ (by simpa using hb),
          List.indexOf_cons_ne _ (by simpa using hb), ih l2 h']

theorem indexOf_append_self {a : ℕ} : ∀ {l1 : List ℕ}, a ∉ l1 →
    (l1 ++ [a]).indexOf a = l1.length := by
  intro l1
  induction l1 with
  | nil => intro _; simp [List.indexOf_cons_self]
  | cons b bs ih =>
    intro h
    have hb : b ≠ a := fun hh => h (hh ▸ List.mem_cons_self b bs)
    rw [List.cons_append, List.indexOf_cons_ne _ (by simpa using hb), List.length_cons,
      ih (fun hh => h (List.mem_cons_of_mem b hh))]

/-- Entering the relaxation loop after a fresh pop of `u`. -/
theorem foldSt_entry (g : List (List (Edge α))) (n start : ℕ)
    (md : List (WithTop α)) (par : List (Option ℕ)) (d : WithTop α) (u : ℕ)
    (rest : List (WithTop α × ℕ)) (done : List ℕ)
    (hinv : DInv g n start ⟨md, par, (d, u) :: rest⟩ done)
    (hud : u ∉ done) (hstale : ¬ md.getD u ⊤ < d) :
    FoldSt g n start u ⟨md, par, rest⟩ (done ++ [u]) := by
  have hhead : ((d, u) : WithTop α × ℕ) ∈ (d, u) :: rest := List.mem_cons_self _ _
  have hmd_eq : md.getD u ⊤ = d := le_antisymm (hinv.keyLe (d, u) hhead) (not_lt.mp hstale)
  have hun : u < n := hinv.keyRange (d, u) hhead
  have hsorted := List.sorted_cons.mp hinv.sorted
  refine ⟨hinv.mdLen, hinv.parLen, ?_, ?_, ?_, hinv.mdNonneg, hinv.mdStart, hinv.reach,
    ?_, ?_, ?_, ?_, hsorted.2, ?_, ?_, ?_, ?_, ?_, ?_, ?_⟩
  · intro w hw
    rcases List.mem_append.mp hw with hw' | hw'
    · exact hinv.doneRange w hw'
    · rw [List.mem_singleton.mp hw']
      exact hun
  · rw [List.nodup_append]
    exact ⟨hinv.doneNodup, List.nodup_singleton u,
      fun x hx hx' => hud ((List.mem_singleton.mp hx') ▸ hx)⟩
  · intro w hw
    rcases List.mem_append.mp hw with hw' | hw'
    · exact hinv.mdFin w hw'
    · rw [List.mem_singleton.mp hw', hmd_eq]
      exact hinv.keyTop (d, u) hhead
  · intro v w hvw
    obtain ⟨hwdone, hrest⟩ := hinv.parProp v w hvw
    exact ⟨List.mem_append_left _ hwdone, hrest⟩
  · intro v w hvw hvdone
    rcases List.mem_append.mp hvdone with hv' | hv'
    · have hwdone := (hinv.parProp v w hvw).1
      rw [indexOf_append_mem _ hwdone, indexOf_append_mem _ hv']
      exact hinv.parDone v w hvw hv'
    · have hvu : v = u := List.mem_singleton.mp hv'
      subst hvu
      have hwdone := (hinv.parProp v w hvw).1
      rw [indexOf_append_mem _ hwdone, indexOf_append_self hud]
      exact lt_of_lt_of_le (List.indexOf_lt_length.mpr hwdone) (le_refl _)
  · exact hinv.parStart
  · intro w hw hwu e he
    rcases List.mem_append.mp hw with hw' | hw'
    · exact hinv.edgeRelaxed w hw' e he
    · exact absurd (List.mem_singleton.mp hw') hwu
  · exact fun p hp => hinv.keyLe p (List.mem_cons_of_mem _ hp)
  · exact fun p hp => hinv.keyTop p (List.mem_cons_of_mem _ hp)
  · exact fun p hp => hinv.keyRange p (List.mem_cons_of_mem _ hp)
  · intro w hw p hp
    rcases List.mem_append.mp hw with hw' | hw'
    · exact hinv.frozen w hw' p (List.mem_cons_of_mem _ hp)
    · rw [List.mem_singleton.mp hw', hmd_eq]
      exact pairLe_key (hsorted.1 p hp)
  · intro v hv hfin
    have hv1 : v ∉ done := fun hh => hv (List.mem_append_left _ hh)
    have hv2 : v ≠ u := fun hh => hv (List.mem_append_right _ (hh ▸ List.mem_singleton_self u))
    have hmem := hinv.inQueue v hv1 hfin
    rcases List.mem_cons.mp hmem with heq | hmem'
    · exact absurd (congrArg Prod.snd heq) hv2
    · exact hmem'
  · exact List.mem_append_right _ (List.mem_singleton_self u)
  · intro w hw
    rcases List.mem_append.mp hw with hw' | hw'
    · rw [hmd_eq]
      exact hinv.frozen w hw' (d, u) hhead
    · rw [List.mem_singleton.mp hw']

/-- Leaving the relaxation loop: the full invariant holds for `done ++ [u]`
once every edge of `u`'s bucket is relaxed. -/
theorem foldSt_exit (g : List (List (Edge α))) (n start u : ℕ)
    (st : DState α) (done : List ℕ)
    (hf : FoldSt g n start u st done)
    (hall : ∀ e ∈ g.getD u [], st.md.getD e.targetVertex ⊤ ≤
      st.md.getD u ⊤ + (e.weight : WithTop α)) :
    DInv g n start st done := by
  refine ⟨⟨hf.mdLen, hf.parLen, hf.doneRange, hf.doneNodup, ?_, hf.mdFin, hf.mdNonneg,
    hf.mdStart, hf.reach, hf.parProp, hf.parDone, hf.parStart⟩,
    hf.sorted, hf.keyLe, hf.keyTop, hf.keyRange, hf.frozen, hf.inQueue⟩
  intro w hw e he
  by_cases hwu : w = u
  · subst hwu
    exact hall e he
  · exact hf.edgeOthers w hw hwu e he

/-- Expanding a fresh vertex removes its contribution from the unexpanded
sum. -/
theorem measure_sum_split (g : List (List (Edge α))) (n u : ℕ) (done : List ℕ)
    (hun : u < n) (hud : u ∉ done) :
    ((Finset.range n).filter (fun x => x ∉ done)).sum
        (fun x => (g.getD x []).length + 1) =
      ((g.getD u []).length + 1) +
        ((Finset.range n).filter (fun x => x ∉ done ++ [u])).sum
          (fun x => (g.getD x []).length + 1) := by
  have hu : u ∈ (Finset.range n).filter (fun x => x ∉ done) := by
    simp [Finset.mem_filter, Finset.mem_range, hun, hud]
  have herase : ((Finset.range n).filter (fun x => x ∉ done)).erase u =
      (Finset.range n).filter (fun x => x ∉ done ++ [u]) := by
    ext x
    simp only [Finset.mem_erase, Finset.mem_filter, Finset.mem_range, List.mem_append,
      List.mem_singleton]
    tauto
  rw [← Finset.add_sum_erase _ _ hu, herase]

/-- Master lemma: with enough fuel, the loop reaches one of its exits and
the core invariant plus the relaxedness disjunction hold at the result. -/
theorem dloop_exit (g : List (List (Edge α))) (n start target : ℕ)
    (hw : ∀ w, ∀ e ∈ g.getD w [], (0 : α) ≤ e.weight)
    (hrange : ∀ w, ∀ e ∈ g.getD w [], e.targetVertex < n) :
    ∀ (fuel : ℕ) (st : DState α) (done : List ℕ),
      DInv g n start st done →
      dMeasure g n st done < fuel →
      ∃ done', DInvCore g n start (dijkstraLoop g target fuel st) done' ∧
        EdgeDisj g target (dijkstraLoop g target fuel st) := by
  intro fuel
  induction fuel with
  | zero => intro st done _ hm; exact absurd hm (Nat.not_lt_zero _)
  | succ f ih =>
    intro st done hinv hm
    obtain ⟨md, par, pq⟩ := st
    cases pq with
    | nil =>
      rw [dloop_empty]
      refine ⟨done, hinv.toDInvCore, ?_⟩
      intro w e he
      by_cases hwdone : w ∈ done
      · exact Or.inl (hinv.edgeRelaxed w hwdone e he)
      · by_cases hfin : md.getD w ⊤ = ⊤
        · left
          show (⟨md, par, ([] : List (WithTop α × ℕ))⟩ : DState α).md.getD e.targetVertex ⊤ ≤ _
          simp only
          rw [hfin, WithTop.top_add]
          exact le_top
        · exact absurd (hinv.inQueue w hwdone hfin) (List.not_mem_nil _)
    | cons p rest =>
      obtain ⟨d, u⟩ := p
      by_cases hu : u = target
      · subst hu
        rw [dloop_target]
        refine ⟨done, core_pq_irrel g n start md par _ _ done hinv.toDInvCore, ?_⟩
        intro w e he
        by_cases hwdone : w ∈ done
        · exact Or.inl (hinv.edgeRelaxed w hwdone e he)
        · by_cases hfin : md.getD w ⊤ = ⊤
          · left
            show md.getD e.targetVertex ⊤ ≤ md.getD w ⊤ + (e.weight : WithTop α)
            rw [hfin, WithTop.top_add]
            exact le_top
          · right
            show md.getD u ⊤ ≤ md.getD w ⊤ + (e.weight : WithTop α)
            have hwnonneg : (0 : WithTop α) ≤ (e.weight : WithTop α) := by
              exact_mod_cast hw w e he
            have hself : md.getD w ⊤ ≤ md.getD w ⊤ + (e.weight : WithTop α) :=
              le_add_of_nonneg_right hwnonneg
            have hmem := hinv.inQueue w hwdone hfin
            rcases List.mem_cons.mp hmem with heq | hmem'
            · have hwu : w = u := congrArg Prod.snd heq
              rw [← hwu]
              exact hself
            · have h1 : d ≤ md.getD w ⊤ :=
                pairLe_key ((List.sorted_cons.mp hinv.sorted).1 _ hmem')
              have h2 : md.getD u ⊤ ≤ d :=
                hinv.keyLe (d, u) (List.mem_cons_self _ _)
              exact le_trans (le_trans h2 h1) hself
      · by_cases hstale : md.getD u ⊤ < d
        · rw [dloop_stale g target f md par d u rest hu hstale]
          refine ih ⟨md, par, rest⟩ done
            (DInv_tail g n start md par d u rest done hinv (Or.inl hstale)) ?_
          have : dMeasure g n (⟨md, par, rest⟩ : DState α) done <
              dMeasure g n (⟨md, par, (d, u) :: rest⟩ : DState α) done := by
            simp [dMeasure]
          omega
        · by_cases hud : u ∈ done
          · rw [dloop_expand g target f md par d u rest hu hstale,
              foldl_relax_skip u _ _ ?_]
            · refine ih ⟨md, par, rest⟩ done
                (DInv_tail g n start md par d u rest done hinv (Or.inr hud)) ?_
              have : dMeasure g n (⟨md, par, rest⟩ : DState α) done <
                  dMeasure g n (⟨md, par, (d, u) :: rest⟩ : DState α) done := by
                simp [dMeasure]
              omega
            · intro e he
              exact not_lt.mpr (hinv.edgeRelaxed u hud e he)
          · rw [dloop_expand g target f md par d u rest hu hstale]
            have hentry := foldSt_entry g n start md par d u rest done hinv hud hstale
            have hun : u < n := hinv.keyRange (d, u) (List.mem_cons_self _ _)
            obtain ⟨hfold, hall, hU, hmono, hlen⟩ :=
              fold_preserve g n start u hw hrange (g.getD u []) ⟨md, par, rest⟩
                (done ++ [u]) (fun e he => he) hentry
            refine ih _ (done ++ [u]) (foldSt_exit g n start u _ _ hfold hall) ?_
            have hsum := measure_sum_split g n u done hun hud
            have hm1 : dMeasure g n (⟨md, par, (d, u) :: rest⟩ : DState α) done =
                rest.length + 1 +
                  (((g.getD u []).length + 1) +
                    ((Finset.range n).filter (fun x => x ∉ done ++ [u])).sum
                      (fun x => (g.getD x []).length + 1)) := by
              rw [dMeasure, ← hsum]
              simp
            have hm2 : dMeasure g n ((g.getD u []).foldl (relaxOne u)
                (⟨md, par, rest⟩ : DState α)) (done ++ [u]) ≤
                rest.length + (g.getD u []).length +
                  ((Finset.range n).filter (fun x => x ∉ done ++ [u])).sum
                    (fun x => (g.getD x []).length + 1) := by
              rw [dMeasure]
              have : ((g.getD u []).foldl (relaxOne u)
                  (⟨md, par, rest⟩ : DState α)).pq.length ≤
                  rest.length + (g.getD u []).length := hlen
              omega
            omega

/-- The invariant holds at loop entry. -/
theorem DInv_init (g : List (List (Edge α))) (n start : ℕ) (hstart : start < n) :
    DInv g n start
      ⟨(List.replicate n (⊤ : WithTop α)).set start 0, List.replicate n none,
        [((0 : WithTop α), start)]⟩ [] := by
  have hmd := md0_getD (α := α) n start
  refine ⟨⟨?_, ?_, ?_, List.nodup_nil, ?_, ?_, ?_, ?_, ?_, ?_, ?_, ?_⟩,
    ?_, ?_, ?_, ?_, ?_, ?_⟩
  · rw [length_set_eq, List.length_replicate]
  · rw [List.length_replicate]
  · intro u hu; exact absurd hu (List.not_mem_nil u)
  · intro u hu; exact absurd hu (List.not_mem_nil u)
  · intro u hu; exact absurd hu (List.not_mem_nil u)
  · intro v
    rw [hmd v hstart]
    by_cases hv : v = start
    · rw [if_pos hv]
    · rw [if_neg hv]; exact le_top
  · rw [hmd start hstart, if_pos rfl]
  · intro v c hvc
    rw [hmd v hstart] at hvc
    by_cases hv : v = start
    · rw [if_pos hv] at hvc
      have hc : c = 0 := by exact_mod_cast hvc.symm
      rw [hv, hc]
      exact ReachesW.refl
    · rw [if_neg hv] at hvc
      exact absurd hvc.symm (WithTop.coe_ne_top)
  · intro v u hvu
    rw [getD_replicate] at hvu
    exact absurd hvu (Option.noConfusion)
  · intro v u hvu
    rw [getD_replicate] at hvu
    exact absurd hvu (Option.noConfusion)
  · intro v hv
    rw [hmd v hstart] at hv
    by_cases hvs : v = start
    · exact Or.inl hvs
    · rw [if_neg hvs] at hv
      exact absurd rfl hv
  · simp [List.Sorted]
  · intro p hp
    rw [List.mem_singleton.mp hp, hmd start hstart, if_pos rfl]
  · intro p hp
    rw [List.mem_singleton.mp hp]
    simp
  · intro p hp
    rw [List.mem_singleton.mp hp]
    exact hstart
  · intro u hu; exact absurd hu (List.not_mem_nil u)
  · intro v _ hfin
    rw [hmd v hstart] at hfin ⊢
    by_cases hv : v = start
    · rw [if_pos hv, hv]
      exact List.mem_singleton_self _
    · rw [if_neg hv] at hfin
      exact absurd rfl hfin

theorem totalEntries_cons (b : List (Edge α)) (bs : List (List (Edge α))) :
    totalEntries (b :: bs) = b.length + totalEntries bs := by
  simp [totalEntries]

theorem sum_deg_le (g : List (List (Edge α))) :
    ∀ n : ℕ, (Finset.range n).sum (fun x => (g.getD x []).length) ≤ totalEntries g := by
  induction g with
  | nil =>
    intro n
    have : ∀ x, (([] : List (List (Edge α))).getD x []).length = 0 := by
      intro x; cases x <;> rfl
    simp [this, totalEntries]
  | cons b bs ih =>
    intro n
    cases n with
    | zero => simp
    | succ m =>
      rw [Finset.sum_range_succ', totalEntries_cons]
      have h1 : ∀ x : ℕ, (((b :: bs).getD (x + 1) []).length) = ((bs.getD x []).length) := by
        intro x; rfl
      have h2 : (((b :: bs).getD 0 []).length) = b.length := rfl
      simp only [h1, h2]
      have := ih m
      omega

theorem measure_init (g : List (List (Edge α))) (n start : ℕ) :
    dMeasure g n
      ⟨(List.replicate n (⊤ : WithTop α)).set start 0, List.replicate n none,
        [((0 : WithTop α), start)]⟩ [] < n + totalEntries g + 2 := by
  rw [dMeasure]
  have h1 : ((Finset.range n).filter (fun u => u ∉ ([] : List ℕ))) = Finset.range n := by
    ext x; simp
  rw [h1]
  have h2 : (Finset.range n).sum (fun u => (g.getD u []).length + 1) =
      (Finset.range n).sum (fun u => (g.getD u []).length) + n := by
    rw [Finset.sum_add_distrib]
    simp
  rw [h2]
  have := sum_deg_le g n
  simp only [List.length_cons, List.length_nil]
  omega

/-- C2 (amended): `allDistances[start] = 0` holds, and the edge inequality
holds up to early termination: for every edge `(u, v)` of the graph, either
`allDistances[v] ≤ allDistances[u] + w(u,v)`, or
`allDistances[target] ≤ allDistances[u] + w(u,v)` (edges out of vertices the
early `break` left unexpanded can only violate the inequality above the
target's own distance; unreachable vertices carry the infinity sentinel,
which satisfies the inequality trivially). -/
theorem solve_start_zero_and_edges (g : List (List (Edge α))) (n start target : ℕ)
    (hw : ∀ w, ∀ e ∈ g.getD w [], (0 : α) ≤ e.weight)
    (hrange : ∀ w, ∀ e ∈ g.getD w [], e.targetVertex < n)
    (hstart : start < n) :
    (solve g n start target).allDistances.getD start ⊤ = 0 ∧
    ∀ u, ∀ e ∈ g.getD u [],
      (solve g n start target).allDistances.getD e.targetVertex ⊤ ≤
          (solve g n start target).allDistances.getD u ⊤ + (e.weight : WithTop α) ∨
        (solve g n start target).allDistances.getD target ⊤ ≤
          (solve g n start target).allDistances.getD u ⊤ + (e.weight : WithTop α) := by
  obtain ⟨done', hcore, hdisj⟩ := dloop_exit g n start target hw hrange
    (n + totalEntries g + 2) _ [] (DInv_init g n start hstart) (measure_init g n start)
  exact ⟨hcore.mdStart, hdisj⟩

unseal Rat.add Rat.mul Rat.sub Rat.inv Rat.ofScientific in
/-- Witness for `solve_start_zero_and_edges` on a two-vertex graph over `ℚ`. -/
theorem solve_start_zero_and_edges_witness :
    ((solve [[(⟨1, (1 : ℚ)⟩ : Edge ℚ)], [⟨0, 1⟩]] 2 0 1).allDistances.getD 0 ⊤ = 0) ∧
    ((solve [[(⟨1, (1 : ℚ)⟩ : Edge ℚ)], [⟨0, 1⟩]] 2 0 1).allDistances.getD 1 ⊤ ≤
        (solve [[(⟨1, (1 : ℚ)⟩ : Edge ℚ)], [⟨0, 1⟩]] 2 0 1).allDistances.getD 0 ⊤ +
          ((1 : ℚ) : WithTop ℚ) ∨
      (solve [[(⟨1, (1 : ℚ)⟩ : Edge ℚ)], [⟨0, 1⟩]] 2 0 1).allDistances.getD 1 ⊤ ≤
        (solve [[(⟨1, (1 : ℚ)⟩ : Edge ℚ)], [⟨0, 1⟩]] 2 0 1).allDistances.getD 0 ⊤ +
          ((1 : ℚ) : WithTop ℚ)) := by
  have hw : ∀ w, ∀ e ∈ ([[(⟨1, (1 : ℚ)⟩ : Edge ℚ)], [⟨0, 1⟩]] : List (List (Edge ℚ))).getD w [],
      (0 : ℚ) ≤ e.weight := by
    intro w e he
    rcases w with _ | _ | w
    · rw [List.mem_singleton.mp he]; norm_num
    · rw [List.mem_singleton.mp he]; norm_num
    · exact absurd he (List.not_mem_nil e)
  have hr : ∀ w, ∀ e ∈ ([[(⟨1, (1 : ℚ)⟩ : Edge ℚ)], [⟨0, 1⟩]] : List (List (Edge ℚ))).getD w [],
      e.targetVertex < 2 := by
    intro w e he
    rcases w with _ | _ | w
    · rw [List.mem_singleton.mp he]; norm_num
    · rw [List.mem_singleton.mp he]; norm_num
    · exact absurd he (List.not_mem_nil e)
  have h := solve_start_zero_and_edges [[(⟨1, (1 : ℚ)⟩ : Edge ℚ)], [⟨0, 1⟩]] 2 0 1 hw hr
    (by decide)
  exact ⟨h.1, h.2 0 ⟨1, 1⟩ (by decide)⟩

theorem nodup_bounded_length_le (done : List ℕ) (n : ℕ) (hnd : done.Nodup)
    (hlt : ∀ x ∈ done, x < n) : done.length ≤ n := by
  have hsub : done.toFinset ⊆ Finset.range n := by
    intro x hx
    rw [Finset.mem_range]
    exact hlt x (List.mem_toFinset.mp hx)
  have := Finset.card_le_card hsub
  rw [List.toFinset_card_of_nodup hnd] at this
  simpa using this

/-- `pathWeight` over a list extended by one extra final vertex adds the
length of the final chord. -/
theorem pathWeight_append_one (distFn : Vec3 α → Vec3 α → α) (verts : List (Vec3 α))
    (l : List ℕ) (a b : ℕ) :
    pathWeight distFn verts (l ++ [a, b]) =
      pathWeight distFn verts (l ++ [a]) +
        distFn (verts.getD a default) (verts.getD b default) := by
  induction l with
  | nil => simp [pathWeight]
  | cons x l ih =>
    cases l with
    | nil => simp [pathWeight]
    | cons y l2 =>
      have h1 : pathWeight distFn verts ((x :: y :: l2) ++ [a, b]) =
          distFn (verts.getD x default) (verts.getD y default) +
            pathWeight distFn verts ((y :: l2) ++ [a, b]) := rfl
      have h2 : pathWeight distFn verts ((x :: y :: l2) ++ [a]) =
          distFn (verts.getD x default) (verts.getD y default) +
            pathWeight distFn verts ((y :: l2) ++ [a]) := rfl
      rw [h1, h2, ih, add_assoc]

/-- With a symmetric chord function, `pathWeight` is reversal-invariant. -/
theorem pathWeight_reverse (distFn : Vec3 α → Vec3 α → α) (verts : List (Vec3 α))
    (hsym : ∀ a b : Vec3 α, distFn a b = distFn b a) :
    ∀ (l : List ℕ) (x : ℕ),
      pathWeight distFn verts (x :: l).reverse = pathWeight distFn verts (x :: l) := by
  intro l
  induction l with
  | nil => intro x; rfl
  | cons y l ih =>
    intro x
    have h1 : (x :: y :: l).reverse = l.reverse ++ [y, x] := by simp
    have h2 : (y :: l).reverse = l.reverse ++ [y] := by simp
    rw [h1, pathWeight_append_one, ← h2, ih y,
      hsym (verts.getD y default) (verts.getD x default), add_comm]
    rfl

/-- Following the parent chain from an expanded vertex appends the chain,
ends at `start`, and the chain's `pathWeight` under the graph's edge-weight
function is exactly the vertex's recorded distance. -/
theorem buildPath_chain_weight (g : List (List (Edge α))) (n start : ℕ)
    (distFn : Vec3 α → Vec3 α → α) (verts : List (Vec3 α))
    (st : DState α) (done : List ℕ) (hcore : DInvCore g n start st done)
    (hwt : ∀ u, ∀ e ∈ g.getD u [], e.weight =
      distFn (verts.getD u default) (verts.getD e.targetVertex default))
    (hsym : ∀ a b : Vec3 α, distFn a b = distFn b a) :
    ∀ (k v : ℕ) (acc : List ℕ), v ∈ done → done.indexOf v ≤ k →
      ∃ tl, buildPathAux st.par (k + 1) v acc = acc ++ v :: tl ∧
        (v :: tl).getLast? = some start ∧
        ∀ c : α, st.md.getD v ⊤ = (c : WithTop α) →
          pathWeight distFn verts (v :: tl) = c := by
  intro k
  induction k with
  | zero =>
    intro v acc hv hidx
    cases hpv : st.par.getD v none with
    | none =>
      have hvs : v = start := by
        rcases hcore.parStart v (hcore.mdFin v hv) with h | h
        · exact h
        · exact absurd hpv h
      refine ⟨[], by simp only [buildPathAux, hpv], by simp [hvs], ?_⟩
      intro c hcv
      have h0 : ((0 : α) : WithTop α) = (c : WithTop α) := by
        rw [← hcv, hvs, hcore.mdStart]
        exact_mod_cast rfl
      have hc0 : (0 : α) = c := by exact_mod_cast h0
      rw [← hc0]
      rfl
    | some w =>
      exfalso
      have := hcore.parDone v w hpv hv
      omega
  | succ m ih =>
    intro v acc hv hidx
    cases hpv : st.par.getD v none with
    | none =>
      have hvs : v = start := by
        rcases hcore.parStart v (hcore.mdFin v hv) with h | h
        · exact h
        · exact absurd hpv h
      refine ⟨[], by simp only [buildPathAux, hpv], by simp [hvs], ?_⟩
      intro c hcv
      have h0 : ((0 : α) : WithTop α) = (c : WithTop α) := by
        rw [← hcv, hvs, hcore.mdStart]
        exact_mod_cast rfl
      have hc0 : (0 : α) = c := by exact_mod_cast h0
      rw [← hc0]
      rfl
    | some w =>
      have hidxw := hcore.parDone v w hpv hv
      have hwdone := (hcore.parProp v w hpv).1
      obtain ⟨e, he, het, heq⟩ := (hcore.parProp v w hpv).2
      have hidxv : done.indexOf v < done.length := List.indexOf_lt_length.mpr hv
      obtain ⟨tl, htl, hlast, hweight⟩ := ih w (acc ++ [v]) hwdone (by omega)
      refine ⟨w :: tl, ?_, ?_, ?_⟩
      · rw [show buildPathAux st.par (m + 1 + 1) v acc =
          buildPathAux st.par (m + 1) w (acc ++ [v]) from by
            simp only [buildPathAux, hpv]]
        rw [htl]
        simp
      · rw [List.getLast?_cons_cons]
        exact hlast
      · intro c hcv
        obtain ⟨cw, hcw⟩ : ∃ cw : α, st.md.getD w ⊤ = (cw : WithTop α) := by
          cases hmw : st.md.getD w ⊤ with
          | top => exact absurd hmw (hcore.mdFin w hwdone)
          | coe cw => exact ⟨cw, rfl⟩
        have hpw := hweight cw hcw
        have hceq : c = cw + e.weight := by
          rw [hcv, hcw] at heq
          exact_mod_cast heq
        show distFn (verts.getD v default) (verts.getD w default) +
            pathWeight distFn verts (w :: tl) = c
        rw [hpw, hsym (verts.getD v default) (verts.getD w default), ← het,
          ← hwt w e he, hceq, add_comm]

/-- C10: Dijkstra's distances are never underestimates, even with the early
`break`: every finite `allDistances` entry is the total weight of an actual
walk from `start` in the edge graph, so is `totalDistance` when finite, and
a finite `totalDistance` of a reachable query is realised by the returned
`path` itself: its `pathWeight` under the graph's (symmetric) edge-weight
function is exactly `totalDistance`. -/
theorem solve_distances_realizable (g : List (List (Edge α))) (n start target : ℕ)
    (hw : ∀ w, ∀ e ∈ g.getD w [], (0 : α) ≤ e.weight)
    (hrange : ∀ w, ∀ e ∈ g.getD w [], e.targetVertex < n)
    (hstart : start < n) :
    (∀ v (c : α), (solve g n start target).allDistances.getD v ⊤ = (c : WithTop α) →
      ReachesW g start v c) ∧
    (∀ c : α, (solve g n start target).totalDistance = (c : WithTop α) →
      ReachesW g start target c) ∧
    (∀ (distFn : Vec3 α → Vec3 α → α) (verts : List (Vec3 α)),
      (∀ u, ∀ e ∈ g.getD u [], e.weight =
        distFn (verts.getD u default) (verts.getD e.targetVertex default)) →
      (∀ a b : Vec3 α, distFn a b = distFn b a) →
      (solve g n start target).reachable = true →
      ∀ c : α, (solve g n start target).totalDistance = (c : WithTop α) →
        pathWeight distFn verts (solve g n start target).path = c) := by
  obtain ⟨done', hcore, _⟩ := dloop_exit g n start target hw hrange
    (n + totalEntries g + 2) _ [] (DInv_init g n start hstart) (measure_init g n start)
  set stF := dijkstraLoop g target (n + totalEntries g + 2)
    ⟨(List.replicate n (⊤ : WithTop α)).set start 0, List.replicate n none,
      [((0 : WithTop α), start)]⟩ with hstF
  refine ⟨fun v c h => hcore.reach v c h, fun c h => hcore.reach target c h, ?_⟩
  intro distFn verts hwt hsym hre c hc
  have hreach : (solve g n start target).reachable =
      (decide (start = target) || decide (stF.par.getD target none ≠ none)) := rfl
  have hor : start = target ∨ stF.par.getD target none ≠ none := by
    rw [hreach] at hre
    simpa using hre
  have hpath : (solve g n start target).path =
      (buildPathAux stF.par (n + 1) target []).reverse := by
    show (if (solve g n start target).reachable = true then
      (buildPathAux stF.par (n + 1) target []).reverse else []) = _
    rw [if_pos hre]
  have hmd : stF.md.getD target ⊤ = (c : WithTop α) := hc
  cases hpt : stF.par.getD target none with
  | none =>
    have hst : start = target := by
      rcases hor with h | h
      · exact h
      · exact absurd hpt h
    have h0 : ((0 : α) : WithTop α) = (c : WithTop α) := by
      rw [← hmd, ← hst, hcore.mdStart]
      exact_mod_cast rfl
    have hc0 : (0 : α) = c := by exact_mod_cast h0
    rw [hpath, show buildPathAux stF.par (n + 1) target [] = [target] from by
      simp only [buildPathAux, hpt, List.nil_append]]
    rw [← hc0]
    rfl
  | some w =>
    have hwdone := (hcore.parProp target w hpt).1
    obtain ⟨e, he, het, heq⟩ := (hcore.parProp target w hpt).2
    have hlen : done'.length ≤ n :=
      nodup_bounded_length_le done' n hcore.doneNodup hcore.doneRange
    have hidx : done'.indexOf w ≤ n - 1 := by
      have := List.indexOf_lt_length.mpr hwdone
      omega
    have hn : n - 1 + 1 = n := by omega
    obtain ⟨tl, htl, hlast, hweight⟩ :=
      buildPath_chain_weight g n start distFn verts stF done' hcore hwt hsym (n - 1) w
        [target] hwdone hidx
    rw [hn] at htl
    obtain ⟨cw, hcw⟩ : ∃ cw : α, stF.md.getD w ⊤ = (cw : WithTop α) := by
      cases hmw : stF.md.getD w ⊤ with
      | top => exact absurd hmw (hcore.mdFin w hwdone)
      | coe cw => exact ⟨cw, rfl⟩
    have hpw := hweight cw hcw
    have hceq : c = cw + e.weight := by
      rw [hmd, hcw] at heq
      exact_mod_cast heq
    rw [hpath, show buildPathAux stF.par (n + 1) target [] =
      buildPathAux stF.par n w [target] from by
        simp only [buildPathAux, hpt, List.nil_append]]
    rw [htl]
    simp only [List.cons_append, List.nil_append]
    rw [pathWeight_reverse distFn verts hsym (w :: tl) target]
    show distFn (verts.getD target default) (verts.getD w default) +
        pathWeight distFn verts (w :: tl) = c
    rw [hpw, hsym (verts.getD target default) (verts.getD w default), ← het,
      ← hwt w e he, hceq, add_comm]

unseal Rat.add Rat.mul Rat.sub Rat.inv Rat.ofScientific in
/-- Witness for `solve_distances_realizable`: the distance `1` computed for
vertex `1` is realised by a walk, and the returned path `[0, 1]` has
`pathWeight` exactly `1` under the squared-distance weight function that
generated the graph. -/
theorem solve_distances_realizable_witness :
    ReachesW [[(⟨1, (1 : ℚ)⟩ : Edge ℚ)], [⟨0, 1⟩]] 0 1 1 ∧
      pathWeight (fun a b => sqDist a b) ([⟨0, 0, 0⟩, ⟨1, 0, 0⟩] : List (Vec3 ℚ))
        (solve [[(⟨1, (1 : ℚ)⟩ : Edge ℚ)], [⟨0, 1⟩]] 2 0 1).path = 1 := by
  have hw : ∀ w, ∀ e ∈ ([[(⟨1, (1 : ℚ)⟩ : Edge ℚ)], [⟨0, 1⟩]] : List (List (Edge ℚ))).getD w [],
      (0 : ℚ) ≤ e.weight := by
    intro w e he
    rcases w with _ | _ | w
    · rw [List.mem_singleton.mp he]; norm_num
    · rw [List.mem_singleton.mp he]; norm_num
    · exact absurd he (List.not_mem_nil e)
  have hr : ∀ w, ∀ e ∈ ([[(⟨1, (1 : ℚ)⟩ : Edge ℚ)], [⟨0, 1⟩]] : List (List (Edge ℚ))).getD w [],
      e.targetVertex < 2 := by
    intro w e he
    rcases w with _ | _ | w
    · rw [List.mem_singleton.mp he]; norm_num
    · rw [List.mem_singleton.mp he]; norm_num
    · exact absurd he (List.not_mem_nil e)
  have hwt : ∀ u, ∀ e ∈ ([[(⟨1, (1 : ℚ)⟩ : Edge ℚ)], [⟨0, 1⟩]] : List (List (Edge ℚ))).getD u [],
      e.weight = sqDist (([⟨0, 0, 0⟩, ⟨1, 0, 0⟩] : List (Vec3 ℚ)).getD u default)
        (([⟨0, 0, 0⟩, ⟨1, 0, 0⟩] : List (Vec3 ℚ)).getD e.targetVertex default) := by
    intro u e he
    rcases u with _ | _ | u
    · rw [List.mem_singleton.mp he]; decide
    · rw [List.mem_singleton.mp he]; decide
    · exact absurd he (List.not_mem_nil e)
  have hsym : ∀ a b : Vec3 ℚ, sqDist a b = sqDist b a := fun a b => sqDist_comm a b
  have h := solve_distances_realizable [[(⟨1, (1 : ℚ)⟩ : Edge ℚ)], [⟨0, 1⟩]] 2 0 1
    hw hr (by decide)
  exact ⟨h.1 1 1 (by decide),
    h.2.2 (fun a b => sqDist a b) [⟨0, 0, 0⟩, ⟨1, 0, 0⟩] hwt hsym (by decide) 1
      (by decide)⟩

/-- Following the parent chain from an expanded vertex appends the chain and
ends at `start` (the chain strictly descends in expansion order). -/
theorem buildPath_chain (g : List (List (Edge α))) (n start : ℕ)
    (st : DState α) (done : List ℕ) (hcore : DInvCore g n start st done) :
    ∀ (k v : ℕ) (acc : List ℕ), v ∈ done → done.indexOf v ≤ k →
      ∃ tl, buildPathAux st.par (k + 1) v acc = acc ++ v :: tl ∧
        (v :: tl).getLast? = some start := by
  intro k
  induction k with
  | zero =>
    intro v acc hv hidx
    cases hpv : st.par.getD v none with
    | none =>
      refine ⟨[], by simp only [buildPathAux, hpv], ?_⟩
      rcases hcore.parStart v (hcore.mdFin v hv) with h | h
      · simp [h]
      · exact absurd hpv h
    | some w =>
      exfalso
      have := hcore.parDone v w hpv hv
      omega
  | succ m ih =>
    intro v acc hv hidx
    cases hpv : st.par.getD v none with
    | none =>
      refine ⟨[], by simp only [buildPathAux, hpv], ?_⟩
      rcases hcore.parStart v (hcore.mdFin v hv) with h | h
      · simp [h]
      · exact absurd hpv h
    | some w =>
      have hidxw := hcore.parDone v w hpv hv
      have hwdone := (hcore.parProp v w hpv).1
      have hidxv : done.indexOf v < done.length := List.indexOf_lt_length.mpr hv
      obtain ⟨tl, htl, hlast⟩ := ih w (acc ++ [v]) hwdone (by omega)
      refine ⟨w :: tl, ?_, ?_⟩
      · rw [show buildPathAux st.par (m + 1 + 1) v acc =
          buildPathAux st.par (m + 1) w (acc ++ [v]) from by
            simp only [buildPathAux, hpv]]
        rw [htl]
        simp
      · rw [List.getLast?_cons_cons]
        exact hlast

/-- C4: when `reachable` is true the returned path runs from `start` to
`target` and `allDistances[target] = totalDistance`; `reachable` is true iff
`start = target` or the loop recorded a predecessor for `target`. -/
theorem solve_reachable_path (g : List (List (Edge α))) (n start target : ℕ)
    (hw : ∀ w, ∀ e ∈ g.getD w [], (0 : α) ≤ e.weight)
    (hrange : ∀ w, ∀ e ∈ g.getD w [], e.targetVertex < n)
    (hstart : start < n) :
    ((solve g n start target).reachable = true ↔
      (start = target ∨ (dijkstraLoop g target (n + totalEntries g + 2)
        ⟨(List.replicate n (⊤ : WithTop α)).set start 0, List.replicate n none,
          [((0 : WithTop α), start)]⟩).par.getD target none ≠ none)) ∧
    ((solve g n start target).reachable = true →
      (solve g n start target).path.head? = some start ∧
      (solve g n start target).path.getLast? = some target ∧
      (solve g n start target).allDistances.getD target ⊤ =
        (solve g n start target).totalDistance) := by
  obtain ⟨done', hcore, _⟩ := dloop_exit g n start target hw hrange
    (n + totalEntries g + 2) _ [] (DInv_init g n start hstart) (measure_init g n start)
  set stF := dijkstraLoop g target (n + totalEntries g + 2)
    ⟨(List.replicate n (⊤ : WithTop α)).set start 0, List.replicate n none,
      [((0 : WithTop α), start)]⟩ with hstF
  have hreach : (solve g n start target).reachable =
      (decide (start = target) || decide (stF.par.getD target none ≠ none)) := rfl
  constructor
  · rw [hreach]
    simp
  · intro hre
    have hor : start = target ∨ stF.par.getD target none ≠ none := by
      rw [hreach] at hre
      simpa using hre
    have hpath : (solve g n start target).path =
        (buildPathAux stF.par (n + 1) target []).reverse := by
      show (if (solve g n start target).reachable = true then
        (buildPathAux stF.par (n + 1) target []).reverse else []) = _
      rw [if_pos hre]
    refine ⟨?_, ?_, rfl⟩
    · rw [hpath]
      cases hpt : stF.par.getD target none with
      | none =>
        have hst : start = target := by
          rcases hor with h | h
          · exact h
          · exact absurd hpt h
        have hn1 : n + 1 = n + 1 := rfl
        rw [show buildPathAux stF.par (n + 1) target [] = [target] from by
          simp only [buildPathAux, hpt, List.nil_append]]
        simp [hst]
      | some w =>
        have hwdone := (hcore.parProp target w hpt).1
        have hlen : done'.length ≤ n :=
          nodup_bounded_length_le done' n hcore.doneNodup hcore.doneRange
        have hidx : done'.indexOf w ≤ n - 1 := by
          have := List.indexOf_lt_length.mpr hwdone
          omega
        have hn : n - 1 + 1 = n := by omega
        obtain ⟨tl, htl, hlast⟩ :=
          buildPath_chain g n start stF done' hcore (n - 1) w [target] hwdone hidx
        rw [hn] at htl
        rw [show buildPathAux stF.par (n + 1) target [] =
          buildPathAux stF.par n w [target] from by
            simp only [buildPathAux, hpt, List.nil_append]]
        rw [htl, List.head?_reverse]
        show (target :: w :: tl).getLast? = some start
        rw [List.getLast?_cons_cons]
        exact hlast
    · rw [hpath, List.getLast?_reverse]
      cases hpt : stF.par.getD target none with
      | none =>
        rw [show buildPathAux stF.par (n + 1) target [] = [target] from by
          simp only [buildPathAux, hpt, List.nil_append]]
        rfl
      | some w =>
        have hwdone := (hcore.parProp target w hpt).1
        have hlen : done'.length ≤ n :=
          nodup_bounded_length_le done' n hcore.doneNodup hcore.doneRange
        have hidx : done'.indexOf w ≤ n - 1 := by
          have := List.indexOf_lt_length.mpr hwdone
          omega
        have hn : n - 1 + 1 = n := by omega
        obtain ⟨tl, htl, hlast⟩ :=
          buildPath_chain g n start stF done' hcore (n - 1) w [target] hwdone hidx
        rw [hn] at htl
        rw [show buildPathAux stF.par (n + 1) target [] =
          buildPathAux stF.par n w [target] from by
            simp only [buildPathAux, hpt, List.nil_append]]
        rw [htl]
        rfl

unseal Rat.add Rat.mul Rat.sub Rat.inv Rat.ofScientific in
/-- Witness for `solve_reachable_path` on the two-vertex graph over `ℚ`. -/
theorem solve_reachable_path_witness :
    (solve [[(⟨1, (1 : ℚ)⟩ : Edge ℚ)], [⟨0, 1⟩]] 2 0 1).path.head? = some 0 ∧
    (solve [[(⟨1, (1 : ℚ)⟩ : Edge ℚ)], [⟨0, 1⟩]] 2 0 1).path.getLast? = some 1 ∧
    (solve [[(⟨1, (1 : ℚ)⟩ : Edge ℚ)], [⟨0, 1⟩]] 2 0 1).allDistances.getD 1 ⊤ =
      (solve [[(⟨1, (1 : ℚ)⟩ : Edge ℚ)], [⟨0, 1⟩]] 2 0 1).totalDistance := by
  have hw : ∀ w, ∀ e ∈ ([[(⟨1, (1 : ℚ)⟩ : Edge ℚ)], [⟨0, 1⟩]] : List (List (Edge ℚ))).getD w [],
      (0 : ℚ) ≤ e.weight := by
    intro w e he
    rcases w with _ | _ | w
    · rw [List.mem_singleton.mp he]; norm_num
    · rw [List.mem_singleton.mp he]; norm_num
    · exact absurd he (List.not_mem_nil e)
  have hr : ∀ w, ∀ e ∈ ([[(⟨1, (1 : ℚ)⟩ : Edge ℚ)], [⟨0, 1⟩]] : List (List (Edge ℚ))).getD w [],
      e.targetVertex < 2 := by
    intro w e he
    rcases w with _ | _ | w
    · rw [List.mem_singleton.mp he]; norm_num
    · rw [List.mem_singleton.mp he]; norm_num
    · exact absurd he (List.not_mem_nil e)
  exact (solve_reachable_path [[(⟨1, (1 : ℚ)⟩ : Edge ℚ)], [⟨0, 1⟩]] 2 0 1 hw hr
    (by decide)).2 (by decide)

set_option maxHeartbeats 1000000 in
/-- The Euclidean graph built from the unit tetrahedron, evaluated. -/
theorem tetra_graph_eval :
    buildGraph (fun a b => Real.sqrt (sqDist a b)) tetraVerts tetraFaces =
      tetraGraph (Real.sqrt 2) := by
  have h01 : Real.sqrt (sqDist ((⟨0, 0, 0⟩ : Vec3 ℝ)) ⟨1, 0, 0⟩) = 1 := by
    rw [show sqDist ((⟨0, 0, 0⟩ : Vec3 ℝ)) ⟨1, 0, 0⟩ = 1 by norm_num [sqDist]]
    exact Real.sqrt_one
  have h20 : Real.sqrt (sqDist ((⟨0, 1, 0⟩ : Vec3 ℝ)) ⟨0, 0, 0⟩) = 1 := by
    rw [show sqDist ((⟨0, 1, 0⟩ : Vec3 ℝ)) ⟨0, 0, 0⟩ = 1 by norm_num [sqDist]]
    exact Real.sqrt_one
  have h30 : Real.sqrt (sqDist ((⟨0, 0, 1⟩ : Vec3 ℝ)) ⟨0, 0, 0⟩) = 1 := by
    rw [show sqDist ((⟨0, 0, 1⟩ : Vec3 ℝ)) ⟨0, 0, 0⟩ = 1 by norm_num [sqDist]]
    exact Real.sqrt_one
  have h02 : Real.sqrt (sqDist ((⟨0, 0, 0⟩ : Vec3 ℝ)) ⟨0, 1, 0⟩) = 1 := by
    rw [show sqDist ((⟨0, 0, 0⟩ : Vec3 ℝ)) ⟨0, 1, 0⟩ = 1 by norm_num [sqDist]]
    exact Real.sqrt_one
  have h12 : Real.sqrt (sqDist ((⟨1, 0, 0⟩ : Vec3 ℝ)) ⟨0, 1, 0⟩) = Real.sqrt 2 := by
    rw [show sqDist ((⟨1, 0, 0⟩ : Vec3 ℝ)) ⟨0, 1, 0⟩ = 2 by norm_num [sqDist]]
  have h13 : Real.sqrt (sqDist ((⟨1, 0, 0⟩ : Vec3 ℝ)) ⟨0, 0, 1⟩) = Real.sqrt 2 := by
    rw [show sqDist ((⟨1, 0, 0⟩ : Vec3 ℝ)) ⟨0, 0, 1⟩ = 2 by norm_num [sqDist]]
  have h31 : Real.sqrt (sqDist ((⟨0, 0, 1⟩ : Vec3 ℝ)) ⟨1, 0, 0⟩) = Real.sqrt 2 := by
    rw [show sqDist ((⟨0, 0, 1⟩ : Vec3 ℝ)) ⟨1, 0, 0⟩ = 2 by norm_num [sqDist]]
  have h23 : Real.sqrt (sqDist ((⟨0, 1, 0⟩ : Vec3 ℝ)) ⟨0, 0, 1⟩) = Real.sqrt 2 := by
    rw [show sqDist ((⟨0, 1, 0⟩ : Vec3 ℝ)) ⟨0, 0, 1⟩ = 2 by norm_num [sqDist]]
  show [[⟨1, Real.sqrt (sqDist ((⟨0, 0, 0⟩ : Vec3 ℝ)) ⟨1, 0, 0⟩)⟩,
         ⟨2, Real.sqrt (sqDist ((⟨0, 1, 0⟩ : Vec3 ℝ)) ⟨0, 0, 0⟩)⟩,
         ⟨1, Real.sqrt (sqDist ((⟨0, 0, 0⟩ : Vec3 ℝ)) ⟨1, 0, 0⟩)⟩,
         ⟨3, Real.sqrt (sqDist ((⟨0, 0, 1⟩ : Vec3 ℝ)) ⟨0, 0, 0⟩)⟩,
         ⟨2, Real.sqrt (sqDist ((⟨0, 0, 0⟩ : Vec3 ℝ)) ⟨0, 1, 0⟩)⟩,
         ⟨3, Real.sqrt (sqDist ((⟨0, 0, 1⟩ : Vec3 ℝ)) ⟨0, 0, 0⟩)⟩],
        [⟨0, Real.sqrt (sqDist ((⟨0, 0, 0⟩ : Vec3 ℝ)) ⟨1, 0, 0⟩)⟩,
         ⟨2, Real.sqrt (sqDist ((⟨1, 0, 0⟩ : Vec3 ℝ)) ⟨0, 1, 0⟩)⟩,
         ⟨0, Real.sqrt (sqDist ((⟨0, 0, 0⟩ : Vec3 ℝ)) ⟨1, 0, 0⟩)⟩,
         ⟨3, Real.sqrt (sqDist ((⟨1, 0, 0⟩ : Vec3 ℝ)) ⟨0, 0, 1⟩)⟩,
         ⟨2, Real.sqrt (sqDist ((⟨1, 0, 0⟩ : Vec3 ℝ)) ⟨0, 1, 0⟩)⟩,
         ⟨3, Real.sqrt (sqDist ((⟨0, 0, 1⟩ : Vec3 ℝ)) ⟨1, 0, 0⟩)⟩],
        [⟨1, Real.sqrt (sqDist ((⟨1, 0, 0⟩ : Vec3 ℝ)) ⟨0, 1, 0⟩)⟩,
         ⟨0, Real.sqrt (sqDist ((⟨0, 1, 0⟩ : Vec3 ℝ)) ⟨0, 0, 0⟩)⟩,
         ⟨0, Real.sqrt (sqDist ((⟨0, 0, 0⟩ : Vec3 ℝ)) ⟨0, 1, 0⟩)⟩,
         ⟨3, Real.sqrt (sqDist ((⟨0, 1, 0⟩ : Vec3 ℝ)) ⟨0, 0, 1⟩)⟩,
         ⟨1, Real.sqrt (sqDist ((⟨1, 0, 0⟩ : Vec3 ℝ)) ⟨0, 1, 0⟩)⟩,
         ⟨3, Real.sqrt (sqDist ((⟨0, 1, 0⟩ : Vec3 ℝ)) ⟨0, 0, 1⟩)⟩],
        [⟨1, Real.sqrt (sqDist ((⟨1, 0, 0⟩ : Vec3 ℝ)) ⟨0, 0, 1⟩)⟩,
         ⟨0, Real.sqrt (sqDist ((⟨0, 0, 1⟩ : Vec3 ℝ)) ⟨0, 0, 0⟩)⟩,
         ⟨2, Real.sqrt (sqDist ((⟨0, 1, 0⟩ : Vec3 ℝ)) ⟨0, 0, 1⟩)⟩,
         ⟨0, Real.sqrt (sqDist ((⟨0, 0, 1⟩ : Vec3 ℝ)) ⟨0, 0, 0⟩)⟩,
         ⟨2, Real.sqrt (sqDist ((⟨0, 1, 0⟩ : Vec3 ℝ)) ⟨0, 0, 1⟩)⟩,
         ⟨1, Real.sqrt (sqDist ((⟨0, 0, 1⟩ : Vec3 ℝ)) ⟨1, 0, 0⟩)⟩]] = tetraGraph (Real.sqrt 2)
  rw [h01, h20, h30, h02, h12, h13, h31, h23, tetraGraph]

set_option maxHeartbeats 1000000 in
/-- Dijkstra `0 → 3` on the tetrahedron graph, for any off-axis weight
`s > 1`: the run expands `0`, then `1` and `2` without improvements, then
pops the target and stops. -/
theorem tetra_solve_eval (s : ℝ) (hs : 1 < s) :
    solve (tetraGraph s) 4 0 3 =
      ⟨(1 : WithTop ℝ), true, [0, 3], [(0 : WithTop ℝ), 1, 1, 1]⟩ := by
  have hs0 : (0 : ℝ) < s := lt_trans zero_lt_one hs
  have r1 : relaxOne 0 (⟨[0, ⊤, ⊤, ⊤], [none, none, none, none], []⟩ : DState ℝ) ⟨1, 1⟩ =
      ⟨[0, 1, ⊤, ⊤], [none, some 0, none, none], [((1 : WithTop ℝ), 1)]⟩ := by
    simp [relaxOne, List.getD, pqInsert, List.set]
  have r2 : relaxOne 0 (⟨[0, 1, ⊤, ⊤], [none, some 0, none, none],
      [((1 : WithTop ℝ), 1)]⟩ : DState ℝ) ⟨2, 1⟩ =
      ⟨[0, 1, 1, ⊤], [none, some 0, some 0, none],
        [((1 : WithTop ℝ), 1), (1, 2)]⟩ := by
    simp [relaxOne, List.getD, pqInsert, List.set, pairLe]
  have r3 : relaxOne 0 (⟨[0, 1, 1, ⊤], [none, some 0, some 0, none],
      [((1 : WithTop ℝ), 1), (1, 2)]⟩ : DState ℝ) ⟨1, 1⟩ =
      ⟨[0, 1, 1, ⊤], [none, some 0, some 0, none],
        [((1 : WithTop ℝ), 1), (1, 2)]⟩ := by
    simp [relaxOne, List.getD, pqInsert, List.set, pairLe]
  have r4 : relaxOne 0 (⟨[0, 1, 1, ⊤], [none, some 0, some 0, none],
      [((1 : WithTop ℝ), 1), (1, 2)]⟩ : DState ℝ) ⟨3, 1⟩ =
      ⟨[0, 1, 1, 1], [none, some 0, some 0, some 0],
        [((1 : WithTop ℝ), 1), (1, 2), (1, 3)]⟩ := by
    simp [relaxOne, List.getD, pqInsert, List.set, pairLe]
  have r5 : relaxOne 0 (⟨[0, 1, 1, 1], [none, some 0, some 0, some 0],
      [((1 : WithTop ℝ), 1), (1, 2), (1, 3)]⟩ : DState ℝ) ⟨2, 1⟩ =
      ⟨[0, 1, 1, 1], [none, some 0, some 0, some 0],
        [((1 : WithTop ℝ), 1), (1, 2), (1, 3)]⟩ := by
    simp [relaxOne, List.getD, pqInsert, List.set, pairLe]
  have r6 : relaxOne 0 (⟨[0, 1, 1, 1], [none, some 0, some 0, some 0],
      [((1 : WithTop ℝ), 1), (1, 2), (1, 3)]⟩ : DState ℝ) ⟨3, 1⟩ =
      ⟨[0, 1, 1, 1], [none, some 0, some 0, some 0],
        [((1 : WithTop ℝ), 1), (1, 2), (1, 3)]⟩ := by
    simp [relaxOne, List.getD, pqInsert, List.set, pairLe]
  have hloop : dijkstraLoop (tetraGraph s) 3 (4 + totalEntries (tetraGraph s) + 2)
      ⟨(List.replicate 4 (⊤ : WithTop ℝ)).set 0 0, List.replicate 4 none,
        [((0 : WithTop ℝ), 0)]⟩ =
      ⟨[0, 1, 1, 1], [none, some 0, some 0, some 0], []⟩ := by
    show dijkstraLoop (tetraGraph s) 3 (29 + 1)
      ⟨[0, ⊤, ⊤, ⊤], [none, none, none, none], [((0 : WithTop ℝ), 0)]⟩ = _
    rw [dloop_expand _ 3 29 _ _ _ 0 _ (by decide) (by simp [List.getD])]
    rw [show (tetraGraph s).getD 0 [] =
      [⟨1, 1⟩, ⟨2, 1⟩, ⟨1, 1⟩, ⟨3, 1⟩, ⟨2, 1⟩, ⟨3, 1⟩] from rfl]
    rw [List.foldl_cons, r1, List.foldl_cons, r2, List.foldl_cons, r3,
      List.foldl_cons, r4, List.foldl_cons, r5, List.foldl_cons, r6, List.foldl_nil]
    show dijkstraLoop (tetraGraph s) 3 (28 + 1)
      ⟨[0, 1, 1, 1], [none, some 0, some 0, some 0],
        [((1 : WithTop ℝ), 1), (1, 2), (1, 3)]⟩ = _
    rw [dloop_expand _ 3 28 _ _ _ 1 _ (by decide) (by simp [List.getD])]
    rw [show (tetraGraph s).getD 1 [] =
      [⟨0, 1⟩, ⟨2, s⟩, ⟨0, 1⟩, ⟨3, s⟩, ⟨2, s⟩, ⟨3, s⟩] from rfl]
    rw [foldl_relax_skip 1 _ _ ?hb1]
    case hb1 =>
      intro e he
      fin_cases he <;> simp [List.getD] <;>
        exact_mod_cast (by linarith : (1 : ℝ) ≤ 1 + s)
    show dijkstraLoop (tetraGraph s) 3 (27 + 1)
      ⟨[0, 1, 1, 1], [none, some 0, some 0, some 0],
        [((1 : WithTop ℝ), 2), (1, 3)]⟩ = _
    rw [dloop_expand _ 3 27 _ _ _ 2 _ (by decide) (by simp [List.getD])]
    rw [show (tetraGraph s).getD 2 [] =
      [⟨1, s⟩, ⟨0, 1⟩, ⟨0, 1⟩, ⟨3, s⟩, ⟨1, s⟩, ⟨3, s⟩] from rfl]
    rw [foldl_relax_skip 2 _ _ ?hb2]
    case hb2 =>
      intro e he
      fin_cases he <;> simp [List.getD] <;>
        exact_mod_cast (by linarith : (1 : ℝ) ≤ 1 + s)
    show dijkstraLoop (tetraGraph s) 3 (26 + 1)
      ⟨[0, 1, 1, 1], [none, some 0, some 0, some 0], [((1 : WithTop ℝ), 3)]⟩ = _
    rw [dloop_target]
  show (⟨(dijkstraLoop (tetraGraph s) 3 (4 + totalEntries (tetraGraph s) + 2)
      ⟨(List.replicate 4 (⊤ : WithTop ℝ)).set 0 0, List.replicate 4 none,
        [((0 : WithTop ℝ), 0)]⟩).md.getD 3 ⊤, _, _, _⟩ : DijkstraResult ℝ) = _
  rw [hloop]
  rfl

theorem one_lt_sqrt_two : (1 : ℝ) < Real.sqrt 2 := by
  rw [show (1 : ℝ) = Real.sqrt 1 from Real.sqrt_one.symm]
  exact Real.sqrt_lt_sqrt (by norm_num) (by norm_num)

/-- C3 (amended): Dijkstra `0 → 3` on the unit tetrahedron returns
`reachable = true` and `path = [0, 3]` as claimed, but
`totalDistance = 1` — the Euclidean length of the direct edge `(0, 3)` —
not `√2`, which is the distance between the off-origin vertices. -/
theorem tetra_dijkstra_correct :
    meshSolve (fun a b => Real.sqrt (sqDist a b)) tetraVerts tetraFaces 0 3 =
      ⟨(1 : WithTop ℝ), true, [0, 3], [(0 : WithTop ℝ), 1, 1, 1]⟩ := by
  unfold meshSolve
  rw [show tetraVerts.length = 4 from rfl, tetra_graph_eval]
  exact tetra_solve_eval (Real.sqrt 2) one_lt_sqrt_two

/-- C3 counterexample: the total distance of the tetrahedron run `0 → 3` is
`1`, not `√2 ≈ 1.41421356` as the spec claims. -/
theorem tetra_totalDistance_ne_sqrt2 :
    (meshSolve (fun a b => Real.sqrt (sqDist a b)) tetraVerts tetraFaces 0 3).totalDistance =
        ((1 : ℝ) : WithTop ℝ) ∧
      (meshSolve (fun a b => Real.sqrt (sqDist a b)) tetraVerts tetraFaces 0 3).totalDistance ≠
        ((Real.sqrt 2 : ℝ) : WithTop ℝ) := by
  have heval : (meshSolve (fun a b => Real.sqrt (sqDist a b)) tetraVerts tetraFaces
      0 3).totalDistance = ((1 : ℝ) : WithTop ℝ) := by
    unfold meshSolve
    rw [show tetraVerts.length = 4 from rfl, tetra_graph_eval,
      tetra_solve_eval (Real.sqrt 2) one_lt_sqrt_two]
    simp
  refine ⟨heval, ?_⟩
  rw [heval]
  intro hcontra
  have h1 : (1 : ℝ) = Real.sqrt 2 := by exact_mod_cast hcontra
  exact absurd h1 (ne_of_lt one_lt_sqrt_two)

set_option maxHeartbeats 1000000 in
/-- The Euclidean graph built from the collinear strip, evaluated. -/
theorem strip_graph_eval :
    buildGraph (fun a b => Real.sqrt (sqDist a b)) stripVerts stripFaces = stripGraph := by
  have h01 : Real.sqrt (sqDist ((⟨0, 0, 0⟩ : Vec3 ℝ)) ⟨1, 0, 0⟩) = 1 := by
    rw [show sqDist ((⟨0, 0, 0⟩ : Vec3 ℝ)) ⟨1, 0, 0⟩ = 1 by norm_num [sqDist]]
    exact Real.sqrt_one
  have h20 : Real.sqrt (sqDist ((⟨3, 0, 0⟩ : Vec3 ℝ)) ⟨0, 0, 0⟩) = 3 := by
    rw [show sqDist ((⟨3, 0, 0⟩ : Vec3 ℝ)) ⟨0, 0, 0⟩ = 3 ^ 2 by norm_num [sqDist]]
    exact Real.sqrt_sq (by norm_num)
  have h12 : Real.sqrt (sqDist ((⟨1, 0, 0⟩ : Vec3 ℝ)) ⟨3, 0, 0⟩) = 2 := by
    rw [show sqDist ((⟨1, 0, 0⟩ : Vec3 ℝ)) ⟨3, 0, 0⟩ = 2 ^ 2 by norm_num [sqDist]]
    exact Real.sqrt_sq (by norm_num)
  have h23 : Real.sqrt (sqDist ((⟨3, 0, 0⟩ : Vec3 ℝ)) ⟨9, 0, 0⟩) = 6 := by
    rw [show sqDist ((⟨3, 0, 0⟩ : Vec3 ℝ)) ⟨9, 0, 0⟩ = 6 ^ 2 by norm_num [sqDist]]
    exact Real.sqrt_sq (by norm_num)
  have h31 : Real.sqrt (sqDist ((⟨9, 0, 0⟩ : Vec3 ℝ)) ⟨1, 0, 0⟩) = 8 := by
    rw [show sqDist ((⟨9, 0, 0⟩ : Vec3 ℝ)) ⟨1, 0, 0⟩ = 8 ^ 2 by norm_num [sqDist]]
    exact Real.sqrt_sq (by norm_num)
  show [[⟨1, Real.sqrt (sqDist ((⟨0, 0, 0⟩ : Vec3 ℝ)) ⟨1, 0, 0⟩)⟩,
         ⟨2, Real.sqrt (sqDist ((⟨3, 0, 0⟩ : Vec3 ℝ)) ⟨0, 0, 0⟩)⟩],
        [⟨0, Real.sqrt (sqDist ((⟨0, 0, 0⟩ : Vec3 ℝ)) ⟨1, 0, 0⟩)⟩,
         ⟨2, Real.sqrt (sqDist ((⟨1, 0, 0⟩ : Vec3 ℝ)) ⟨3, 0, 0⟩)⟩,
         ⟨2, Real.sqrt (sqDist ((⟨1, 0, 0⟩ : Vec3 ℝ)) ⟨3, 0, 0⟩)⟩,
         ⟨3, Real.sqrt (sqDist ((⟨9, 0, 0⟩ : Vec3 ℝ)) ⟨1, 0, 0⟩)⟩],
        [⟨1, Real.sqrt (sqDist ((⟨1, 0, 0⟩ : Vec3 ℝ)) ⟨3, 0, 0⟩)⟩,
         ⟨0, Real.sqrt (sqDist ((⟨3, 0, 0⟩ : Vec3 ℝ)) ⟨0, 0, 0⟩)⟩,
         ⟨1, Real.sqrt (sqDist ((⟨1, 0, 0⟩ : Vec3 ℝ)) ⟨3, 0, 0⟩)⟩,
         ⟨3, Real.sqrt (sqDist ((⟨3, 0, 0⟩ : Vec3 ℝ)) ⟨9, 0, 0⟩)⟩],
        [⟨2, Real.sqrt (sqDist ((⟨3, 0, 0⟩ : Vec3 ℝ)) ⟨9, 0, 0⟩)⟩,
         ⟨1, Real.sqrt (sqDist ((⟨9, 0, 0⟩ : Vec3 ℝ)) ⟨1, 0, 0⟩)⟩]] = stripGraph
  rw [h01, h20, h12, h23, h31, stripGraph]

set_option maxHeartbeats 1000000 in
/-- Dijkstra `0 → 1` on the strip: vertex `0` is expanded, then the target
is popped immediately and the loop breaks, leaving vertex `3` untouched. -/
theorem strip_solve_eval :
    meshSolve (fun a b => Real.sqrt (sqDist a b)) stripVerts stripFaces 0 1 =
      ⟨(1 : WithTop ℝ), true, [0, 1], [(0 : WithTop ℝ), 1, 3, ⊤]⟩ := by
  unfold meshSolve
  rw [show stripVerts.length = 4 from rfl, strip_graph_eval]
  have q1 : relaxOne 0 (⟨[0, ⊤, ⊤, ⊤], [none, none, none, none], []⟩ : DState ℝ) ⟨1, 1⟩ =
      ⟨[0, 1, ⊤, ⊤], [none, some 0, none, none], [((1 : WithTop ℝ), 1)]⟩ := by
    simp [relaxOne, List.getD, pqInsert, List.set]
  have q2 : relaxOne 0 (⟨[0, 1, ⊤, ⊤], [none, some 0, none, none],
      [((1 : WithTop ℝ), 1)]⟩ : DState ℝ) ⟨2, 3⟩ =
      ⟨[0, 1, 3, ⊤], [none, some 0, some 0, none],
        [((1 : WithTop ℝ), 1), (3, 2)]⟩ := by
    norm_num [relaxOne, List.getD, pqInsert, List.set, pairLe]
  have hloop : dijkstraLoop stripGraph 1 (4 + totalEntries stripGraph + 2)
      ⟨(List.replicate 4 (⊤ : WithTop ℝ)).set 0 0, List.replicate 4 none,
        [((0 : WithTop ℝ), 0)]⟩ =
      ⟨[0, 1, 3, ⊤], [none, some 0, some 0, none], [((3 : WithTop ℝ), 2)]⟩ := by
    show dijkstraLoop stripGraph 1 (17 + 1)
      ⟨[0, ⊤, ⊤, ⊤], [none, none, none, none], [((0 : WithTop ℝ), 0)]⟩ = _
    rw [dloop_expand _ 1 17 _ _ _ 0 _ (by decide) (by simp [List.getD])]
    rw [show stripGraph.getD 0 [] = [⟨1, 1⟩, ⟨2, 3⟩] from rfl]
    rw [List.foldl_cons, q1, List.foldl_cons, q2, List.foldl_nil]
    show dijkstraLoop stripGraph 1 (16 + 1)
      ⟨[0, 1, 3, ⊤], [none, some 0, some 0, none],
        [((1 : WithTop ℝ), 1), (3, 2)]⟩ = _
    rw [dloop_target]
  show (⟨(dijkstraLoop stripGraph 1 (4 + totalEntries stripGraph + 2)
      ⟨(List.replicate 4 (⊤ : WithTop ℝ)).set 0 0, List.replicate 4 none,
        [((0 : WithTop ℝ), 0)]⟩).md.getD 1 ⊤, _, _, _⟩ : DijkstraResult ℝ) = _
  rw [hloop]
  rfl

/-- C2 counterexample: on the collinear strip, Dijkstra `0 → 1` breaks as
soon as the target is popped; the edge `(2, 3)` of weight `6` is never
relaxed, so `allDistances[3] = ∞ > allDistances[2] + 6 = 9`, refuting the
claimed edge inequality. -/
theorem strip_dijkstra_edge_violated :
    ((⟨3, (6 : ℝ)⟩ : Edge ℝ) ∈
      (buildGraph (fun a b => Real.sqrt (sqDist a b)) stripVerts stripFaces).getD 2 []) ∧
    ¬ ((meshSolve (fun a b => Real.sqrt (sqDist a b)) stripVerts stripFaces
          0 1).allDistances.getD 3 ⊤ ≤
        (meshSolve (fun a b => Real.sqrt (sqDist a b)) stripVerts stripFaces
          0 1).allDistances.getD 2 ⊤ + ((6 : ℝ) : WithTop ℝ)) := by
  constructor
  · rw [strip_graph_eval]
    show (⟨3, (6 : ℝ)⟩ : Edge ℝ) ∈ [⟨1, 2⟩, ⟨0, 3⟩, ⟨1, 2⟩, (⟨3, 6⟩ : Edge ℝ)]
    exact List.mem_cons_of_mem _ (List.mem_cons_of_mem _ (List.mem_cons_of_mem _
      (List.mem_cons_self _ _)))
  · rw [strip_solve_eval]
    show ¬ (([(0 : WithTop ℝ), 1, 3, ⊤].getD 3 ⊤) ≤
      ([(0 : WithTop ℝ), 1, 3, ⊤].getD 2 ⊤) + ((6 : ℝ) : WithTop ℝ))
    rw [show ([(0 : WithTop ℝ), 1, 3, ⊤].getD 3 ⊤) = ⊤ from rfl,
      show ([(0 : WithTop ℝ), 1, 3, ⊤].getD 2 ⊤) = ((3 : ℝ) : WithTop ℝ) from by
        norm_num [List.getD],
      ← WithTop.coe_add]
    rw [top_le_iff]
    exact WithTop.coe_ne_top

end DijkstraClaims

end GeoEngine
